import Mathlib

/-!
# GB/OBC implicit-solvent core of AlGDock (`ForceFields/OBC/ReferenceObc_BAK.cpp`)

A shallow embedding of `ReferenceObc` in exact arithmetic.  The C++ `double` is read as an
element of an arbitrary linearly ordered field `α`; the calls into the C maths library
(`SQRT`, `EXP`, `LN`, `TANH`, `POW`) are the fields of a record `Libm α` handed to every
function, so each definition is an ordinary computable function.  Loops are left folds over the
index lists the C++ `for` statements run through, arrays behind raw pointers or sized by the
caller are total functions on indices, and the one array whose size belongs to the object
(`_obcChain`) is a list whose out-of-range subscript makes the call fail.

Statements that need no property of the maths library hold for every `α` and every `Libm α`;
statements about derivatives are over the reals with the exact functions (`Libm.IsExact`).
-/

set_option linter.unusedSectionVars false

namespace AlGDock

/-! ## Part I. Data model -/

/-- The C maths library calls made by `ReferenceObc_BAK.cpp`.  The macro `FABS` is not a
field: it is the absolute value of the ordered field. -/
structure Libm (α : Type) where
  /-- The call `SQRT(x)` -/
  SQRT : α → α
  /-- The call `EXP(x)` -/
  EXP : α → α
  /-- The call `LN(x)` -/
  LN : α → α
  /-- The call `TANH(x)` -/
  TANH : α → α
  /-- The call `POW(x, y)` -/
  POW : α → α → α

/-- The type `vector3`: three doubles, subscripted `[0]`, `[1]`, `[2]`. -/
abbrev vector3 (α : Type) := Fin 3 → α

/-- Modelled from the spec: the parameter container `ObcParameters` (declared in
`ObcParameters.h`, which is not among the sources).  One field per getter that
`ReferenceObc_BAK.cpp` calls; the per-atom arrays are read at indices below `numberOfAtoms`
only. -/
structure ObcParameters (α : Type) where
  /-- Result of `getNumberOfAtoms()` -/
  numberOfAtoms : Nat
  /-- Result of `getAtomicRadii()` -/
  atomicRadii : Nat → α
  /-- Result of `getScaledRadiusFactors()` -/
  scaledRadiusFactors : Nat → α
  /-- Result of `getDielectricOffset()` -/
  dielectricOffset : α
  /-- Result of `getAlphaObc()` -/
  alphaObc : α
  /-- Result of `getBetaObc()` -/
  betaObc : α
  /-- Result of `getGammaObc()` -/
  gammaObc : α
  /-- Result of `getSoluteDielectric()` -/
  soluteDielectric : α
  /-- Result of `getSolventDielectric()` -/
  solventDielectric : α
  /-- Result of `getElectricConstant()` -/
  electricConstant : α
  /-- Result of `getUseCutoff()` -/
  useCutoff : Bool
  /-- Result of `getCutoffDistance()` -/
  cutoffDistance : α
  /-- Result of `getStrength()` -/
  strength : α
  /-- Result of `getProbeRadius()` -/
  probeRadius : α
  /-- Result of `getPi4Asolv()` -/
  pi4Asolv : α

/-- The data members of a `ReferenceObc` object. -/
structure ReferenceObc (α : Type) where
  /-- The parameter object stored by the constructor or by `setObcParameters` -/
  _obcParameters : ObcParameters α
  /-- The flag behind `includeAceApproximation()` -/
  _includeAceApproximation : Int
  /-- The chain-derivative array returned by `getObcChain()` -/
  _obcChain : List α

/-- The five slots that `getDeltaR` fills (`XIndex`, `YIndex`, `ZIndex`, `R2Index`, `RIndex`). -/
structure DeltaR (α : Type) where
  /-- Slot `deltaR[XIndex]` -/
  XIndex : α
  /-- Slot `deltaR[YIndex]` -/
  YIndex : α
  /-- Slot `deltaR[ZIndex]` -/
  ZIndex : α
  /-- Slot `deltaR[R2Index]` -/
  R2Index : α
  /-- Slot `deltaR[RIndex]` -/
  RIndex : α

/-- What `computeBornEnergyForces` hands back: the returned energy, the force buffer it was
given, and the object with its overwritten cache. -/
structure EnergyForces (α : Type) where
  /-- The returned `obcEnergy` -/
  obcEnergy : α
  /-- The buffer `inputForces` after the call -/
  inputForces : Nat → vector3 α
  /-- The object after the call -/
  self : ReferenceObc α

/-- The three variables the first main loop of `computeBornEnergyForces` updates. -/
structure FirstLoop (α : Type) where
  /-- The accumulator `obcEnergy` -/
  obcEnergy : α
  /-- The scratch array `bornForces` -/
  bornForces : Nat → α
  /-- The buffer `inputForces` -/
  inputForces : Nat → vector3 α

/-! ## Part II. The routines of `ReferenceObc_BAK.cpp` -/

section Routines

variable {α : Type} [LinearOrderedField α]

/-- The constructor `ReferenceObc::ReferenceObc`: stores the parameters, switches the ACE term
on and sizes the cache to the atom count. -/
def ReferenceObc.new (obcParameters : ObcParameters α) : ReferenceObc α :=
  { _obcParameters := obcParameters
    _includeAceApproximation := 1
    _obcChain := List.replicate obcParameters.numberOfAtoms 0 }

/-- The method `ReferenceObc::setObcParameters`. -/
def ReferenceObc.setObcParameters (self : ReferenceObc α) (obcParameters : ObcParameters α) :
    ReferenceObc α :=
  { self with _obcParameters := obcParameters }

/-- The method `ReferenceObc::includeAceApproximation`. -/
def ReferenceObc.includeAceApproximation (self : ReferenceObc α) : Int :=
  self._includeAceApproximation

/-- The method `ReferenceObc::setIncludeAceApproximation`. -/
def ReferenceObc.setIncludeAceApproximation (self : ReferenceObc α)
    (includeAceApproximation : Int) : ReferenceObc α :=
  { self with _includeAceApproximation := includeAceApproximation }

/-- The method `ReferenceObc::getObcChain`. -/
def ReferenceObc.getObcChain (self : ReferenceObc α) : List α :=
  self._obcChain

/-- Modelled from the spec: the geometry helper `OpenMM::ReferenceForce::getDeltaR` (declared
in `ReferenceForce.h`, which is not among the sources).  It returns the per-axis displacement
between two 3-vectors, the squared distance and the distance.  The displacement runs from the
first argument to the second (`atomCoordinatesJ - atomCoordinatesI`), as in the OpenMM
reference platform whose class the source calls; only the sign statements about the forces
depend on this orientation. -/
def getDeltaR (M : Libm α) (atomCoordinatesI atomCoordinatesJ : vector3 α) : DeltaR α :=
  let dx := atomCoordinatesJ 0 - atomCoordinatesI 0
  let dy := atomCoordinatesJ 1 - atomCoordinatesI 1
  let dz := atomCoordinatesJ 2 - atomCoordinatesI 2
  let r2 := dx * dx + dy * dy + dz * dz
  { XIndex := dx, YIndex := dy, ZIndex := dz, R2Index := r2, RIndex := M.SQRT r2 }

/-- Lines 185-214 of `computeBornRadii`: what atom J adds to `sum` of atom I once the pair
has passed the cutoff test, from `offsetRadiusI`, the distance `r` and `scaledRadiusJ`. -/
def hctTerm (M : Libm α) (offsetRadiusI r scaledRadiusJ : α) : α :=
  let radiusIInverse := 1 / offsetRadiusI
  let rScaledRadiusJ := r + scaledRadiusJ
  if offsetRadiusI < rScaledRadiusJ then
    let rInverse := 1 / r
    let l_ij := if offsetRadiusI > |r - scaledRadiusJ| then offsetRadiusI
      else |r - scaledRadiusJ|
    let l_ij := 1 / l_ij
    let u_ij := 1 / rScaledRadiusJ
    let l_ij2 := l_ij * l_ij
    let u_ij2 := u_ij * u_ij
    let ratio := M.LN (u_ij / l_ij)
    let term := l_ij - u_ij + (1 / 4) * r * (u_ij2 - l_ij2)
      + ((1 / 2) * rInverse * ratio)
      + ((1 / 4) * scaledRadiusJ * scaledRadiusJ * rInverse) * (l_ij2 - u_ij2)
    if offsetRadiusI < scaledRadiusJ - r then
      term + 2 * (radiusIInverse - l_ij)
    else term
  else 0

/-- Lines 175-216 of `computeBornRadii`: the inner loop over `atomJ`, returning `sum`.  The
cutoff test reads the parameters stored in the object, everything else the ones passed. -/
def hctSum (M : Libm α) (self : ReferenceObc α) (obcParameters : ObcParameters α)
    (atomCoordinates : Nat → vector3 α) (atomI : Nat) : α :=
  let offsetRadiusI := obcParameters.atomicRadii atomI - obcParameters.dielectricOffset
  (List.range obcParameters.numberOfAtoms).foldl (fun sum atomJ =>
    if atomJ ≠ atomI then
      let deltaR := getDeltaR M (atomCoordinates atomI) (atomCoordinates atomJ)
      let r := deltaR.RIndex
      if self._obcParameters.useCutoff = true ∧ r > self._obcParameters.cutoffDistance then sum
      else
        let offsetRadiusJ := obcParameters.atomicRadii atomJ - obcParameters.dielectricOffset
        let scaledRadiusJ := offsetRadiusJ * obcParameters.scaledRadiusFactors atomJ
        sum + hctTerm M offsetRadiusI r scaledRadiusJ
    else sum) 0

/-- Lines 220-239 of `computeBornRadii`: the values written to `bornRadii[atomI]` and
`obcChain[atomI]`, from the finished `sum` of the inner loop. -/
def obcRemap (M : Libm α) (obcParameters : ObcParameters α) (Igrid : Option (Nat → α))
    (atomI : Nat) (sum : α) : α × α :=
  let radiusI := obcParameters.atomicRadii atomI
  let offsetRadiusI := radiusI - obcParameters.dielectricOffset
  let sum := sum * (1 / 2)
  let sum := match Igrid with
    | some grid => sum + grid atomI
    | none => sum
  let sum := sum * offsetRadiusI
  let sum2 := sum * sum
  let sum3 := sum * sum2
  let tanhSum := M.TANH (obcParameters.alphaObc * sum - obcParameters.betaObc * sum2
    + obcParameters.gammaObc * sum3)
  let bornRadius := 1 / (1 / offsetRadiusI - tanhSum / radiusI)
  let obcChain := offsetRadiusI * (obcParameters.alphaObc - 2 * obcParameters.betaObc * sum
    + 3 * obcParameters.gammaObc * sum2)
  let obcChain := (1 - tanhSum * tanhSum) * obcChain / radiusI
  (bornRadius, obcChain)

/-- The method `ReferenceObc::computeBornRadii`.  It writes `bornRadii[atomI]` and
`obcChain[atomI]` for every atom; the cache is never resized here, so the call fails (`none`)
at the first atom index that is out of range for it. -/
def computeBornRadii (M : Libm α) (self : ReferenceObc α) (obcParameters : ObcParameters α)
    (atomCoordinates : Nat → vector3 α) (Igrid : Option (Nat → α)) (bornRadii : Nat → α) :
    Option ((Nat → α) × ReferenceObc α) :=
  ((List.range obcParameters.numberOfAtoms).foldlM
    (fun (st : (Nat → α) × List α) atomI =>
      let out := obcRemap M obcParameters Igrid atomI
        (hctSum M self obcParameters atomCoordinates atomI)
      if atomI < st.2.length then
        some (Function.update st.1 atomI out.1, st.2.set atomI out.2)
      else none)
    (bornRadii, self.getObcChain)).map
    (fun st => (st.1, { self with _obcChain := st.2 }))

/-- The method `ReferenceObc::computeAceNonPolarForce`: returns the updated `*energy` and
`forces`. -/
def computeAceNonPolarForce (M : Libm α) (obcParameters : ObcParameters α)
    (bornRadii : Nat → α) (energy : α) (forces : Nat → α) : α × (Nat → α) :=
  let minusSix : α := -6
  let six : α := 6
  let strength := obcParameters.strength
  let probeRadius := obcParameters.probeRadius
  let surfaceAreaFactor := obcParameters.pi4Asolv
  let atomicRadii := obcParameters.atomicRadii
  (List.range obcParameters.numberOfAtoms).foldl
    (fun (st : α × (Nat → α)) atomI =>
      if bornRadii atomI > 0 then
        let r := atomicRadii atomI + probeRadius
        let ratio6 := M.POW (atomicRadii atomI / bornRadii atomI) six
        let saTerm := surfaceAreaFactor * r * r * ratio6
        (st.1 + strength * saTerm,
          Function.update st.2 atomI
            (st.2 atomI + strength * minusSix * saTerm / bornRadii atomI))
      else st)
    (energy, forces)

/-- Lines 340-344 and 472-476: the `preFactor` both energy routines start from. -/
def preFactor (obcParameters : ObcParameters α) : α :=
  if obcParameters.soluteDielectric ≠ 0 ∧ obcParameters.solventDielectric ≠ 0 then
    2 * obcParameters.electricConstant
      * ((1 / obcParameters.soluteDielectric) - (1 / obcParameters.solventDielectric))
  else 0

/-- Lines 377-424 of `computeBornEnergy`: the body of the inner loop of the first main loop
for the pair (`atomI`, `atomJ`); returns the new `obcEnergy`. -/
def energyPair (M : Libm α) (obcParameters : ObcParameters α)
    (atomCoordinates : Nat → vector3 α) (partialCharges : Nat → α) (bornRadii : Nat → α)
    (partialChargeI : α) (atomI atomJ : Nat) (obcEnergy : α) : α :=
  let strength := obcParameters.strength
  let cutoffDistance := obcParameters.cutoffDistance
  let deltaR := getDeltaR M (atomCoordinates atomI) (atomCoordinates atomJ)
  if obcParameters.useCutoff = true ∧ deltaR.RIndex > cutoffDistance then obcEnergy
  else
    let r2 := deltaR.R2Index
    let alpha2_ij := bornRadii atomI * bornRadii atomJ
    let D_ij := r2 / (4 * alpha2_ij)
    let expTerm := M.EXP (-D_ij)
    let denominator2 := r2 + alpha2_ij * expTerm
    let denominator := M.SQRT denominator2
    let Gpol := (partialChargeI * partialCharges atomJ) / denominator
    let energy := Gpol
    let energy :=
      if atomI ≠ atomJ then
        if obcParameters.useCutoff = true then
          energy - partialChargeI * partialCharges atomJ / cutoffDistance
        else energy
      else energy * (1 / 2)
    obcEnergy + strength * energy

/-- The method `ReferenceObc::computeBornEnergy`: returns the energy and the object with its
overwritten cache, or fails where `computeBornRadii` does. -/
def computeBornEnergy (M : Libm α) (self : ReferenceObc α) (obcParameters : ObcParameters α)
    (atomCoordinates : Nat → vector3 α) (partialCharges : Nat → α)
    (Igrid : Option (Nat → α)) : Option (α × ReferenceObc α) :=
  let numberOfAtoms := obcParameters.numberOfAtoms
  let preFactor := preFactor obcParameters
  match computeBornRadii M self obcParameters atomCoordinates Igrid (fun _ => 0) with
  | none => none
  | some (bornRadii, self) =>
    let obcEnergy : α := 0
    let bornForces : Nat → α := fun _ => 0
    let ace :=
      if self.includeAceApproximation ≠ 0 then
        computeAceNonPolarForce M obcParameters bornRadii obcEnergy bornForces
      else (obcEnergy, bornForces)
    let obcEnergy := ace.1
    let obcEnergy := (List.range numberOfAtoms).foldl (fun obcEnergy atomI =>
      let partialChargeI := preFactor * partialCharges atomI
      (List.range' atomI (numberOfAtoms - atomI)).foldl (fun obcEnergy atomJ =>
        energyPair M obcParameters atomCoordinates partialCharges bornRadii
          partialChargeI atomI atomJ obcEnergy) obcEnergy) obcEnergy
    some (obcEnergy, self)

/-- Lines 519-567 of `computeBornEnergyForces`: the body of the inner loop of the first main
loop for the pair (`atomI`, `atomJ`). -/
def forcePair (M : Libm α) (obcParameters : ObcParameters α)
    (atomCoordinates : Nat → vector3 α) (partialCharges : Nat → α) (bornRadii : Nat → α)
    (partialChargeI : α) (atomI atomJ : Nat) (st : FirstLoop α) : FirstLoop α :=
  let cutoffDistance := obcParameters.cutoffDistance
  let deltaR := getDeltaR M (atomCoordinates atomI) (atomCoordinates atomJ)
  if obcParameters.useCutoff = true ∧ deltaR.RIndex > cutoffDistance then st
  else
    let r2 := deltaR.R2Index
    let deltaX := deltaR.XIndex
    let deltaY := deltaR.YIndex
    let deltaZ := deltaR.ZIndex
    let alpha2_ij := bornRadii atomI * bornRadii atomJ
    let D_ij := r2 / (4 * alpha2_ij)
    let expTerm := M.EXP (-D_ij)
    let denominator2 := r2 + alpha2_ij * expTerm
    let denominator := M.SQRT denominator2
    let Gpol := (partialChargeI * partialCharges atomJ) / denominator
    let dGpol_dr := -Gpol * (1 - (1 / 4) * expTerm) / denominator2
    let dGpol_dalpha2_ij := -(1 / 2) * Gpol * expTerm * (1 + D_ij) / denominator2
    let energy := Gpol
    let st1 : FirstLoop α :=
      if atomI ≠ atomJ then
        let energy :=
          if obcParameters.useCutoff = true then
            energy - partialChargeI * partialCharges atomJ / cutoffDistance
          else energy
        let bornForces := Function.update st.bornForces atomJ
          (st.bornForces atomJ + dGpol_dalpha2_ij * bornRadii atomI)
        let deltaX := deltaX * dGpol_dr
        let deltaY := deltaY * dGpol_dr
        let deltaZ := deltaZ * dGpol_dr
        let inputForces := Function.update st.inputForces atomI
          ![st.inputForces atomI 0 - deltaX, st.inputForces atomI 1 - deltaY,
            st.inputForces atomI 2 - deltaZ]
        let inputForces := Function.update inputForces atomJ
          ![inputForces atomJ 0 + deltaX, inputForces atomJ 1 + deltaY,
            inputForces atomJ 2 + deltaZ]
        { obcEnergy := energy, bornForces := bornForces, inputForces := inputForces }
      else
        { obcEnergy := energy * (1 / 2), bornForces := st.bornForces,
          inputForces := st.inputForces }
    { obcEnergy := st.obcEnergy + st1.obcEnergy
      bornForces := Function.update st1.bornForces atomI
        (st1.bornForces atomI + dGpol_dalpha2_ij * bornRadii atomJ)
      inputForces := st1.inputForces }

/-- Lines 514-570 of `computeBornEnergyForces`: the first main loop, run from the state the
ACE stage left. -/
def firstMainLoop (M : Libm α) (obcParameters : ObcParameters α)
    (atomCoordinates : Nat → vector3 α) (partialCharges : Nat → α) (bornRadii : Nat → α)
    (preFactor : α) (st : FirstLoop α) : FirstLoop α :=
  let numberOfAtoms := obcParameters.numberOfAtoms
  (List.range numberOfAtoms).foldl (fun st atomI =>
    let partialChargeI := preFactor * partialCharges atomI
    (List.range' atomI (numberOfAtoms - atomI)).foldl (fun st atomJ =>
      forcePair M obcParameters atomCoordinates partialCharges bornRadii
        partialChargeI atomI atomJ st) st) st

/-- Lines 586-588 of `computeBornEnergyForces`: the loop that rescales `bornForces` by
`bornRadii[atomI]*bornRadii[atomI]*obcChain[atomI]`.  The cache is read at indices that
`computeBornRadii` has just written, so the subscript is in range. -/
def rescaleBornForces (obcParameters : ObcParameters α) (bornRadii : Nat → α)
    (obcChain : List α) (bornForces : Nat → α) : Nat → α :=
  (List.range obcParameters.numberOfAtoms).foldl (fun bornForces atomI =>
    Function.update bornForces atomI
      (bornForces atomI * (bornRadii atomI * bornRadii atomI * obcChain.getD atomI 0)))
    bornForces

/-- Lines 599-653 of `computeBornEnergyForces`: the body of the inner loop of the second main
loop for the ordered pair (`atomI`, `atomJ`), returning the new `inputForces`. -/
def chainPair (M : Libm α) (obcParameters : ObcParameters α)
    (atomCoordinates : Nat → vector3 α) (bornForces : Nat → α)
    (atomI atomJ : Nat) (inputForces : Nat → vector3 α) : Nat → vector3 α :=
  let dielectricOffset := obcParameters.dielectricOffset
  let cutoffDistance := obcParameters.cutoffDistance
  let atomicRadii := obcParameters.atomicRadii
  let scaledRadiusFactor := obcParameters.scaledRadiusFactors
  let radiusI := atomicRadii atomI
  let offsetRadiusI := radiusI - dielectricOffset
  if atomJ ≠ atomI then
    let deltaR := getDeltaR M (atomCoordinates atomI) (atomCoordinates atomJ)
    if obcParameters.useCutoff = true ∧ deltaR.RIndex > cutoffDistance then inputForces
    else
      let deltaX := deltaR.XIndex
      let deltaY := deltaR.YIndex
      let deltaZ := deltaR.ZIndex
      let r := deltaR.RIndex
      let offsetRadiusJ := atomicRadii atomJ - dielectricOffset
      let scaledRadiusJ := offsetRadiusJ * scaledRadiusFactor atomJ
      let scaledRadiusJ2 := scaledRadiusJ * scaledRadiusJ
      let rScaledRadiusJ := r + scaledRadiusJ
      if offsetRadiusI < rScaledRadiusJ then
        let l_ij := if offsetRadiusI > |r - scaledRadiusJ| then offsetRadiusI
          else |r - scaledRadiusJ|
        let l_ij := 1 / l_ij
        let u_ij := 1 / rScaledRadiusJ
        let l_ij2 := l_ij * l_ij
        let u_ij2 := u_ij * u_ij
        let rInverse := 1 / r
        let r2Inverse := rInverse * rInverse
        let t3 := (1 / 8) * (1 + scaledRadiusJ2 * r2Inverse) * (l_ij2 - u_ij2)
          + (1 / 4) * M.LN (u_ij / l_ij) * r2Inverse
        let de := bornForces atomI * t3 * rInverse
        let deltaX := deltaX * de
        let deltaY := deltaY * de
        let deltaZ := deltaZ * de
        let inputForces := Function.update inputForces atomI
          ![inputForces atomI 0 + deltaX, inputForces atomI 1 + deltaY,
            inputForces atomI 2 + deltaZ]
        Function.update inputForces atomJ
          ![inputForces atomJ 0 - deltaX, inputForces atomJ 1 - deltaY,
            inputForces atomJ 2 - deltaZ]
      else inputForces
  else inputForces

/-- Lines 590-656 of `computeBornEnergyForces`: the second main loop over all ordered pairs,
with the rescaled `bornForces`. -/
def secondMainLoop (M : Libm α) (obcParameters : ObcParameters α)
    (atomCoordinates : Nat → vector3 α) (bornForces : Nat → α)
    (inputForces : Nat → vector3 α) : Nat → vector3 α :=
  let numberOfAtoms := obcParameters.numberOfAtoms
  (List.range numberOfAtoms).foldl (fun inputForces atomI =>
    (List.range numberOfAtoms).foldl (fun inputForces atomJ =>
      chainPair M obcParameters atomCoordinates bornForces atomI atomJ inputForces)
      inputForces) inputForces

/-- The method `ReferenceObc::computeBornEnergyForces`: returns the energy, the force buffer
after the two passes and the object with its overwritten cache, or fails where
`computeBornRadii` does. -/
def computeBornEnergyForces (M : Libm α) (self : ReferenceObc α)
    (obcParameters : ObcParameters α) (atomCoordinates : Nat → vector3 α)
    (partialCharges : Nat → α) (Igrid : Option (Nat → α))
    (inputForces : Nat → vector3 α) : Option (EnergyForces α) :=
  let strength := obcParameters.strength
  let preFactor := preFactor obcParameters
  let preFactor := preFactor * strength
  match computeBornRadii M self obcParameters atomCoordinates Igrid (fun _ => 0) with
  | none => none
  | some (bornRadii, self) =>
    let obcEnergy : α := 0
    let bornForces : Nat → α := fun _ => 0
    let ace :=
      if self.includeAceApproximation ≠ 0 then
        computeAceNonPolarForce M obcParameters bornRadii obcEnergy bornForces
      else (obcEnergy, bornForces)
    let st := firstMainLoop M obcParameters atomCoordinates partialCharges bornRadii
      preFactor { obcEnergy := ace.1, bornForces := ace.2, inputForces := inputForces }
    let obcChain := self.getObcChain
    let bornForces := rescaleBornForces obcParameters bornRadii obcChain st.bornForces
    let inputForces := secondMainLoop M obcParameters atomCoordinates bornForces
      st.inputForces
    some { obcEnergy := st.obcEnergy, inputForces := inputForces, self := self }

end Routines

/-! ## Part III. Quantities the statements are written with

Named sub-expressions of the routines, the closed forms of the specification, the
derivatives along a moved coordinate, and the concrete inputs. -/

section Quantities

variable {α : Type} [LinearOrderedField α]

/-- The value `computeBornRadii` writes to `bornRadii[atomI]`. -/
def bornRadiusOut (M : Libm α) (self : ReferenceObc α) (obcParameters : ObcParameters α)
    (atomCoordinates : Nat → vector3 α) (Igrid : Option (Nat → α)) (atomI : Nat) : α :=
  (obcRemap M obcParameters Igrid atomI (hctSum M self obcParameters atomCoordinates atomI)).1

/-- The value `computeBornRadii` writes to `obcChain[atomI]`. -/
def obcChainOut (M : Libm α) (self : ReferenceObc α) (obcParameters : ObcParameters α)
    (atomCoordinates : Nat → vector3 α) (Igrid : Option (Nat → α)) (atomI : Nat) : α :=
  (obcRemap M obcParameters Igrid atomI (hctSum M self obcParameters atomCoordinates atomI)).2

/-- The array `bornRadii` that the two energy routines work with: allocated with
`numberOfAtoms` zero entries and then filled by `computeBornRadii`. -/
def bornRadiiOf (M : Libm α) (self : ReferenceObc α) (obcParameters : ObcParameters α)
    (atomCoordinates : Nat → vector3 α) (Igrid : Option (Nat → α)) : Nat → α :=
  fun i => if i < obcParameters.numberOfAtoms then
    bornRadiusOut M self obcParameters atomCoordinates Igrid i else 0

/-- The cache after the write loop has run over the first `n` atoms: slot `i` overwritten
with `w i`, in loop order. -/
def writtenChain (c : List α) (n : Nat) (w : Nat → α) : List α :=
  (List.range n).foldl (fun c i => c.set i (w i)) c

/-- The cache `_obcChain` as a successful call of `computeBornRadii` leaves it. -/
def obcChainOf (M : Libm α) (self : ReferenceObc α) (obcParameters : ObcParameters α)
    (atomCoordinates : Nat → vector3 α) (Igrid : Option (Nat → α)) : List α :=
  writtenChain self._obcChain obcParameters.numberOfAtoms
    (obcChainOut M self obcParameters atomCoordinates Igrid)

/-- The value of `Gpol` for the pair (`atomI`, `atomJ`), lines 529-536. -/
def pairGpol (M : Libm α) (atomCoordinates : Nat → vector3 α) (partialCharges : Nat → α)
    (bornRadii : Nat → α) (partialChargeI : α) (atomI atomJ : Nat) : α :=
  let r2 := (getDeltaR M (atomCoordinates atomI) (atomCoordinates atomJ)).R2Index
  let alpha2_ij := bornRadii atomI * bornRadii atomJ
  (partialChargeI * partialCharges atomJ)
    / M.SQRT (r2 + alpha2_ij * M.EXP (-(r2 / (4 * alpha2_ij))))

/-- The value of `dGpol_dr` for the pair (`atomI`, `atomJ`), line 537. -/
def pairDGpolDr (M : Libm α) (atomCoordinates : Nat → vector3 α) (partialCharges : Nat → α)
    (bornRadii : Nat → α) (partialChargeI : α) (atomI atomJ : Nat) : α :=
  let r2 := (getDeltaR M (atomCoordinates atomI) (atomCoordinates atomJ)).R2Index
  let alpha2_ij := bornRadii atomI * bornRadii atomJ
  let expTerm := M.EXP (-(r2 / (4 * alpha2_ij)))
  let Gpol := pairGpol M atomCoordinates partialCharges bornRadii partialChargeI atomI atomJ
  let dGpol_dr := -Gpol * (1 - (1 / 4) * expTerm) / (r2 + alpha2_ij * expTerm)
  dGpol_dr

/-- The value of `dGpol_dalpha2_ij` for the pair (`atomI`, `atomJ`), line 539. -/
def pairDGpolDalpha2 (M : Libm α) (atomCoordinates : Nat → vector3 α)
    (partialCharges : Nat → α) (bornRadii : Nat → α) (partialChargeI : α)
    (atomI atomJ : Nat) : α :=
  let r2 := (getDeltaR M (atomCoordinates atomI) (atomCoordinates atomJ)).R2Index
  let alpha2_ij := bornRadii atomI * bornRadii atomJ
  let expTerm := M.EXP (-(r2 / (4 * alpha2_ij)))
  let Gpol := pairGpol M atomCoordinates partialCharges bornRadii partialChargeI atomI atomJ
  let dGpol_dalpha2_ij := -(1 / 2) * Gpol * expTerm * (1 + r2 / (4 * alpha2_ij))
    / (r2 + alpha2_ij * expTerm)
  dGpol_dalpha2_ij

/-- The displacement (`deltaX`, `deltaY`, `deltaZ`) of the pair, as a vector. -/
def pairDelta (M : Libm α) (atomCoordinates : Nat → vector3 α) (atomI atomJ : Nat) :
    vector3 α :=
  let deltaR := getDeltaR M (atomCoordinates atomI) (atomCoordinates atomJ)
  ![deltaR.XIndex, deltaR.YIndex, deltaR.ZIndex]

/-- The amount the pair (`atomI`, `atomJ`) adds to `obcEnergy` in the first main loop of
`computeBornEnergyForces`: the shifted `Gpol` off the diagonal, half of `Gpol` on it, nothing
when the cutoff skips the pair. -/
def pairEnergy (M : Libm α) (obcParameters : ObcParameters α)
    (atomCoordinates : Nat → vector3 α) (partialCharges : Nat → α) (bornRadii : Nat → α)
    (partialChargeI : α) (atomI atomJ : Nat) : α :=
  if obcParameters.useCutoff = true ∧
      (getDeltaR M (atomCoordinates atomI) (atomCoordinates atomJ)).RIndex
        > obcParameters.cutoffDistance then 0
  else if atomI ≠ atomJ then
    if obcParameters.useCutoff = true then
      pairGpol M atomCoordinates partialCharges bornRadii partialChargeI atomI atomJ
        - partialChargeI * partialCharges atomJ / obcParameters.cutoffDistance
    else pairGpol M atomCoordinates partialCharges bornRadii partialChargeI atomI atomJ
  else pairGpol M atomCoordinates partialCharges bornRadii partialChargeI atomI atomJ * (1 / 2)

/-- The amounts the pair (`atomI`, `atomJ`) adds to `bornForces` in the first main loop. -/
def pairBornForces (M : Libm α) (obcParameters : ObcParameters α)
    (atomCoordinates : Nat → vector3 α) (partialCharges : Nat → α) (bornRadii : Nat → α)
    (partialChargeI : α) (atomI atomJ : Nat) : Nat → α :=
  if obcParameters.useCutoff = true ∧
      (getDeltaR M (atomCoordinates atomI) (atomCoordinates atomJ)).RIndex
        > obcParameters.cutoffDistance then 0
  else
    (if atomI ≠ atomJ then
      Pi.single atomJ
        (pairDGpolDalpha2 M atomCoordinates partialCharges bornRadii partialChargeI atomI atomJ
          * bornRadii atomI)
    else 0)
    + Pi.single atomI
        (pairDGpolDalpha2 M atomCoordinates partialCharges bornRadii partialChargeI atomI atomJ
          * bornRadii atomJ)

/-- The amounts the pair (`atomI`, `atomJ`) adds to `inputForces` in the first main loop:
the scaled displacement is taken from atom I and given to atom J. -/
def pairForces (M : Libm α) (obcParameters : ObcParameters α)
    (atomCoordinates : Nat → vector3 α) (partialCharges : Nat → α) (bornRadii : Nat → α)
    (partialChargeI : α) (atomI atomJ : Nat) : Nat → vector3 α :=
  if obcParameters.useCutoff = true ∧
      (getDeltaR M (atomCoordinates atomI) (atomCoordinates atomJ)).RIndex
        > obcParameters.cutoffDistance then 0
  else if atomI ≠ atomJ then
    Pi.single atomI
      (-(pairDGpolDr M atomCoordinates partialCharges bornRadii partialChargeI atomI atomJ
          • pairDelta M atomCoordinates atomI atomJ))
    + Pi.single atomJ
      (pairDGpolDr M atomCoordinates partialCharges bornRadii partialChargeI atomI atomJ
          • pairDelta M atomCoordinates atomI atomJ)
  else 0

/-- The polar pair sum: the pair energies of all pairs `atomI ≤ atomJ` in loop order, with
`partialChargeI = preFactor * partialCharges[atomI]`. -/
def polarSum (M : Libm α) (p : ObcParameters α) (x : Nat → vector3 α) (q b : Nat → α)
    (preFactor : α) : α :=
  ((List.range p.numberOfAtoms).map fun i =>
    ((List.range' i (p.numberOfAtoms - i)).map fun j =>
      pairEnergy M p x q b (preFactor * q i) i j).sum).sum

/-- Everything the first main loop adds to `bornForces`. -/
def firstPassBornForces (M : Libm α) (p : ObcParameters α) (x : Nat → vector3 α)
    (q b : Nat → α) (preFactor : α) : Nat → α :=
  ((List.range p.numberOfAtoms).map fun i =>
    ((List.range' i (p.numberOfAtoms - i)).map fun j =>
      pairBornForces M p x q b (preFactor * q i) i j).sum).sum

/-- Everything the first main loop adds to `inputForces`. -/
def firstPassForces (M : Libm α) (p : ObcParameters α) (x : Nat → vector3 α)
    (q b : Nat → α) (preFactor : α) : Nat → vector3 α :=
  ((List.range p.numberOfAtoms).map fun i =>
    ((List.range' i (p.numberOfAtoms - i)).map fun j =>
      pairForces M p x q b (preFactor * q i) i j).sum).sum

/-- The state after the ACE stage: energy and `bornForces` start at zero and receive the ACE
term when the flag of the object is non-zero. -/
def aceStage (M : Libm α) (self : ReferenceObc α) (p : ObcParameters α) (b : Nat → α) :
    α × (Nat → α) :=
  if self.includeAceApproximation ≠ 0 then
    computeAceNonPolarForce M p b 0 (fun _ => 0)
  else (0, fun _ => 0)

/-- The value of `t3` in the second main loop (line 636), from `offsetRadiusI`, the distance
`r` and `scaledRadiusJ`. -/
def chainT3 (M : Libm α) (offsetRadiusI r scaledRadiusJ : α) : α :=
  let l_ij := if offsetRadiusI > |r - scaledRadiusJ| then offsetRadiusI
    else |r - scaledRadiusJ|
  let l_ij := 1 / l_ij
  let u_ij := 1 / (r + scaledRadiusJ)
  let rInverse := 1 / r
  let r2Inverse := rInverse * rInverse
  (1 / 8) * (1 + scaledRadiusJ * scaledRadiusJ * r2Inverse) * (l_ij * l_ij - u_ij * u_ij)
    + (1 / 4) * M.LN (u_ij / l_ij) * r2Inverse

/-- The value of `de` in the second main loop (line 638) for the ordered pair. -/
def chainDe (M : Libm α) (p : ObcParameters α) (x : Nat → vector3 α) (bornForces : Nat → α)
    (atomI atomJ : Nat) : α :=
  let r := (getDeltaR M (x atomI) (x atomJ)).RIndex
  bornForces atomI
    * chainT3 M (p.atomicRadii atomI - p.dielectricOffset) r
        ((p.atomicRadii atomJ - p.dielectricOffset) * p.scaledRadiusFactors atomJ)
    * (1 / r)

/-- The amounts the ordered pair (`atomI`, `atomJ`) adds to `inputForces` in the second main
loop: the scaled displacement is given to atom I and taken from atom J. -/
def chainPairForces (M : Libm α) (p : ObcParameters α) (x : Nat → vector3 α)
    (bornForces : Nat → α) (atomI atomJ : Nat) : Nat → vector3 α :=
  if atomJ ≠ atomI then
    if p.useCutoff = true ∧ (getDeltaR M (x atomI) (x atomJ)).RIndex > p.cutoffDistance then 0
    else if p.atomicRadii atomI - p.dielectricOffset
        < (getDeltaR M (x atomI) (x atomJ)).RIndex
          + (p.atomicRadii atomJ - p.dielectricOffset) * p.scaledRadiusFactors atomJ then
      Pi.single atomI (chainDe M p x bornForces atomI atomJ • pairDelta M x atomI atomJ)
      + Pi.single atomJ (-(chainDe M p x bornForces atomI atomJ • pairDelta M x atomI atomJ))
    else 0
  else 0

/-- Everything the second main loop adds to `inputForces`. -/
def secondPassForces (M : Libm α) (p : ObcParameters α) (x : Nat → vector3 α)
    (bornForces : Nat → α) : Nat → vector3 α :=
  ((List.range p.numberOfAtoms).map fun i =>
    ((List.range p.numberOfAtoms).map fun j => chainPairForces M p x bornForces i j).sum).sum

/-- The array `bornForces` as the second main loop reads it: ACE amounts plus first-pass
amounts, rescaled by `bornRadii[i]*bornRadii[i]*obcChain[i]` with the cache of this call. -/
def bornForcesOf (M : Libm α) (self : ReferenceObc α) (p : ObcParameters α)
    (x : Nat → vector3 α) (q : Nat → α) (Igrid : Option (Nat → α)) : Nat → α :=
  fun i =>
    let b := bornRadiiOf M self p x Igrid
    let bf := (aceStage M self p b).2 + firstPassBornForces M p x q b (preFactor p * p.strength)
    if i < p.numberOfAtoms then bf i * (b i * b i * obcChainOut M self p x Igrid i) else bf i

/-- The amount `computeBornEnergyForces` adds to the force buffer: first pass plus
back-propagation pass. -/
def forceIncrement (M : Libm α) (self : ReferenceObc α) (p : ObcParameters α)
    (x : Nat → vector3 α) (q : Nat → α) (Igrid : Option (Nat → α)) : Nat → vector3 α :=
  firstPassForces M p x q (bornRadiiOf M self p x Igrid) (preFactor p * p.strength)
    + secondPassForces M p x (bornForcesOf M self p x q Igrid)

/-- The two-atom scenario of the specification: radii 0.15 and 0.15, dielectric offset 0.009,
solute dielectric 1, solvent dielectric 78.5, no cutoff; the remaining constants are the
usual OBC ones. -/
def scenarioParameters : ObcParameters α :=
  { numberOfAtoms := 2
    atomicRadii := fun _ => 15 / 100
    scaledRadiusFactors := fun _ => 8 / 10
    dielectricOffset := 9 / 1000
    alphaObc := 1
    betaObc := 8 / 10
    gammaObc := 485 / 100
    soluteDielectric := 1
    solventDielectric := 785 / 10
    electricConstant := -(694677 / 10000)
    useCutoff := false
    cutoffDistance := 1
    strength := 1
    probeRadius := 14 / 100
    pi4Asolv := 28
  }

/-- The coordinates of the scenario: the two atoms 0.3 apart on the first axis. -/
def scenarioCoordinates : Nat → vector3 α :=
  fun i => if i = 0 then ![0, 0, 0] else ![3 / 10, 0, 0]

/-- The charges of the scenario: +1 and -1. -/
def scenarioCharges : Nat → α :=
  fun i => if i = 0 then 1 else -1

/-- Following the specification (Born Radius Estimator, step 2): the summand of atom j in
the burial sum of atom i, that is the HCT closed form with `l_ij = 1 / max(offsetRadiusI,
|r - scaledRadiusJ|)` and `u_ij = 1 / (r + scaledRadiusJ)`, plus the full-burial correction
when `offsetRadiusI < scaledRadiusJ - r`. -/
def specHctTerm (M : Libm α) (offsetRadiusI r scaledRadiusJ : α) : α :=
  let l := 1 / max offsetRadiusI |r - scaledRadiusJ|
  let u := 1 / (r + scaledRadiusJ)
  l - u + r / 4 * (u ^ 2 - l ^ 2) + M.LN (u / l) / (2 * r)
    + scaledRadiusJ ^ 2 / (4 * r) * (l ^ 2 - u ^ 2)
    + (if offsetRadiusI < scaledRadiusJ - r then 2 * (1 / offsetRadiusI - l) else 0)

/-- Following the specification (Born Radius Estimator, steps 1 to 5): the quantity Psi of
atom i.  Atom j contributes when it is not i, is not beyond the enabled cutoff (the one held
by the object) and `offsetRadiusI < r + scaledRadiusJ`; the grid value, 0 without a grid, is
added after the halving and before the multiplication by `offsetRadiusI`. -/
def specPsi (M : Libm α) (self : ReferenceObc α) (p : ObcParameters α)
    (x : Nat → vector3 α) (Igrid : Option (Nat → α)) (i : Nat) : α :=
  let offsetRadiusI := p.atomicRadii i - p.dielectricOffset
  offsetRadiusI *
    (1 / 2 * (∑ j in Finset.range p.numberOfAtoms,
        if j ≠ i
            ∧ ¬ (self._obcParameters.useCutoff = true
                ∧ (getDeltaR M (x i) (x j)).RIndex > self._obcParameters.cutoffDistance)
            ∧ offsetRadiusI < (getDeltaR M (x i) (x j)).RIndex
                + (p.atomicRadii j - p.dielectricOffset) * p.scaledRadiusFactors j
        then specHctTerm M offsetRadiusI (getDeltaR M (x i) (x j)).RIndex
          ((p.atomicRadii j - p.dielectricOffset) * p.scaledRadiusFactors j)
        else 0)
      + (match Igrid with
          | some grid => grid i
          | none => 0))

/-- Following the specification (Born Radius Estimator, steps 6 and 7): the Born radius of
atom i. -/
def specBornRadius (M : Libm α) (self : ReferenceObc α) (p : ObcParameters α)
    (x : Nat → vector3 α) (Igrid : Option (Nat → α)) (i : Nat) : α :=
  let Psi := specPsi M self p x Igrid i
  1 / (1 / (p.atomicRadii i - p.dielectricOffset)
    - M.TANH (p.alphaObc * Psi - p.betaObc * Psi ^ 2 + p.gammaObc * Psi ^ 3) / p.atomicRadii i)

/-- The value of `saTerm` for atom i (lines 295-297). -/
def aceSaTerm (M : Libm α) (p : ObcParameters α) (b : Nat → α) (i : Nat) : α :=
  p.pi4Asolv * (p.atomicRadii i + p.probeRadius) * (p.atomicRadii i + p.probeRadius)
    * M.POW (p.atomicRadii i / b i) 6

/-- The HCT closed form of lines 201-203 with the lower-bound inverse `l` given and
`u_ij = 1 / (r + scaledRadiusJ)`. -/
def hctClosed (M : Libm α) (s r l : α) : α :=
  l - 1 / (r + s) + (1 / 4) * r * ((1 / (r + s)) * (1 / (r + s)) - l * l)
    + ((1 / 2) * (1 / r) * M.LN ((1 / (r + s)) / l))
    + ((1 / 4) * s * s * (1 / r)) * (l * l - (1 / (r + s)) * (1 / (r + s)))

/-- The value `t3` of line 636 with the lower-bound inverse `l` given and
`u_ij = 1 / (r + scaledRadiusJ)`. -/
def t3Of (M : Libm α) (s r l : α) : α :=
  (1 / 8) * (1 + s * s * ((1 / r) * (1 / r))) * (l * l - (1 / (r + s)) * (1 / (r + s)))
    + (1 / 4) * M.LN ((1 / (r + s)) / l) * ((1 / r) * (1 / r))

/-- The coordinates with component `c` of atom `k` set to `t`. -/
def moveAtom (x : Nat → vector3 α) (k : Nat) (c : Fin 3) (t : α) : Nat → vector3 α :=
  Function.update x k (Function.update (x k) c t)

/-- The sign with which the coordinate of atom `k` enters the displacement from atom
`i` to atom `j`: +1 if `j = k`, -1 if `i = k`, 0 if both or neither. -/
def incidence (k i j : Nat) : α := (if j = k then 1 else 0) - (if i = k then 1 else 0)

/-- The derivative of the inner sum of `computeBornRadii` for atom `i` when component
`c` of atom `k` moves. -/
def hctSumDeriv (M : Libm α) (p : ObcParameters α) (x : Nat → vector3 α) (k : Nat) (c : Fin 3)
    (i : Nat) : α :=
  ((List.range p.numberOfAtoms).map fun j =>
    if j ≠ i then
      (-2 * (if p.atomicRadii i - p.dielectricOffset
              < (getDeltaR M (x i) (x j)).RIndex
                + (p.atomicRadii j - p.dielectricOffset) * p.scaledRadiusFactors j
            then chainT3 M (p.atomicRadii i - p.dielectricOffset)
              (getDeltaR M (x i) (x j)).RIndex
              ((p.atomicRadii j - p.dielectricOffset) * p.scaledRadiusFactors j)
            else 0))
        * ((x j c - x i c) * incidence k i j * (1 / (getDeltaR M (x i) (x j)).RIndex))
    else 0).sum

/-- The derivative of the Born radius of atom `i` when component `c` of atom `k` moves. -/
def bornRadiusDeriv (M : Libm α) (self : ReferenceObc α)
    (p : ObcParameters α) (x : Nat → vector3 α) (k : Nat) (c : Fin 3) (i : Nat) : α :=
  bornRadiusOut M self p x none i * bornRadiusOut M self p x none i
    * obcChainOut M self p x none i * (1 / 2) * hctSumDeriv M p x k c i

/-- The data-model invariants the gradient statement needs: a non-negative dielectric
offset below every atomic radius, positive scale factors, pairwise distinct positions. -/
def Admissible (p : ObcParameters α) (x : Nat → vector3 α) : Prop :=
  0 ≤ p.dielectricOffset
  ∧ (∀ i, i < p.numberOfAtoms → p.dielectricOffset < p.atomicRadii i)
  ∧ (∀ i, i < p.numberOfAtoms → 0 < p.scaledRadiusFactors i)
  ∧ (∀ i j, i < p.numberOfAtoms → j < p.numberOfAtoms → i ≠ j → x i ≠ x j)

/-- The derivative of the energy of the pair (`i`, `j`) when component `c` of atom `k`
moves, from `dGpol_dr`, `dGpol_dalpha2_ij` and the derivatives `β` of the Born radii. -/
def pairEnergyDeriv (M : Libm α) (x : Nat → vector3 α) (q b β : Nat → α) (pc : α)
    (k : Nat) (c : Fin 3) (i j : Nat) : α :=
  (if i ≠ j then 1 else 1 / 2)
    * (pairDGpolDr M x q b pc i j * (1 / 2) * (2 * (x j c - x i c) * incidence k i j)
      + pairDGpolDalpha2 M x q b pc i j * (β i * b j + b i * β j))

/-- The energy `computeBornEnergyForces` returns without a correction grid, as a function
of the coordinates. -/
def energyOf (M : Libm α) (self : ReferenceObc α) (p : ObcParameters α)
    (y : Nat → vector3 α) (q : Nat → α) : α :=
  (aceStage M self p (bornRadiiOf M self p y none)).1
    + polarSum M p y q (bornRadiiOf M self p y none) (preFactor p * p.strength)

/-- The derivative of the polar pair sum when component `c` of atom `k` moves. -/
def polarSumDeriv (M : Libm α) (self : ReferenceObc α) (p : ObcParameters α)
    (x : Nat → vector3 α) (q : Nat → α) (k : Nat) (c : Fin 3) : α :=
  ((List.range p.numberOfAtoms).map fun i =>
    ((List.range' i (p.numberOfAtoms - i)).map fun j =>
      pairEnergyDeriv M x q (bornRadiiOf M self p x none) (bornRadiusDeriv M self p x k c)
        (preFactor p * p.strength * q i) k c i j).sum).sum

/-- The derivative of the ACE energy when component `c` of atom `k` moves. -/
def aceDeriv (M : Libm α) (self : ReferenceObc α) (p : ObcParameters α)
    (x : Nat → vector3 α) (k : Nat) (c : Fin 3) : α :=
  ∑ i in Finset.range p.numberOfAtoms,
    (aceStage M self p (bornRadiiOf M self p x none)).2 i * bornRadiusDeriv M self p x k c i

/-- The part of the derivative of the polar pair sum that goes through the Born radii. -/
def alphaPart (M : Libm α) (p : ObcParameters α) (x : Nat → vector3 α) (q b β : Nat → α)
    (pre : α) : α :=
  ((List.range p.numberOfAtoms).map fun i =>
    ((List.range' i (p.numberOfAtoms - i)).map fun j =>
      (if i ≠ j then 1 else 1 / 2)
        * (pairDGpolDalpha2 M x q b (pre * q i) i j * (β i * b j + b i * β j))).sum).sum

/-- A two-atom probe: radii 2, dielectric offset 1, scale factors 1, the three OBC constants 0
(so every Born radius is 1 and every chain value 0), solute dielectric 1, solvent dielectric
2, electric constant 1 (so `preFactor = 1`), no cutoff, strength 1, ACE surface factor 0. -/
def probeParameters : ObcParameters α :=
  { numberOfAtoms := 2
    atomicRadii := fun _ => 2
    scaledRadiusFactors := fun _ => 1
    dielectricOffset := 1
    alphaObc := 0
    betaObc := 0
    gammaObc := 0
    soluteDielectric := 1
    solventDielectric := 2
    electricConstant := 1
    useCutoff := false
    cutoffDistance := 1
    strength := 1
    probeRadius := 0
    pi4Asolv := 0
  }

/-- Two atoms at distance 1 on the first axis. -/
def probeCoordinates : Nat → vector3 α :=
  fun i => if i = 0 then ![0, 0, 0] else ![1, 0, 0]

/-- Two unit charges. -/
def probeCharges : Nat → α := fun _ => 1

/-- The maths library is the exact one of the reals. -/
def Libm.IsExact (M : Libm ℝ) : Prop :=
  M.SQRT = Real.sqrt ∧ M.EXP = Real.exp ∧ M.LN = Real.log ∧ M.TANH = Real.tanh
    ∧ M.POW = fun a b => a ^ b

/-- The exchange of atoms 0 and 1. -/
def swapAtoms (i : Nat) : Nat :=
  if i = 0 then 1 else if i = 1 then 0 else i

/-- The parameters with the per-atom entries (radii and scale factors) of atoms 0 and 1
exchanged. -/
def ObcParameters.swapped (p : ObcParameters α) : ObcParameters α :=
  { p with
    atomicRadii := fun i => p.atomicRadii (swapAtoms i)
    scaledRadiusFactors := fun i => p.scaledRadiusFactors (swapAtoms i) }

/-- The parameters with the cutoff enabled at distance `c`. -/
def ObcParameters.withCutoff (p : ObcParameters α) (c : α) : ObcParameters α :=
  { p with useCutoff := true, cutoffDistance := c }

/-- The parameters with the cutoff disabled. -/
def ObcParameters.withoutCutoff (p : ObcParameters α) : ObcParameters α :=
  { p with useCutoff := false }

/-- The energy `computeBornEnergy` returns with the cutoff enabled at distance `c`, on an
object that stores the parameters it is passed. -/
def cutoffEnergy (M : Libm α) (self : ReferenceObc α) (p : ObcParameters α)
    (x : Nat → vector3 α) (q : Nat → α) (g : Option (Nat → α)) (c : α) : Option α :=
  (computeBornEnergy M (self.setObcParameters (p.withCutoff c)) (p.withCutoff c) x q g).map
    Prod.fst

/-- The energy `computeBornEnergy` returns with the cutoff disabled, on an object that stores
the parameters it is passed. -/
def noCutoffEnergy (M : Libm α) (self : ReferenceObc α) (p : ObcParameters α)
    (x : Nat → vector3 α) (q : Nat → α) (g : Option (Nat → α)) : Option α :=
  (computeBornEnergy M (self.setObcParameters p.withoutCutoff) p.withoutCutoff x q g).map
    Prod.fst

/-- The sum of the charge products `q i * q j` over the pairs `i < j` of the first `n`
atoms, in the order of the first main loop. -/
def chargePairSum (n : Nat) (q : Nat → α) : α :=
  ((List.range n).map fun i =>
    ((List.range' i (n - i)).map fun j => if i ≠ j then q i * q j else 0).sum).sum

/-- The probe parameters with `alphaObc = 1`, so that the Born radius depends on the inner
sum; the cutoff is disabled. -/
def slipParameters : ObcParameters α :=
  { (probeParameters : ObcParameters α) with alphaObc := 1 }

/-- The HCT term that atom `j` contributes to the burial sum of atom `i` (lines 185-214),
once the pair has passed the cutoff test. -/
def hctContribution (M : Libm α) (p : ObcParameters α) (x : Nat → vector3 α) (i j : Nat) :
    α :=
  hctTerm M (p.atomicRadii i - p.dielectricOffset) (getDeltaR M (x i) (x j)).RIndex
    ((p.atomicRadii j - p.dielectricOffset) * p.scaledRadiusFactors j)

/-- The test of line 209: the full-burial branch is taken for the contribution of atom `j`
to atom `i`. -/
def fullBurial (M : Libm α) (p : ObcParameters α) (x : Nat → vector3 α) (i j : Nat) : Prop :=
  p.atomicRadii i - p.dielectricOffset
    < (p.atomicRadii j - p.dielectricOffset) * p.scaledRadiusFactors j
      - (getDeltaR M (x i) (x j)).RIndex

/-- Two atoms of radii 1 and 3/2 with scale factor 1 and no dielectric offset; the other
constants are those of the probe parameters. -/
def unequalParameters : ObcParameters α :=
  { (probeParameters : ObcParameters α) with
    atomicRadii := fun i => if i = 0 then 1 else 3 / 2
    dielectricOffset := 0 }

/-- Following the specification: the Born radius of atom i as a function of Psi,
`B(Psi) = 1 / (1/offsetRadiusI - tanh(alphaObc*Psi - betaObc*Psi^2 + gammaObc*Psi^3)
/ atomicRadius[i])`. -/
def specBornOfPsi (M : Libm α) (p : ObcParameters α) (i : Nat) (Psi : α) : α :=
  1 / (1 / (p.atomicRadii i - p.dielectricOffset)
    - M.TANH (p.alphaObc * Psi - p.betaObc * Psi ^ 2 + p.gammaObc * Psi ^ 3)
      / p.atomicRadii i)

/-- What the first main loop has added to `bornForces[i]` according to the closed
description: the sum over every atom j whose pair with i is not skipped by the cutoff,
`j = i` included, of `dGpol_dalpha2_ij * bornRadii[j]`, with `partialChargeI` taken at
atom i. -/
def bornForceSum (M : Libm α) (p : ObcParameters α) (x : Nat → vector3 α) (q b : Nat → α)
    (preFactor : α) (i : Nat) : α :=
  ∑ j in Finset.range p.numberOfAtoms,
    if p.useCutoff = true ∧ (getDeltaR M (x i) (x j)).RIndex > p.cutoffDistance then 0
    else pairDGpolDalpha2 M x q b (preFactor * q i) i j * b j

/-- The energy the ACE stage and the first main loop accumulate, as a function of the
array `bornRadii`. -/
def accumulatedEnergy (M : Libm α) (self : ReferenceObc α) (p : ObcParameters α)
    (x : Nat → vector3 α) (q : Nat → α) (preFactor : α) (F : Nat → vector3 α)
    (b : Nat → α) : α :=
  (firstMainLoop M p x q b preFactor
    { obcEnergy := (aceStage M self p b).1, bornForces := (aceStage M self p b).2,
      inputForces := F }).obcEnergy

end Quantities

/-! ## Part IV. Lemmas and theorems -/

section Theorems

variable {α : Type} [LinearOrderedField α]

/-! ## Loops as folds: general facts -/

/-- A property kept by every step of a loop holds after the loop. -/
theorem foldl_keeps {σ ι : Type} (P : σ → Prop) (step : σ → ι → σ) (l : List ι)
    (h : ∀ s a, a ∈ l → P s → P (step s a)) (s : σ) (hs : P s) : P (l.foldl step s) := by
  induction l generalizing s with
  | nil => simpa using hs
  | cons a l ih =>
    simp only [List.foldl_cons]
    exact ih (fun s b hb => h s b (List.mem_cons_of_mem _ hb)) _
      (h s a (List.mem_cons_self _ _) hs)

/-- A relation kept by every pair of steps of two loops over the same indices holds between
their final states. -/
theorem foldl_related {σ τ ι : Type} (R : σ → τ → Prop) (f : σ → ι → σ) (g : τ → ι → τ)
    (l : List ι) (h : ∀ s t a, a ∈ l → R s t → R (f s a) (g t a)) (s : σ) (t : τ)
    (hst : R s t) : R (l.foldl f s) (l.foldl g t) := by
  induction l generalizing s t with
  | nil => simpa using hst
  | cons a l ih =>
    simp only [List.foldl_cons]
    exact ih (fun s t b hb => h s t b (List.mem_cons_of_mem _ hb)) _ _
      (h s t a (List.mem_cons_self _ _) hst)

/-- A component of the loop state to which every step adds a state-independent amount ends
as its initial value plus the sum of the amounts. -/
theorem foldl_adds {σ β ι : Type} [AddCommMonoid β] (π : σ → β) (step : σ → ι → σ)
    (f : ι → β) (l : List ι) (h : ∀ s a, a ∈ l → π (step s a) = π s + f a) (s : σ) :
    π (l.foldl step s) = π s + (l.map f).sum := by
  induction l generalizing s with
  | nil => simp
  | cons a l ih =>
    simp only [List.foldl_cons, List.map_cons, List.sum_cons]
    rw [ih (fun s b hb => h s b (List.mem_cons_of_mem _ hb)), h s a (List.mem_cons_self _ _),
      add_assoc]

/-- Writing `F[i] + d` back to slot `i` adds `d` at `i` and nothing elsewhere. -/
theorem update_add_single {ι β : Type} [DecidableEq ι] [AddZeroClass β] (F : ι → β) (i : ι)
    (d : β) : Function.update F i (F i + d) = F + Pi.single i d := by
  funext k
  by_cases hk : k = i
  · subst hk; simp
  · simp [hk]

/-! ## The write loop of `computeBornRadii` -/

/-- The written cache keeps its length. -/
theorem writtenChain_length (c : List α) (n : Nat) (w : Nat → α) :
    (writtenChain c n w).length = c.length := by
  unfold writtenChain
  induction n with
  | zero => simp
  | succ n ih => rw [List.range_succ, List.foldl_append]; simp [ih]

/-- The written cache holds the new value in each of its first `n` slots and the old value
in the others. -/
theorem writtenChain_getD (c : List α) (n : Nat) (w : Nat → α) (h : n ≤ c.length) (i : Nat) :
    (writtenChain c n w).getD i 0 = if i < n then w i else c.getD i 0 := by
  induction n with
  | zero => simp [writtenChain]
  | succ n ih =>
    have hl := writtenChain_length c n w
    have hs : writtenChain c (n + 1) w = (writtenChain c n w).set n (w n) := by
      unfold writtenChain
      rw [List.range_succ, List.foldl_append]
      rfl
    rw [hs]
    by_cases hi : i = n
    · subst hi
      have hn : i < (writtenChain c i w).length := by omega
      simp [List.getD_eq_getElem?_getD, List.getElem?_set, hn]
    · have : i < n + 1 ↔ i < n := by omega
      rw [List.getD_eq_getElem?_getD, List.getElem?_set_ne (Ne.symm hi),
        ← List.getD_eq_getElem?_getD, ih (Nat.le_of_succ_le h)]
      simp [this]

/-- The write loop over the first `n` atoms succeeds when the cache has at least `n` slots;
it leaves the two arrays with the first `n` slots overwritten and the rest as before. -/
theorem writeLoop_some (out : Nat → α × α) (b : Nat → α) (c : List α) (n : Nat)
    (h : n ≤ c.length) :
    (List.range n).foldlM
      (fun (st : (Nat → α) × List α) atomI =>
        if atomI < st.2.length then
          some (Function.update st.1 atomI (out atomI).1, st.2.set atomI (out atomI).2)
        else none) (b, c)
      = some (fun i => if i < n then (out i).1 else b i,
          writtenChain c n (fun i => (out i).2)) := by
  induction n with
  | zero => simp [writtenChain]
  | succ n ih =>
    rw [List.range_succ, List.foldlM_append, ih (Nat.le_of_succ_le h)]
    have hn : n < (writtenChain c n (fun i => (out i).2)).length := by
      rw [writtenChain_length]; omega
    simp only [Option.bind_eq_bind, Option.some_bind, List.foldlM_cons, List.foldlM_nil,
      hn, if_true, Option.pure_def, Option.bind_some]
    congr 2
    · funext i
      by_cases hi : i = n
      · subst hi; simp
      · have : i < n + 1 ↔ i < n := by omega
        simp [Function.update_noteq hi, this]
    · unfold writtenChain
      rw [List.range_succ, List.foldl_append]
      rfl

/-- The write loop fails when the cache has fewer than `n` slots. -/
theorem writeLoop_none (out : Nat → α × α) (b : Nat → α) (c : List α) (n : Nat)
    (h : c.length < n) :
    (List.range n).foldlM
      (fun (st : (Nat → α) × List α) atomI =>
        if atomI < st.2.length then
          some (Function.update st.1 atomI (out atomI).1, st.2.set atomI (out atomI).2)
        else none) (b, c) = none := by
  induction n with
  | zero => omega
  | succ n ih =>
    rw [List.range_succ, List.foldlM_append]
    by_cases hn : c.length < n
    · rw [ih hn]; rfl
    · rw [writeLoop_some out b c n (by omega)]
      have : ¬ n < (writtenChain c n (fun i => (out i).2)).length := by
        rw [writtenChain_length]; omega
      simp [this]

/-- With a cache of at least `numberOfAtoms` slots, `computeBornRadii` returns: the first
`numberOfAtoms` entries of `bornRadii` and of the cache hold the values of this call, every
other entry and the length of the cache are as before. -/
theorem computeBornRadii_some (M : Libm α) (self : ReferenceObc α)
    (obcParameters : ObcParameters α) (atomCoordinates : Nat → vector3 α)
    (Igrid : Option (Nat → α)) (bornRadii : Nat → α)
    (h : obcParameters.numberOfAtoms ≤ self._obcChain.length) :
    computeBornRadii M self obcParameters atomCoordinates Igrid bornRadii
      = some (fun i => if i < obcParameters.numberOfAtoms then
            bornRadiusOut M self obcParameters atomCoordinates Igrid i else bornRadii i,
          { self with
            _obcChain := obcChainOf M self obcParameters atomCoordinates Igrid }) := by
  unfold computeBornRadii ReferenceObc.getObcChain
  rw [writeLoop_some (fun atomI => obcRemap M obcParameters Igrid atomI
      (hctSum M self obcParameters atomCoordinates atomI)) bornRadii self._obcChain _ h]
  rfl

/-- Slot `i` of the cache after a successful call of `computeBornRadii`. -/
theorem obcChainOf_getD (M : Libm α) (self : ReferenceObc α)
    (obcParameters : ObcParameters α) (atomCoordinates : Nat → vector3 α)
    (Igrid : Option (Nat → α)) (h : obcParameters.numberOfAtoms ≤ self._obcChain.length)
    (i : Nat) :
    (obcChainOf M self obcParameters atomCoordinates Igrid).getD i 0
      = if i < obcParameters.numberOfAtoms then
          obcChainOut M self obcParameters atomCoordinates Igrid i
        else self._obcChain.getD i 0 :=
  writtenChain_getD _ _ _ h i

/-- With a cache of fewer than `numberOfAtoms` slots, `computeBornRadii` fails. -/
theorem computeBornRadii_none (M : Libm α) (self : ReferenceObc α)
    (obcParameters : ObcParameters α) (atomCoordinates : Nat → vector3 α)
    (Igrid : Option (Nat → α)) (bornRadii : Nat → α)
    (h : self._obcChain.length < obcParameters.numberOfAtoms) :
    computeBornRadii M self obcParameters atomCoordinates Igrid bornRadii = none := by
  unfold computeBornRadii ReferenceObc.getObcChain
  rw [writeLoop_none (fun atomI => obcRemap M obcParameters Igrid atomI
      (hctSum M self obcParameters atomCoordinates atomI)) bornRadii self._obcChain _ h]
  rfl

/-! ## What one pair adds in the first main loop -/

/-- Three component-wise subtractions are one vector subtraction. -/
theorem vec3_sub (a : vector3 α) (x y z : α) :
    ![a 0 - x, a 1 - y, a 2 - z] = a + -![x, y, z] := by
  funext c
  fin_cases c <;> simp [sub_eq_add_neg]

/-- Three component-wise additions are one vector addition. -/
theorem vec3_add (a : vector3 α) (x y z : α) :
    ![a 0 + x, a 1 + y, a 2 + z] = a + ![x, y, z] := by
  funext c
  fin_cases c <;> simp

/-- Scaling the three displacement components is scaling the displacement vector. -/
theorem vec3_smul (k x y z : α) : ![x * k, y * k, z * k] = k • ![x, y, z] := by
  funext c
  fin_cases c <;> simp [mul_comm]

/-- Energy-only mode: the pair step adds `strength` times the pair energy. -/
theorem energyPair_eq (M : Libm α) (p : ObcParameters α) (x : Nat → vector3 α)
    (q b : Nat → α) (pc : α) (i j : Nat) (e : α) :
    energyPair M p x q b pc i j e = e + p.strength * pairEnergy M p x q b pc i j := by
  unfold energyPair pairEnergy pairGpol
  by_cases hs : p.useCutoff = true ∧ (getDeltaR M (x i) (x j)).RIndex > p.cutoffDistance
  · simp only [hs, and_self, if_true, mul_zero, add_zero]
  · simp only [hs, if_false]

/-- Force mode: the pair step adds the pair energy to `obcEnergy`. -/
theorem forcePair_obcEnergy (M : Libm α) (p : ObcParameters α) (x : Nat → vector3 α)
    (q b : Nat → α) (pc : α) (i j : Nat) (st : FirstLoop α) :
    (forcePair M p x q b pc i j st).obcEnergy
      = st.obcEnergy + pairEnergy M p x q b pc i j := by
  unfold forcePair pairEnergy pairGpol
  by_cases hs : p.useCutoff = true ∧ (getDeltaR M (x i) (x j)).RIndex > p.cutoffDistance
  · simp only [hs, and_self, if_true, add_zero]
  · simp only [hs, if_false]
    by_cases hij : i ≠ j
    · by_cases hc : p.useCutoff = true <;> simp [hij, hc]
    · simp [hij]

/-- Force mode: the pair step adds the pair amounts to `bornForces`. -/
theorem forcePair_bornForces (M : Libm α) (p : ObcParameters α) (x : Nat → vector3 α)
    (q b : Nat → α) (pc : α) (i j : Nat) (st : FirstLoop α) :
    (forcePair M p x q b pc i j st).bornForces
      = st.bornForces + pairBornForces M p x q b pc i j := by
  unfold forcePair pairBornForces pairDGpolDalpha2 pairGpol
  by_cases hs : p.useCutoff = true ∧ (getDeltaR M (x i) (x j)).RIndex > p.cutoffDistance
  · simp only [hs, and_self, if_true, add_zero]
  · simp only [hs, if_false]
    by_cases hij : i ≠ j
    · simp only [hij, ne_eq, not_false_eq_true, if_true]
      rw [update_add_single, update_add_single, add_assoc]
    · simp only [hij, if_false]
      rw [update_add_single, zero_add]

/-- Force mode: the pair step adds the pair amounts to `inputForces`. -/
theorem forcePair_inputForces (M : Libm α) (p : ObcParameters α) (x : Nat → vector3 α)
    (q b : Nat → α) (pc : α) (i j : Nat) (st : FirstLoop α) :
    (forcePair M p x q b pc i j st).inputForces
      = st.inputForces + pairForces M p x q b pc i j := by
  unfold forcePair pairForces pairDGpolDr pairDelta pairGpol
  by_cases hs : p.useCutoff = true ∧ (getDeltaR M (x i) (x j)).RIndex > p.cutoffDistance
  · simp only [hs, and_self, if_true, add_zero]
  · simp only [hs, if_false]
    by_cases hij : i ≠ j
    · simp only [hij, ne_eq, not_false_eq_true, if_true]
      rw [vec3_sub, vec3_add, update_add_single, update_add_single, add_assoc, vec3_smul]
    · simp only [hij, if_false, add_zero]

/-! ## The first main loop as a double sum -/

/-- The first main loop adds the polar pair sum to `obcEnergy`. -/
theorem firstMainLoop_obcEnergy (M : Libm α) (p : ObcParameters α) (x : Nat → vector3 α)
    (q b : Nat → α) (pre : α) (st : FirstLoop α) :
    (firstMainLoop M p x q b pre st).obcEnergy = st.obcEnergy + polarSum M p x q b pre := by
  unfold firstMainLoop polarSum
  refine foldl_adds FirstLoop.obcEnergy _
    (fun i => ((List.range' i (p.numberOfAtoms - i)).map fun j =>
      pairEnergy M p x q b (pre * q i) i j).sum) _ (fun s i _ => ?_) st
  exact foldl_adds FirstLoop.obcEnergy _ _ _
    (fun s j _ => forcePair_obcEnergy M p x q b (pre * q i) i j s) s

/-- The first main loop adds the pair amounts to `bornForces`. -/
theorem firstMainLoop_bornForces (M : Libm α) (p : ObcParameters α) (x : Nat → vector3 α)
    (q b : Nat → α) (pre : α) (st : FirstLoop α) :
    (firstMainLoop M p x q b pre st).bornForces
      = st.bornForces + firstPassBornForces M p x q b pre := by
  unfold firstMainLoop firstPassBornForces
  refine foldl_adds FirstLoop.bornForces _
    (fun i => ((List.range' i (p.numberOfAtoms - i)).map fun j =>
      pairBornForces M p x q b (pre * q i) i j).sum) _ (fun s i _ => ?_) st
  exact foldl_adds FirstLoop.bornForces _ _ _
    (fun s j _ => forcePair_bornForces M p x q b (pre * q i) i j s) s

/-- The first main loop adds the pair amounts to `inputForces`. -/
theorem firstMainLoop_inputForces (M : Libm α) (p : ObcParameters α) (x : Nat → vector3 α)
    (q b : Nat → α) (pre : α) (st : FirstLoop α) :
    (firstMainLoop M p x q b pre st).inputForces
      = st.inputForces + firstPassForces M p x q b pre := by
  unfold firstMainLoop firstPassForces
  refine foldl_adds FirstLoop.inputForces _
    (fun i => ((List.range' i (p.numberOfAtoms - i)).map fun j =>
      pairForces M p x q b (pre * q i) i j).sum) _ (fun s i _ => ?_) st
  exact foldl_adds FirstLoop.inputForces _ _ _
    (fun s j _ => forcePair_inputForces M p x q b (pre * q i) i j s) s

/-- The pair energy is linear in `partialChargeI`. -/
theorem pairEnergy_scale (M : Libm α) (p : ObcParameters α) (x : Nat → vector3 α)
    (q b : Nat → α) (k pc : α) (i j : Nat) :
    pairEnergy M p x q b (k * pc) i j = k * pairEnergy M p x q b pc i j := by
  unfold pairEnergy pairGpol
  by_cases hs : p.useCutoff = true ∧ (getDeltaR M (x i) (x j)).RIndex > p.cutoffDistance
  · simp only [hs, and_self, if_true, mul_zero]
  · simp only [hs, if_false]
    by_cases hij : i ≠ j
    · by_cases hc : p.useCutoff = true
      · rw [if_pos hij, if_pos hij, if_pos hc, if_pos hc]; ring
      · rw [if_pos hij, if_pos hij, if_neg hc, if_neg hc]; ring
    · rw [if_neg hij, if_neg hij]; ring

/-- Scaling `preFactor` scales the polar pair sum. -/
theorem polarSum_scale (M : Libm α) (p : ObcParameters α) (x : Nat → vector3 α)
    (q b : Nat → α) (pre k : α) :
    polarSum M p x q b (pre * k) = k * polarSum M p x q b pre := by
  unfold polarSum
  rw [← List.sum_map_mul_left]
  congr 1
  apply List.map_congr_left
  intro i _
  rw [← List.sum_map_mul_left]
  congr 1
  apply List.map_congr_left
  intro j _
  rw [show pre * k * q i = k * (pre * q i) by ring, pairEnergy_scale]

/-- The first main loop of `computeBornEnergy`, started from `e`, returns `e` plus
`strength` times the polar pair sum. -/
theorem energyLoop_eq (M : Libm α) (p : ObcParameters α) (x : Nat → vector3 α)
    (q b : Nat → α) (pre e : α) :
    (List.range p.numberOfAtoms).foldl (fun obcEnergy atomI =>
      (List.range' atomI (p.numberOfAtoms - atomI)).foldl (fun obcEnergy atomJ =>
        energyPair M p x q b (pre * q atomI) atomI atomJ obcEnergy) obcEnergy) e
      = e + p.strength * polarSum M p x q b pre := by
  unfold polarSum
  rw [← List.sum_map_mul_left]
  refine foldl_adds id _
    (fun i => p.strength * ((List.range' i (p.numberOfAtoms - i)).map fun j =>
      pairEnergy M p x q b (pre * q i) i j).sum) _ (fun s i _ => ?_) e
  simp only [id]
  rw [← List.sum_map_mul_left]
  exact foldl_adds id _ _ _ (fun s j _ => energyPair_eq M p x q b (pre * q i) i j s) s

/-! ## The rescaling loop and the second main loop -/

/-- The second-loop pair step adds the pair amounts to `inputForces`. -/
theorem chainPair_eq (M : Libm α) (p : ObcParameters α) (x : Nat → vector3 α)
    (bf : Nat → α) (i j : Nat) (F : Nat → vector3 α) :
    chainPair M p x bf i j F = F + chainPairForces M p x bf i j := by
  unfold chainPair chainPairForces chainDe chainT3 pairDelta
  by_cases hij : j ≠ i
  · simp only [hij, ne_eq, not_false_eq_true, if_true]
    by_cases hs : p.useCutoff = true ∧ (getDeltaR M (x i) (x j)).RIndex > p.cutoffDistance
    · simp only [hs, and_self, if_true, add_zero]
    · simp only [hs, if_false]
      split_ifs
      · rw [vec3_add, vec3_sub, update_add_single, update_add_single, add_assoc, vec3_smul]
      · rw [vec3_add, vec3_sub, update_add_single, update_add_single, add_assoc, vec3_smul]
      · rw [add_zero]
  · simp only [hij, if_false, add_zero]

/-- The second main loop adds the pair amounts of all ordered pairs to `inputForces`. -/
theorem secondMainLoop_eq (M : Libm α) (p : ObcParameters α) (x : Nat → vector3 α)
    (bf : Nat → α) (F : Nat → vector3 α) :
    secondMainLoop M p x bf F = F + secondPassForces M p x bf := by
  unfold secondMainLoop secondPassForces
  refine foldl_adds id _
    (fun i => ((List.range p.numberOfAtoms).map fun j =>
      chainPairForces M p x bf i j).sum) _ (fun s i _ => ?_) F
  exact foldl_adds id _ _ _ (fun s j _ => chainPair_eq M p x bf i j s) s

/-- The rescaling loop multiplies the first `numberOfAtoms` entries of `bornForces` by
`bornRadii[i]*bornRadii[i]*obcChain[i]`. -/
theorem rescaleBornForces_eq (p : ObcParameters α) (b : Nat → α) (c : List α)
    (bf : Nat → α) :
    rescaleBornForces p b c bf
      = fun i => if i < p.numberOfAtoms then bf i * (b i * b i * c.getD i 0) else bf i := by
  unfold rescaleBornForces
  generalize p.numberOfAtoms = n
  induction n with
  | zero => simp
  | succ n ih =>
    rw [List.range_succ, List.foldl_append, ih]
    funext i
    by_cases hi : i = n
    · subst hi; simp
    · have : i < n + 1 ↔ i < n := by omega
      simp [Function.update_noteq hi, this]

/-- With a cache of at least `numberOfAtoms` slots, `computeBornEnergy` returns the ACE
energy plus `strength` times the polar pair sum. -/
theorem computeBornEnergy_some (M : Libm α) (self : ReferenceObc α) (p : ObcParameters α)
    (x : Nat → vector3 α) (q : Nat → α) (Igrid : Option (Nat → α))
    (h : p.numberOfAtoms ≤ self._obcChain.length) :
    computeBornEnergy M self p x q Igrid
      = some ((aceStage M self p (bornRadiiOf M self p x Igrid)).1
          + p.strength * polarSum M p x q (bornRadiiOf M self p x Igrid) (preFactor p),
        { self with _obcChain := obcChainOf M self p x Igrid }) := by
  unfold computeBornEnergy
  simp only [computeBornRadii_some M self p x Igrid (fun _ => 0) h]
  rw [energyLoop_eq]
  rfl

/-- With a cache of at least `numberOfAtoms` slots, `computeBornEnergyForces` returns the
ACE energy plus the polar pair sum taken with `preFactor*strength`, and the force buffer
plus the force increment. -/
theorem computeBornEnergyForces_some (M : Libm α) (self : ReferenceObc α)
    (p : ObcParameters α) (x : Nat → vector3 α) (q : Nat → α) (Igrid : Option (Nat → α))
    (F : Nat → vector3 α) (h : p.numberOfAtoms ≤ self._obcChain.length) :
    computeBornEnergyForces M self p x q Igrid F
      = some
        { obcEnergy := (aceStage M self p (bornRadiiOf M self p x Igrid)).1
            + polarSum M p x q (bornRadiiOf M self p x Igrid) (preFactor p * p.strength)
          inputForces := F + forceIncrement M self p x q Igrid
          self := { self with _obcChain := obcChainOf M self p x Igrid } } := by
  unfold computeBornEnergyForces
  simp only [computeBornRadii_some M self p x Igrid (fun _ => 0) h]
  rw [secondMainLoop_eq, rescaleBornForces_eq, firstMainLoop_obcEnergy,
    firstMainLoop_bornForces, firstMainLoop_inputForces]
  have hbf : (fun i => if i < p.numberOfAtoms then
        ((aceStage M self p (bornRadiiOf M self p x Igrid)).2
            + firstPassBornForces M p x q (bornRadiiOf M self p x Igrid)
                (preFactor p * p.strength)) i
          * (bornRadiiOf M self p x Igrid i * bornRadiiOf M self p x Igrid i
              * (obcChainOf M self p x Igrid).getD i 0)
        else ((aceStage M self p (bornRadiiOf M self p x Igrid)).2
            + firstPassBornForces M p x q (bornRadiiOf M self p x Igrid)
                (preFactor p * p.strength)) i)
      = bornForcesOf M self p x q Igrid := by
    funext i
    unfold bornForcesOf
    by_cases hi : i < p.numberOfAtoms
    · simp only [hi, if_true, obcChainOf_getD M self p x Igrid h i]
    · simp only [hi, if_false]
  unfold forceIncrement
  rw [← hbf, add_assoc]
  rfl

/-! ## Scaling point of `strength` -/

/-- C1. For every parameter set, coordinates, charges, optional correction grid, ACE flag and
force buffer (the cache of the object having its `numberOfAtoms` slots), `computeBornEnergy`
and `computeBornEnergyForces` both return, and return the same energy: the ACE energy, in
which `strength` enters once, plus `strength` times the polar pair sum, whether `strength`
multiplies each pair energy when it is accumulated or is folded into `preFactor` beforehand. -/
theorem computeBornEnergy_eq_computeBornEnergyForces (M : Libm α) (self : ReferenceObc α)
    (p : ObcParameters α) (x : Nat → vector3 α) (q : Nat → α) (Igrid : Option (Nat → α))
    (F : Nat → vector3 α) (h : p.numberOfAtoms ≤ self._obcChain.length) :
    ∃ (e : α) (s : ReferenceObc α) (F1 : Nat → vector3 α),
      computeBornEnergy M self p x q Igrid = some (e, s)
      ∧ computeBornEnergyForces M self p x q Igrid F
          = some { obcEnergy := e, inputForces := F1, self := s }
      ∧ e = (aceStage M self p (bornRadiiOf M self p x Igrid)).1
          + p.strength * polarSum M p x q (bornRadiiOf M self p x Igrid) (preFactor p) := by
  refine ⟨_, _, F + forceIncrement M self p x q Igrid,
    computeBornEnergy_some M self p x q Igrid h, ?_, rfl⟩
  rw [computeBornEnergyForces_some M self p x q Igrid F h, polarSum_scale, mul_comm]

/-- C1 at the two-atom scenario, on a freshly constructed object and over the reals. -/
theorem computeBornEnergy_eq_computeBornEnergyForces_witness :
    (scenarioParameters : ObcParameters ℝ).numberOfAtoms
        ≤ (ReferenceObc.new (scenarioParameters : ObcParameters ℝ))._obcChain.length
    ∧ ∃ (e : ℝ) (s : ReferenceObc ℝ) (F1 : Nat → vector3 ℝ),
      computeBornEnergy ⟨Real.sqrt, Real.exp, Real.log, Real.tanh, fun a b => a ^ b⟩
          (ReferenceObc.new scenarioParameters) scenarioParameters scenarioCoordinates
          scenarioCharges none = some (e, s)
      ∧ computeBornEnergyForces ⟨Real.sqrt, Real.exp, Real.log, Real.tanh, fun a b => a ^ b⟩
          (ReferenceObc.new scenarioParameters) scenarioParameters scenarioCoordinates
          scenarioCharges none (fun _ => 0)
          = some { obcEnergy := e, inputForces := F1, self := s }
      ∧ e = (aceStage ⟨Real.sqrt, Real.exp, Real.log, Real.tanh, fun a b => a ^ b⟩
            (ReferenceObc.new scenarioParameters) scenarioParameters
            (bornRadiiOf ⟨Real.sqrt, Real.exp, Real.log, Real.tanh, fun a b => a ^ b⟩
              (ReferenceObc.new scenarioParameters) scenarioParameters scenarioCoordinates
              none)).1
          + (scenarioParameters : ObcParameters ℝ).strength
            * polarSum ⟨Real.sqrt, Real.exp, Real.log, Real.tanh, fun a b => a ^ b⟩
              scenarioParameters scenarioCoordinates scenarioCharges
              (bornRadiiOf ⟨Real.sqrt, Real.exp, Real.log, Real.tanh, fun a b => a ^ b⟩
                (ReferenceObc.new scenarioParameters) scenarioParameters scenarioCoordinates
                none) (preFactor scenarioParameters) :=
  ⟨by simp [ReferenceObc.new, scenarioParameters],
    computeBornEnergy_eq_computeBornEnergyForces _ _ _ _ _ _ _
      (by simp [ReferenceObc.new, scenarioParameters])⟩

/-! ## Equal and opposite force contributions -/

/-- A sum of arrays each of which totals zero over the atoms totals zero over the atoms. -/
theorem total_listSum_eq_zero (n : Nat) (l : List (Nat → vector3 α))
    (h : ∀ f ∈ l, ∑ k in Finset.range n, f k = 0) :
    ∑ k in Finset.range n, l.sum k = 0 := by
  induction l with
  | nil => simp
  | cons f l ih =>
    simp only [List.sum_cons, Pi.add_apply, Finset.sum_add_distrib]
    rw [h f (List.mem_cons_self _ _), ih (fun g hg => h g (List.mem_cons_of_mem _ hg)),
      add_zero]

/-- Taking `d` from atom `i` and giving it to atom `j` totals zero over the atoms. -/
theorem total_single_pair (n i j : Nat) (hi : i < n) (hj : j < n) (d : vector3 α) :
    ∑ k in Finset.range n, ((Pi.single i (-d) + Pi.single j d : Nat → vector3 α) k) = 0 := by
  simp only [Pi.add_apply, Finset.sum_add_distrib, Finset.sum_pi_single', Finset.mem_range,
    hi, hj, if_true]
  exact neg_add_cancel d

/-- What one pair adds to the forces in the first main loop totals zero over the atoms. -/
theorem total_pairForces (M : Libm α) (p : ObcParameters α) (x : Nat → vector3 α)
    (q b : Nat → α) (pc : α) (i j : Nat) (hi : i < p.numberOfAtoms)
    (hj : j < p.numberOfAtoms) :
    ∑ k in Finset.range p.numberOfAtoms, pairForces M p x q b pc i j k = 0 := by
  unfold pairForces
  split_ifs
  · simp
  · exact total_single_pair _ i j hi hj _
  · simp

/-- What one ordered pair adds to the forces in the second main loop totals zero over the
atoms. -/
theorem total_chainPairForces (M : Libm α) (p : ObcParameters α) (x : Nat → vector3 α)
    (bf : Nat → α) (i j : Nat) (hi : i < p.numberOfAtoms) (hj : j < p.numberOfAtoms) :
    ∑ k in Finset.range p.numberOfAtoms, chainPairForces M p x bf i j k = 0 := by
  unfold chainPairForces
  split_ifs
  · simp
  · have := total_single_pair p.numberOfAtoms j i hj hi
      (chainDe M p x bf i j • pairDelta M x i j)
    rw [← this]
    refine Finset.sum_congr rfl (fun k _ => ?_)
    rw [add_comm]
  · simp
  · simp

/-- What the first main loop adds to the forces totals zero over the atoms. -/
theorem total_firstPassForces (M : Libm α) (p : ObcParameters α) (x : Nat → vector3 α)
    (q b : Nat → α) (pre : α) :
    ∑ k in Finset.range p.numberOfAtoms, firstPassForces M p x q b pre k = 0 := by
  unfold firstPassForces
  refine total_listSum_eq_zero _ _ (fun f hf => ?_)
  obtain ⟨i, hi, rfl⟩ := List.mem_map.1 hf
  refine total_listSum_eq_zero _ _ (fun g hg => ?_)
  obtain ⟨j, hj, rfl⟩ := List.mem_map.1 hg
  have hi1 : i < p.numberOfAtoms := List.mem_range.1 hi
  have hj1 := List.mem_range'_1.1 hj
  exact total_pairForces M p x q b _ i j hi1 (by omega)

/-- What the second main loop adds to the forces totals zero over the atoms. -/
theorem total_secondPassForces (M : Libm α) (p : ObcParameters α) (x : Nat → vector3 α)
    (bf : Nat → α) :
    ∑ k in Finset.range p.numberOfAtoms, secondPassForces M p x bf k = 0 := by
  unfold secondPassForces
  refine total_listSum_eq_zero _ _ (fun f hf => ?_)
  obtain ⟨i, hi, rfl⟩ := List.mem_map.1 hf
  refine total_listSum_eq_zero _ _ (fun g hg => ?_)
  obtain ⟨j, hj, rfl⟩ := List.mem_map.1 hg
  exact total_chainPairForces M p x bf i j (List.mem_range.1 hi) (List.mem_range.1 hj)

/-- C3. Every force contribution of `computeBornEnergyForces` is taken from one atom of a
pair and given to the other, so the force changes total the zero vector over all atoms: in
the first main loop (from any state), in the second main loop (for any `bornForces` and any
buffer), and for the whole call. -/
theorem computeBornEnergyForces_total_zero (M : Libm α) (self : ReferenceObc α)
    (p : ObcParameters α) (x : Nat → vector3 α) (q : Nat → α) (Igrid : Option (Nat → α))
    (F : Nat → vector3 α) (b bf : Nat → α) (pre : α) (st : FirstLoop α)
    (G : Nat → vector3 α) (h : p.numberOfAtoms ≤ self._obcChain.length) :
    (∑ k in Finset.range p.numberOfAtoms,
        ((firstMainLoop M p x q b pre st).inputForces k - st.inputForces k) = 0)
    ∧ (∑ k in Finset.range p.numberOfAtoms, (secondMainLoop M p x bf G k - G k) = 0)
    ∧ ∃ out : EnergyForces α,
        computeBornEnergyForces M self p x q Igrid F = some out
        ∧ ∑ k in Finset.range p.numberOfAtoms, (out.inputForces k - F k) = 0 := by
  refine ⟨?_, ?_, _, computeBornEnergyForces_some M self p x q Igrid F h, ?_⟩
  · rw [firstMainLoop_inputForces]
    simpa using total_firstPassForces M p x q b pre
  · rw [secondMainLoop_eq]
    simpa using total_secondPassForces M p x bf
  · simp only [Pi.add_apply, add_sub_cancel_left]
    unfold forceIncrement
    simp only [Pi.add_apply, Finset.sum_add_distrib, total_firstPassForces,
      total_secondPassForces, add_zero]

/-- C3 at the two-atom scenario, on a freshly constructed object and over the reals. -/
theorem computeBornEnergyForces_total_zero_witness :
    (scenarioParameters : ObcParameters ℝ).numberOfAtoms
        ≤ (ReferenceObc.new (scenarioParameters : ObcParameters ℝ))._obcChain.length
    ∧ ∃ out : EnergyForces ℝ,
        computeBornEnergyForces ⟨Real.sqrt, Real.exp, Real.log, Real.tanh, fun a b => a ^ b⟩
          (ReferenceObc.new scenarioParameters) scenarioParameters scenarioCoordinates
          scenarioCharges none (fun _ => ![1, 2, 3]) = some out
        ∧ ∑ k in Finset.range (scenarioParameters : ObcParameters ℝ).numberOfAtoms,
            (out.inputForces k - (fun _ => ![1, 2, 3]) k) = 0 :=
  ⟨by simp [ReferenceObc.new, scenarioParameters],
    (computeBornEnergyForces_total_zero _ _ _ _ _ _ _ (fun _ => 0) (fun _ => 0) 0
      ⟨0, fun _ => 0, fun _ => 0⟩ (fun _ => 0)
      (by simp [ReferenceObc.new, scenarioParameters])).2.2⟩

/-- C4. `computeBornEnergyForces` only adds to the caller's force buffer: for two initial
buffers `F` and `F1` and otherwise identical inputs both calls return, with the same energy
and the same object state, and the change of every component of every atom is the same. -/
theorem computeBornEnergyForces_adds_only (M : Libm α) (self : ReferenceObc α)
    (p : ObcParameters α) (x : Nat → vector3 α) (q : Nat → α) (Igrid : Option (Nat → α))
    (F F1 : Nat → vector3 α) (h : p.numberOfAtoms ≤ self._obcChain.length) :
    ∃ out out1 : EnergyForces α,
      computeBornEnergyForces M self p x q Igrid F = some out
      ∧ computeBornEnergyForces M self p x q Igrid F1 = some out1
      ∧ out.obcEnergy = out1.obcEnergy
      ∧ out.self = out1.self
      ∧ ∀ (k : Nat) (c : Fin 3),
          out.inputForces k c - F k c = out1.inputForces k c - F1 k c := by
  refine ⟨_, _, computeBornEnergyForces_some M self p x q Igrid F h,
    computeBornEnergyForces_some M self p x q Igrid F1 h, rfl, rfl, fun k c => ?_⟩
  simp only [Pi.add_apply, add_sub_cancel_left]

/-- C4 at the two-atom scenario, with a zero buffer and a non-zero one. -/
theorem computeBornEnergyForces_adds_only_witness :
    (scenarioParameters : ObcParameters ℝ).numberOfAtoms
        ≤ (ReferenceObc.new (scenarioParameters : ObcParameters ℝ))._obcChain.length
    ∧ ∃ out out1 : EnergyForces ℝ,
      computeBornEnergyForces ⟨Real.sqrt, Real.exp, Real.log, Real.tanh, fun a b => a ^ b⟩
          (ReferenceObc.new scenarioParameters) scenarioParameters scenarioCoordinates
          scenarioCharges none (fun _ => 0) = some out
      ∧ computeBornEnergyForces ⟨Real.sqrt, Real.exp, Real.log, Real.tanh, fun a b => a ^ b⟩
          (ReferenceObc.new scenarioParameters) scenarioParameters scenarioCoordinates
          scenarioCharges none (fun _ => ![1, 2, 3]) = some out1
      ∧ out.obcEnergy = out1.obcEnergy
      ∧ out.self = out1.self
      ∧ ∀ (k : Nat) (c : Fin 3),
          out.inputForces k c - (fun _ => (0 : vector3 ℝ)) k c
            = out1.inputForces k c - (fun _ => (![1, 2, 3] : vector3 ℝ)) k c :=
  ⟨by simp [ReferenceObc.new, scenarioParameters],
    computeBornEnergyForces_adds_only _ _ _ _ _ _ _ _
      (by simp [ReferenceObc.new, scenarioParameters])⟩

/-! ## The Born radius in closed form -/

/-- A list sum over `List.range n` is the sum over `Finset.range n`. -/
theorem listSum_range {β : Type} [AddCommMonoid β] (f : Nat → β) (n : Nat) :
    ((List.range n).map f).sum = ∑ i in Finset.range n, f i := by
  induction n with
  | zero => simp
  | succ n ih => rw [List.range_succ, List.map_append, List.sum_append, ih,
      Finset.sum_range_succ]; simp

/-- The code's summand is the specification's summand when the pair overlaps the burial
interval, and zero otherwise. -/
theorem hctTerm_eq_spec (M : Libm α) (ρ r sj : α) :
    hctTerm M ρ r sj = if ρ < r + sj then specHctTerm M ρ r sj else 0 := by
  unfold hctTerm specHctTerm
  by_cases h1 : ρ < r + sj
  · simp only [h1, if_true]
    have hmax : (if ρ > |r - sj| then ρ else |r - sj|) = max ρ |r - sj| := by
      rw [max_def]
      by_cases h2 : ρ > |r - sj|
      · rw [if_pos h2, if_neg (not_le.2 h2)]
      · rw [if_neg h2, if_pos (not_lt.1 h2)]
    rw [hmax]
    by_cases h3 : ρ < sj - r
    · rw [if_pos h3, if_pos h3]; ring
    · rw [if_neg h3, if_neg h3]; ring
  · simp only [h1, if_false]

/-- The inner loop of `computeBornRadii` returns the sum of the specification's summands
over the contributing atoms. -/
theorem hctSum_eq_spec (M : Libm α) (self : ReferenceObc α) (p : ObcParameters α)
    (x : Nat → vector3 α) (i : Nat) :
    hctSum M self p x i
      = ∑ j in Finset.range p.numberOfAtoms,
        if j ≠ i
            ∧ ¬ (self._obcParameters.useCutoff = true
                ∧ (getDeltaR M (x i) (x j)).RIndex > self._obcParameters.cutoffDistance)
            ∧ p.atomicRadii i - p.dielectricOffset < (getDeltaR M (x i) (x j)).RIndex
                + (p.atomicRadii j - p.dielectricOffset) * p.scaledRadiusFactors j
        then specHctTerm M (p.atomicRadii i - p.dielectricOffset)
          (getDeltaR M (x i) (x j)).RIndex
          ((p.atomicRadii j - p.dielectricOffset) * p.scaledRadiusFactors j)
        else 0 := by
  rw [← listSum_range]
  unfold hctSum
  have key := foldl_adds (id : α → α)
    (fun sum atomJ =>
      if atomJ ≠ i then
        if self._obcParameters.useCutoff = true
            ∧ (getDeltaR M (x i) (x atomJ)).RIndex > self._obcParameters.cutoffDistance
        then sum
        else sum + hctTerm M (p.atomicRadii i - p.dielectricOffset)
          (getDeltaR M (x i) (x atomJ)).RIndex
          ((p.atomicRadii atomJ - p.dielectricOffset) * p.scaledRadiusFactors atomJ)
      else sum)
    (fun j =>
      if j ≠ i
          ∧ ¬ (self._obcParameters.useCutoff = true
              ∧ (getDeltaR M (x i) (x j)).RIndex > self._obcParameters.cutoffDistance)
          ∧ p.atomicRadii i - p.dielectricOffset < (getDeltaR M (x i) (x j)).RIndex
              + (p.atomicRadii j - p.dielectricOffset) * p.scaledRadiusFactors j
      then specHctTerm M (p.atomicRadii i - p.dielectricOffset)
        (getDeltaR M (x i) (x j)).RIndex
        ((p.atomicRadii j - p.dielectricOffset) * p.scaledRadiusFactors j)
      else 0)
    (List.range p.numberOfAtoms)
    (fun s j _ => by
      simp only [id]
      rw [hctTerm_eq_spec]
      by_cases h1 : j ≠ i
      · by_cases h2 : self._obcParameters.useCutoff = true
            ∧ (getDeltaR M (x i) (x j)).RIndex > self._obcParameters.cutoffDistance
        · simp [h1, h2]
        · by_cases h3 : p.atomicRadii i - p.dielectricOffset
              < (getDeltaR M (x i) (x j)).RIndex
                + (p.atomicRadii j - p.dielectricOffset) * p.scaledRadiusFactors j
          · simp only [h1, h2, h3, ne_eq, not_false_eq_true, if_true, if_false, and_self]
          · simp only [h1, h2, h3, ne_eq, not_false_eq_true, if_true, if_false, and_false,
              add_zero]
      · simp [h1])
    0
  simp only [id, zero_add] at key
  exact key

/-- The Born radius written by lines 220-234, in terms of Psi. -/
theorem obcRemap_fst (M : Libm α) (p : ObcParameters α) (Igrid : Option (Nat → α))
    (i : Nat) (S : α) :
    (obcRemap M p Igrid i S).1
      = 1 / (1 / (p.atomicRadii i - p.dielectricOffset)
        - M.TANH (p.alphaObc
              * ((p.atomicRadii i - p.dielectricOffset)
                * (1 / 2 * S + (match Igrid with
                    | some grid => grid i
                    | none => 0)))
            - p.betaObc
              * ((p.atomicRadii i - p.dielectricOffset)
                * (1 / 2 * S + (match Igrid with
                    | some grid => grid i
                    | none => 0))) ^ 2
            + p.gammaObc
              * ((p.atomicRadii i - p.dielectricOffset)
                * (1 / 2 * S + (match Igrid with
                    | some grid => grid i
                    | none => 0))) ^ 3) / p.atomicRadii i) := by
  have hpow : ∀ Ψ : α, p.alphaObc * Ψ - p.betaObc * (Ψ * Ψ) + p.gammaObc * (Ψ * (Ψ * Ψ))
      = p.alphaObc * Ψ - p.betaObc * Ψ ^ 2 + p.gammaObc * Ψ ^ 3 := fun Ψ => by ring
  unfold obcRemap
  cases Igrid with
  | none =>
    simp only [hpow]
    rw [show S * (1 / 2) * (p.atomicRadii i - p.dielectricOffset)
      = (p.atomicRadii i - p.dielectricOffset) * (1 / 2 * S + 0) by ring]
  | some grid =>
    simp only [hpow]
    rw [show (S * (1 / 2) + grid i) * (p.atomicRadii i - p.dielectricOffset)
      = (p.atomicRadii i - p.dielectricOffset) * (1 / 2 * S + grid i) by ring]

/-- The Born radius the code writes is the specification's closed form. -/
theorem bornRadiusOut_eq_spec (M : Libm α) (self : ReferenceObc α) (p : ObcParameters α)
    (x : Nat → vector3 α) (Igrid : Option (Nat → α)) (i : Nat) :
    bornRadiusOut M self p x Igrid i = specBornRadius M self p x Igrid i := by
  unfold bornRadiusOut specBornRadius specPsi
  rw [obcRemap_fst, hctSum_eq_spec]

/-- An all-zero grid gives what an absent grid gives. -/
theorem obcRemap_zero_grid (M : Libm α) (p : ObcParameters α) (i : Nat) (S : α) :
    obcRemap M p (some fun _ => 0) i S = obcRemap M p none i S := by
  unfold obcRemap
  simp only [add_zero]

/-- C5. For every atom i below the atom count, `computeBornRadii` returns
`bornRadii[i] = 1 / (1/offsetRadiusI - tanh(alphaObc*Psi - betaObc*Psi^2 + gammaObc*Psi^3)
/ atomicRadius[i])` with `Psi = offsetRadiusI * (0.5 * (sum of the HCT terms of the
contributing atoms j != i) + correctionGrid[i])`, the grid value being added after the
halving and before the multiplication and taken as 0 without a grid; an all-zero grid gives
the same result (Born radii and cache) as an absent one. -/
theorem computeBornRadii_closed_form (M : Libm α) (self : ReferenceObc α)
    (p : ObcParameters α) (x : Nat → vector3 α) (Igrid : Option (Nat → α)) (b : Nat → α)
    (i : Nat) (hi : i < p.numberOfAtoms) (h : p.numberOfAtoms ≤ self._obcChain.length) :
    (∃ (b1 : Nat → α) (s1 : ReferenceObc α),
      computeBornRadii M self p x Igrid b = some (b1, s1)
      ∧ b1 i = specBornRadius M self p x Igrid i)
    ∧ computeBornRadii M self p x (some fun _ => 0) b = computeBornRadii M self p x none b := by
  refine ⟨⟨_, _, computeBornRadii_some M self p x Igrid b h, ?_⟩, ?_⟩
  · simp only [hi, if_true]
    exact bornRadiusOut_eq_spec M self p x Igrid i
  · unfold computeBornRadii
    simp only [obcRemap_zero_grid]

/-- C5 at atom 0 of the two-atom scenario, on a freshly constructed object, over the reals
and with a grid. -/
theorem computeBornRadii_closed_form_witness :
    (0 < (scenarioParameters : ObcParameters ℝ).numberOfAtoms
      ∧ (scenarioParameters : ObcParameters ℝ).numberOfAtoms
          ≤ (ReferenceObc.new (scenarioParameters : ObcParameters ℝ))._obcChain.length)
    ∧ (∃ (b1 : Nat → ℝ) (s1 : ReferenceObc ℝ),
        computeBornRadii ⟨Real.sqrt, Real.exp, Real.log, Real.tanh, fun a b => a ^ b⟩
          (ReferenceObc.new scenarioParameters) scenarioParameters scenarioCoordinates
          (some fun _ => 1 / 10) (fun _ => 0) = some (b1, s1)
        ∧ b1 0 = specBornRadius ⟨Real.sqrt, Real.exp, Real.log, Real.tanh, fun a b => a ^ b⟩
            (ReferenceObc.new scenarioParameters) scenarioParameters scenarioCoordinates
            (some fun _ => 1 / 10) 0)
      ∧ computeBornRadii ⟨Real.sqrt, Real.exp, Real.log, Real.tanh, fun a b => a ^ b⟩
          (ReferenceObc.new scenarioParameters) scenarioParameters scenarioCoordinates
          (some fun _ => 0) (fun _ => 0)
        = computeBornRadii ⟨Real.sqrt, Real.exp, Real.log, Real.tanh, fun a b => a ^ b⟩
          (ReferenceObc.new scenarioParameters) scenarioParameters scenarioCoordinates
          none (fun _ => 0) :=
  ⟨⟨by simp [scenarioParameters], by simp [ReferenceObc.new, scenarioParameters]⟩,
    (computeBornRadii_closed_form _ _ _ _ (some fun _ => 1 / 10) _ 0
      (by simp [scenarioParameters])
      (by simp [ReferenceObc.new, scenarioParameters])).1,
    (computeBornRadii_closed_form
      (⟨Real.sqrt, Real.exp, Real.log, Real.tanh, fun a b => a ^ b⟩ : Libm ℝ)
      (ReferenceObc.new scenarioParameters) scenarioParameters scenarioCoordinates
      (some fun _ => 1 / 10) (fun _ => 0) 0
      (by simp [scenarioParameters])
      (by simp [ReferenceObc.new, scenarioParameters])).2⟩

/-- One atom has nothing to sum over: the inner loop returns 0. -/
theorem hctSum_single (M : Libm α) (self : ReferenceObc α) (p : ObcParameters α)
    (x : Nat → vector3 α) (hN : p.numberOfAtoms = 1) : hctSum M self p x 0 = 0 := by
  unfold hctSum
  rw [hN]
  simp [List.range_succ]

/-- C6. Single-atom isolation: with one atom, no correction grid and a cache of at least one
slot, `computeBornRadii` returns `bornRadii[0] = atomicRadius[0] - dielectricOffset` and
leaves `obcChain[0] = (atomicRadius[0] - dielectricOffset) * alphaObc / atomicRadius[0]`,
whatever `betaObc`, `gammaObc` and the coordinates are; the only fact about `TANH` used is
`TANH(0) = 0`. -/
theorem computeBornRadii_single_atom (M : Libm α) (self : ReferenceObc α)
    (p : ObcParameters α) (x : Nat → vector3 α) (b : Nat → α)
    (htanh : M.TANH 0 = 0) (hN : p.numberOfAtoms = 1) (h : 1 ≤ self._obcChain.length) :
    ∃ (b1 : Nat → α) (s1 : ReferenceObc α),
      computeBornRadii M self p x none b = some (b1, s1)
      ∧ b1 0 = p.atomicRadii 0 - p.dielectricOffset
      ∧ s1._obcChain.getD 0 0
          = (p.atomicRadii 0 - p.dielectricOffset) * p.alphaObc / p.atomicRadii 0 := by
  have hlen : p.numberOfAtoms ≤ self._obcChain.length := by omega
  refine ⟨_, _, computeBornRadii_some M self p x none b hlen, ?_, ?_⟩
  · simp only [hN, Nat.lt_one_iff, if_true]
    unfold bornRadiusOut obcRemap
    rw [hctSum_single M self p x hN]
    simp [htanh]
  · simp only [obcChainOf_getD M self p x none hlen 0, hN, Nat.lt_one_iff, if_true]
    unfold obcChainOut obcRemap
    rw [hctSum_single M self p x hN]
    simp [htanh]

/-- C6 for one atom of radius 0.15 and dielectric offset 0.009, over the reals. -/
theorem computeBornRadii_single_atom_witness :
    (Real.tanh 0 = 0
      ∧ ({ (scenarioParameters : ObcParameters ℝ) with numberOfAtoms := 1 }).numberOfAtoms = 1
      ∧ 1 ≤ (ReferenceObc.new
          { (scenarioParameters : ObcParameters ℝ) with numberOfAtoms := 1 })._obcChain.length)
    ∧ ∃ (b1 : Nat → ℝ) (s1 : ReferenceObc ℝ),
      computeBornRadii ⟨Real.sqrt, Real.exp, Real.log, Real.tanh, fun a b => a ^ b⟩
          (ReferenceObc.new { (scenarioParameters : ObcParameters ℝ) with numberOfAtoms := 1 })
          { (scenarioParameters : ObcParameters ℝ) with numberOfAtoms := 1 }
          scenarioCoordinates none (fun _ => 0) = some (b1, s1)
      ∧ b1 0 = 15 / 100 - 9 / 1000
      ∧ s1._obcChain.getD 0 0 = (15 / 100 - 9 / 1000) * 1 / (15 / 100) :=
  ⟨⟨Real.tanh_zero, rfl, by simp [ReferenceObc.new]⟩,
    computeBornRadii_single_atom
      (⟨Real.sqrt, Real.exp, Real.log, Real.tanh, fun a b => a ^ b⟩ : Libm ℝ)
      (ReferenceObc.new { (scenarioParameters : ObcParameters ℝ) with numberOfAtoms := 1 })
      { (scenarioParameters : ObcParameters ℝ) with numberOfAtoms := 1 }
      scenarioCoordinates (fun _ => 0) Real.tanh_zero rfl (by simp [ReferenceObc.new])⟩

/-! ## The ACE nonpolar term -/

/-- The loop of `computeAceNonPolarForce` over the first `n` atoms. -/
theorem aceLoop_eq (M : Libm α) (p : ObcParameters α) (b : Nat → α) (e0 : α)
    (f0 : Nat → α) (n : Nat) :
    (List.range n).foldl
      (fun (st : α × (Nat → α)) atomI =>
        if b atomI > 0 then
          (st.1 + p.strength * aceSaTerm M p b atomI,
            Function.update st.2 atomI
              (st.2 atomI + p.strength * (-6) * aceSaTerm M p b atomI / b atomI))
        else st)
      (e0, f0)
    = (e0 + ∑ i in Finset.range n, if b i > 0 then p.strength * aceSaTerm M p b i else 0,
        fun i => if i < n ∧ b i > 0 then
          f0 i + p.strength * (-6) * aceSaTerm M p b i / b i else f0 i) := by
  induction n with
  | zero => simp
  | succ n ih =>
    rw [List.range_succ, List.foldl_append, ih, Finset.sum_range_succ]
    simp only [List.foldl_cons, List.foldl_nil]
    by_cases hb : b n > 0
    · simp only [hb, if_true, lt_self_iff_false, false_and, if_false, add_assoc]
      congr 1
      funext i
      by_cases hi : i = n
      · subst hi; simp [hb]
      · have : i < n + 1 ↔ i < n := by omega
        simp [Function.update_noteq hi, this]
    · simp only [hb, if_false, add_zero]
      congr 1
      funext i
      by_cases hi : i = n
      · subst hi; simp [hb]
      · have : i < n + 1 ↔ i < n := by omega
        simp [this]

/-- The result of `computeAceNonPolarForce`: the energy plus the surface terms of the atoms
with a positive Born radius, and the derivative array changed at those atoms only. -/
theorem computeAceNonPolarForce_eq (M : Libm α) (p : ObcParameters α) (b : Nat → α)
    (e0 : α) (f0 : Nat → α) :
    computeAceNonPolarForce M p b e0 f0
      = (e0 + ∑ i in Finset.range p.numberOfAtoms,
            if b i > 0 then p.strength * aceSaTerm M p b i else 0,
          fun i => if i < p.numberOfAtoms ∧ b i > 0 then
            f0 i + p.strength * (-6) * aceSaTerm M p b i / b i else f0 i) :=
  aceLoop_eq M p b e0 f0 p.numberOfAtoms

/-- C7. `computeAceNonPolarForce` is a pure accumulation: for every input energy `e0` and
derivative array `f0`, the output energy is `e0` plus the sum over the atoms i with
`bornRadii[i] > 0` of `strength*saTerm_i`, and the output derivative of each such atom is
`f0[i] - 6*strength*saTerm_i/bornRadii[i]`, where `saTerm_i = surfaceAreaFactor *
(atomicRadius[i] + probeRadius)^2 * (atomicRadius[i]/bornRadii[i])^6`; the only fact about
`POW` used is that `POW(y, 6)` is the sixth power. -/
theorem computeAceNonPolarForce_accumulates (M : Libm α) (p : ObcParameters α)
    (b : Nat → α) (e0 : α) (f0 : Nat → α) (hpow : ∀ y : α, M.POW y 6 = y ^ 6) :
    (computeAceNonPolarForce M p b e0 f0).1
        = e0 + ∑ i in (Finset.range p.numberOfAtoms).filter (fun i => b i > 0),
            p.strength * (p.pi4Asolv * (p.atomicRadii i + p.probeRadius) ^ 2
              * (p.atomicRadii i / b i) ^ 6)
    ∧ ∀ i, i < p.numberOfAtoms → b i > 0 →
        (computeAceNonPolarForce M p b e0 f0).2 i
          = f0 i - 6 * p.strength * (p.pi4Asolv * (p.atomicRadii i + p.probeRadius) ^ 2
              * (p.atomicRadii i / b i) ^ 6) / b i := by
  rw [computeAceNonPolarForce_eq]
  refine ⟨?_, fun i hi hb => ?_⟩
  · simp only [Finset.sum_filter, aceSaTerm, hpow]
    congr 1
    refine Finset.sum_congr rfl (fun i _ => ?_)
    split_ifs
    · ring
    · rfl
  · simp only [hi, hb, and_self, if_true, aceSaTerm, hpow]
    ring

/-- C7 at the two-atom scenario with Born radii 0.2 and -1, over the reals. -/
theorem computeAceNonPolarForce_accumulates_witness :
    (∀ y : ℝ, y ^ (6 : ℝ) = y ^ 6)
    ∧ (computeAceNonPolarForce ⟨Real.sqrt, Real.exp, Real.log, Real.tanh, fun a b => a ^ b⟩
          (scenarioParameters : ObcParameters ℝ) (fun i => if i = 0 then 2 / 10 else -1)
          5 (fun _ => 7)).1
        = 5 + ∑ i in (Finset.range (scenarioParameters : ObcParameters ℝ).numberOfAtoms).filter
              (fun i => (fun i => if i = 0 then (2 / 10 : ℝ) else -1) i > 0),
            (scenarioParameters : ObcParameters ℝ).strength
              * ((scenarioParameters : ObcParameters ℝ).pi4Asolv
                * ((scenarioParameters : ObcParameters ℝ).atomicRadii i
                    + (scenarioParameters : ObcParameters ℝ).probeRadius) ^ 2
                * ((scenarioParameters : ObcParameters ℝ).atomicRadii i
                    / (fun i => if i = 0 then (2 / 10 : ℝ) else -1) i) ^ 6)
    ∧ ∀ i, i < (scenarioParameters : ObcParameters ℝ).numberOfAtoms →
        (fun i => if i = 0 then (2 / 10 : ℝ) else -1) i > 0 →
        (computeAceNonPolarForce ⟨Real.sqrt, Real.exp, Real.log, Real.tanh, fun a b => a ^ b⟩
          (scenarioParameters : ObcParameters ℝ) (fun i => if i = 0 then 2 / 10 else -1)
          5 (fun _ => 7)).2 i
          = (fun _ => (7 : ℝ)) i - 6 * (scenarioParameters : ObcParameters ℝ).strength
              * ((scenarioParameters : ObcParameters ℝ).pi4Asolv
                * ((scenarioParameters : ObcParameters ℝ).atomicRadii i
                    + (scenarioParameters : ObcParameters ℝ).probeRadius) ^ 2
                * ((scenarioParameters : ObcParameters ℝ).atomicRadii i
                    / (fun i => if i = 0 then (2 / 10 : ℝ) else -1) i) ^ 6)
              / (fun i => if i = 0 then (2 / 10 : ℝ) else -1) i :=
  ⟨fun y => by exact_mod_cast Real.rpow_natCast y 6,
    computeAceNonPolarForce_accumulates
      (⟨Real.sqrt, Real.exp, Real.log, Real.tanh, fun a b => a ^ b⟩ : Libm ℝ)
      scenarioParameters (fun i => if i = 0 then 2 / 10 else -1) 5 (fun _ => 7)
      (fun y => show y ^ (6 : ℝ) = y ^ 6 by exact_mod_cast Real.rpow_natCast y 6)⟩

/-- C8. In `computeAceNonPolarForce` an atom i whose Born radius is non-positive is skipped:
its derivative entry is left as it was on entry and the energy is the input energy plus the
terms of the other atoms; and if every Born radius is non-positive, the energy and the whole
derivative array are unchanged. -/
theorem computeAceNonPolarForce_skips (M : Libm α) (p : ObcParameters α) (b : Nat → α)
    (e0 : α) (f0 : Nat → α) (i : Nat) (hi : b i ≤ 0) :
    (computeAceNonPolarForce M p b e0 f0).2 i = f0 i
    ∧ (computeAceNonPolarForce M p b e0 f0).1
        = e0 + ∑ j in (Finset.range p.numberOfAtoms).erase i,
            (if b j > 0 then p.strength * aceSaTerm M p b j else 0)
    ∧ ((∀ j, j < p.numberOfAtoms → b j ≤ 0) →
        computeAceNonPolarForce M p b e0 f0 = (e0, f0)) := by
  rw [computeAceNonPolarForce_eq]
  refine ⟨?_, ?_, fun hall => ?_⟩
  · simp [not_lt.2 hi]
  · simp only
    congr 1
    by_cases hmem : i ∈ Finset.range p.numberOfAtoms
    · rw [← Finset.add_sum_erase _ _ hmem, if_neg (not_lt.2 hi), zero_add]
    · rw [Finset.erase_eq_of_not_mem hmem]
  · congr 1
    · rw [Finset.sum_eq_zero, add_zero]
      intro j hj
      rw [if_neg (not_lt.2 (hall j (Finset.mem_range.1 hj)))]
    · funext j
      by_cases hj : j < p.numberOfAtoms
      · simp [not_lt.2 (hall j hj)]
      · simp [hj]

/-- C8 at the two-atom scenario with Born radii 0.2 and -1: atom 1 is skipped. -/
theorem computeAceNonPolarForce_skips_witness :
    (fun i => if i = 0 then (2 / 10 : ℝ) else -1) 1 ≤ 0
    ∧ (computeAceNonPolarForce ⟨Real.sqrt, Real.exp, Real.log, Real.tanh, fun a b => a ^ b⟩
          (scenarioParameters : ObcParameters ℝ) (fun i => if i = 0 then 2 / 10 else -1)
          5 (fun _ => 7)).2 1 = (fun _ => (7 : ℝ)) 1 :=
  ⟨by norm_num,
    (computeAceNonPolarForce_skips
      (⟨Real.sqrt, Real.exp, Real.log, Real.tanh, fun a b => a ^ b⟩ : Libm ℝ)
      scenarioParameters (fun i => if i = 0 then 2 / 10 else -1) 5 (fun _ => 7) 1
      (by norm_num)).1⟩

/-! ## Switching the ACE term off, and a vanishing `preFactor` -/

/-- C9. The ACE term disables cleanly.  For identical inputs and a cache of at least
`numberOfAtoms` slots, let `b` be the Born radii `computeBornRadii` returns.  The energy
returned with the ACE flag on (any non-zero value) is the energy returned with the flag off
plus the ACE energy that `computeAceNonPolarForce` computes from `b` starting from zero, in
`computeBornEnergy` and in `computeBornEnergyForces`; the energy with the flag off is the
polar pair sum alone, which is therefore the same in both runs. -/
theorem aceFlag_disables_cleanly (M : Libm α) (self : ReferenceObc α) (p : ObcParameters α)
    (x : Nat → vector3 α) (q : Nat → α) (Igrid : Option (Nat → α)) (F : Nat → vector3 α)
    (flag : Int) (hflag : flag ≠ 0) (h : p.numberOfAtoms ≤ self._obcChain.length) :
    ∃ (b : Nat → α) (s : ReferenceObc α),
      computeBornRadii M (self.setIncludeAceApproximation flag) p x Igrid (fun _ => 0)
        = some (b, s)
      ∧ (∃ (eOn eOff : α) (sOn sOff : ReferenceObc α),
          computeBornEnergy M (self.setIncludeAceApproximation flag) p x q Igrid
            = some (eOn, sOn)
          ∧ computeBornEnergy M (self.setIncludeAceApproximation 0) p x q Igrid
            = some (eOff, sOff)
          ∧ eOn = eOff + (computeAceNonPolarForce M p b 0 (fun _ => 0)).1
          ∧ eOff = p.strength * polarSum M p x q b (preFactor p))
      ∧ (∃ outOn outOff : EnergyForces α,
          computeBornEnergyForces M (self.setIncludeAceApproximation flag) p x q Igrid F
            = some outOn
          ∧ computeBornEnergyForces M (self.setIncludeAceApproximation 0) p x q Igrid F
            = some outOff
          ∧ outOn.obcEnergy = outOff.obcEnergy
              + (computeAceNonPolarForce M p b 0 (fun _ => 0)).1
          ∧ outOff.obcEnergy = polarSum M p x q b (preFactor p * p.strength)) := by
  have hb : bornRadiiOf M (self.setIncludeAceApproximation 0) p x Igrid
      = bornRadiiOf M (self.setIncludeAceApproximation flag) p x Igrid := rfl
  have hon : aceStage M (self.setIncludeAceApproximation flag) p
      (bornRadiiOf M (self.setIncludeAceApproximation flag) p x Igrid)
      = computeAceNonPolarForce M p
          (bornRadiiOf M (self.setIncludeAceApproximation flag) p x Igrid) 0 (fun _ => 0) := by
    unfold aceStage ReferenceObc.includeAceApproximation ReferenceObc.setIncludeAceApproximation
    simp only [ne_eq, hflag, not_false_eq_true, if_true]
  have hoff : aceStage M (self.setIncludeAceApproximation 0) p
      (bornRadiiOf M (self.setIncludeAceApproximation flag) p x Igrid)
      = (0, fun _ => 0) := by
    unfold aceStage ReferenceObc.includeAceApproximation ReferenceObc.setIncludeAceApproximation
    simp only [ne_eq, not_true_eq_false, if_false]
  refine ⟨_, _, computeBornRadii_some M (self.setIncludeAceApproximation flag) p x Igrid
    (fun _ => 0) h, ⟨_, _, _, _,
      computeBornEnergy_some M (self.setIncludeAceApproximation flag) p x q Igrid h,
      computeBornEnergy_some M (self.setIncludeAceApproximation 0) p x q Igrid h, ?_, ?_⟩,
    ⟨_, _,
      computeBornEnergyForces_some M (self.setIncludeAceApproximation flag) p x q Igrid F h,
      computeBornEnergyForces_some M (self.setIncludeAceApproximation 0) p x q Igrid F h,
      ?_, ?_⟩⟩
  · rw [hb, hon, hoff]
    simp only [zero_add]
    exact add_comm _ _
  · rw [hb, hoff]
    simp only [zero_add]
    rfl
  · simp only [hb, hon, hoff, zero_add]
    exact add_comm _ _
  · simp only [hb, hoff, zero_add]
    rfl

/-- C9 at the two-atom scenario, over the reals, with the flag value 1. -/
theorem aceFlag_disables_cleanly_witness :
    ((1 : Int) ≠ 0
      ∧ (scenarioParameters : ObcParameters ℝ).numberOfAtoms
          ≤ (ReferenceObc.new (scenarioParameters : ObcParameters ℝ))._obcChain.length)
    ∧ ∃ (eOn eOff : ℝ) (sOn sOff : ReferenceObc ℝ),
        computeBornEnergy ⟨Real.sqrt, Real.exp, Real.log, Real.tanh, fun a b => a ^ b⟩
            ((ReferenceObc.new scenarioParameters).setIncludeAceApproximation 1)
            scenarioParameters scenarioCoordinates scenarioCharges none = some (eOn, sOn)
        ∧ computeBornEnergy ⟨Real.sqrt, Real.exp, Real.log, Real.tanh, fun a b => a ^ b⟩
            ((ReferenceObc.new scenarioParameters).setIncludeAceApproximation 0)
            scenarioParameters scenarioCoordinates scenarioCharges none = some (eOff, sOff)
        ∧ eOn = eOff
          + (computeAceNonPolarForce ⟨Real.sqrt, Real.exp, Real.log, Real.tanh, fun a b => a ^ b⟩
              scenarioParameters
              (bornRadiiOf ⟨Real.sqrt, Real.exp, Real.log, Real.tanh, fun a b => a ^ b⟩
                (ReferenceObc.new scenarioParameters) scenarioParameters scenarioCoordinates
                none) 0 (fun _ => 0)).1 := by
  refine ⟨⟨by decide, by simp [ReferenceObc.new, scenarioParameters]⟩, ?_⟩
  obtain ⟨b, s, hbs, ⟨eOn, eOff, sOn, sOff, h1, h2, h3, -⟩, -⟩ :=
    aceFlag_disables_cleanly
      (⟨Real.sqrt, Real.exp, Real.log, Real.tanh, fun a b => a ^ b⟩ : Libm ℝ)
      (ReferenceObc.new scenarioParameters) scenarioParameters scenarioCoordinates
      scenarioCharges none (fun _ => 0) 1 (by decide)
      (by simp [ReferenceObc.new, scenarioParameters])
  refine ⟨eOn, eOff, sOn, sOff, h1, h2, ?_⟩
  rw [computeBornRadii_some _ _ _ _ _ _ (by
    simp [ReferenceObc.new, ReferenceObc.setIncludeAceApproximation, scenarioParameters])]
    at hbs
  simp only [Option.some.injEq, Prod.mk.injEq] at hbs
  rw [h3, ← hbs.1]
  rfl

/-- With `partialChargeI = 0` the value `Gpol` is zero. -/
theorem pairGpol_zero (M : Libm α) (x : Nat → vector3 α) (q b : Nat → α) (i j : Nat) :
    pairGpol M x q b 0 i j = 0 := by
  unfold pairGpol
  simp

/-- With `partialChargeI = 0` a pair adds nothing to the forces in the first main loop. -/
theorem pairForces_zero (M : Libm α) (p : ObcParameters α) (x : Nat → vector3 α)
    (q b : Nat → α) (i j : Nat) : pairForces M p x q b 0 i j = 0 := by
  unfold pairForces pairDGpolDr
  simp only [pairGpol_zero, neg_zero, zero_mul, zero_div, zero_smul, Pi.single_zero,
    add_zero, ite_self]

/-- With `partialChargeI = 0` a pair adds nothing to `bornForces` in the first main loop. -/
theorem pairBornForces_zero (M : Libm α) (p : ObcParameters α) (x : Nat → vector3 α)
    (q b : Nat → α) (i j : Nat) : pairBornForces M p x q b 0 i j = 0 := by
  unfold pairBornForces pairDGpolDalpha2
  simp only [pairGpol_zero, mul_zero, zero_mul, zero_div, Pi.single_zero, add_zero, ite_self]

/-- With `preFactor = 0` the polar pair sum is zero. -/
theorem polarSum_zero (M : Libm α) (p : ObcParameters α) (x : Nat → vector3 α)
    (q b : Nat → α) : polarSum M p x q b 0 = 0 := by
  have := polarSum_scale M p x q b 0 0
  rw [mul_zero, zero_mul] at this
  exact this

/-- With `preFactor = 0` the first main loop adds nothing to the forces. -/
theorem firstPassForces_zero (M : Libm α) (p : ObcParameters α) (x : Nat → vector3 α)
    (q b : Nat → α) : firstPassForces M p x q b 0 = 0 := by
  unfold firstPassForces
  simp only [zero_mul, pairForces_zero, List.map_const', List.sum_replicate, smul_zero]

/-- With `preFactor = 0` the first main loop adds nothing to `bornForces`. -/
theorem firstPassBornForces_zero (M : Libm α) (p : ObcParameters α) (x : Nat → vector3 α)
    (q b : Nat → α) : firstPassBornForces M p x q b 0 = 0 := by
  unfold firstPassBornForces
  simp only [zero_mul, pairBornForces_zero, List.map_const', List.sum_replicate, smul_zero]

/-- With `bornForces` all zero the second main loop adds nothing to the forces. -/
theorem secondPassForces_zero (M : Libm α) (p : ObcParameters α) (x : Nat → vector3 α) :
    secondPassForces M p x (fun _ => 0) = 0 := by
  unfold secondPassForces chainPairForces chainDe
  simp only [zero_mul, zero_smul, neg_zero, Pi.single_zero, add_zero, ite_self,
    List.map_const', List.sum_replicate, smul_zero]

/-- C10. When `soluteDielectric = 0` or `solventDielectric = 0`, `preFactor` is 0 and the
electrostatic term vanishes: `computeBornEnergy` and `computeBornEnergyForces` both return
the ACE energy alone (zero when the ACE flag is off), and with the ACE flag off
`computeBornEnergyForces` returns 0 and hands back the force buffer unchanged. -/
theorem zero_dielectric_degenerates (M : Libm α) (self : ReferenceObc α)
    (p : ObcParameters α) (x : Nat → vector3 α) (q : Nat → α) (Igrid : Option (Nat → α))
    (F : Nat → vector3 α) (hd : p.soluteDielectric = 0 ∨ p.solventDielectric = 0)
    (h : p.numberOfAtoms ≤ self._obcChain.length) :
    preFactor p = 0
    ∧ (∃ (b : Nat → α) (s : ReferenceObc α) (F1 : Nat → vector3 α),
        computeBornRadii M self p x Igrid (fun _ => 0) = some (b, s)
        ∧ computeBornEnergy M self p x q Igrid
            = some (if self.includeAceApproximation ≠ 0 then
                (computeAceNonPolarForce M p b 0 (fun _ => 0)).1 else 0, s)
        ∧ computeBornEnergyForces M self p x q Igrid F
            = some { obcEnergy := if self.includeAceApproximation ≠ 0 then
                        (computeAceNonPolarForce M p b 0 (fun _ => 0)).1 else 0
                     inputForces := F1, self := s }
        ∧ (self.includeAceApproximation = 0 →
            computeBornEnergyForces M self p x q Igrid F
              = some { obcEnergy := 0, inputForces := F, self := s })) := by
  have hpre : preFactor p = 0 := by
    unfold preFactor
    rcases hd with hd | hd
    · simp [hd]
    · simp [hd]
  refine ⟨hpre, _, _, F + forceIncrement M self p x q Igrid,
    computeBornRadii_some M self p x Igrid (fun _ => 0) h, ?_, ?_, fun hoff => ?_⟩
  · rw [computeBornEnergy_some M self p x q Igrid h, hpre, polarSum_zero, mul_zero, add_zero]
    unfold aceStage
    split_ifs <;> rfl
  · rw [computeBornEnergyForces_some M self p x q Igrid F h, hpre, zero_mul, polarSum_zero,
      add_zero]
    unfold aceStage
    split_ifs <;> rfl
  · have hace : ∀ b : Nat → α, aceStage M self p b = (0, fun _ => 0) := by
      intro b
      unfold aceStage
      rw [if_neg (not_not.2 hoff)]
    have hbf : bornForcesOf M self p x q Igrid = fun _ => 0 := by
      funext i
      unfold bornForcesOf
      simp only [hace, hpre, zero_mul, firstPassBornForces_zero, add_zero, ite_self]
    have hinc : forceIncrement M self p x q Igrid = 0 := by
      unfold forceIncrement
      rw [hbf, hpre, zero_mul, firstPassForces_zero, secondPassForces_zero, add_zero]
    rw [computeBornEnergyForces_some M self p x q Igrid F h, hinc, hace, hpre, zero_mul,
      polarSum_zero, add_zero, add_zero]

/-- C10 at the two-atom scenario with the solute dielectric set to 0 and the ACE flag off,
over the reals: the call returns 0 and the buffer as it was. -/
theorem zero_dielectric_degenerates_witness :
    ((({ (scenarioParameters : ObcParameters ℝ) with soluteDielectric := 0 }).soluteDielectric
          = 0
        ∨ ({ (scenarioParameters : ObcParameters ℝ) with
              soluteDielectric := 0 }).solventDielectric = 0)
      ∧ ({ (scenarioParameters : ObcParameters ℝ) with soluteDielectric := 0 }).numberOfAtoms
          ≤ ((ReferenceObc.new { (scenarioParameters : ObcParameters ℝ) with
              soluteDielectric := 0 }).setIncludeAceApproximation 0)._obcChain.length)
    ∧ ∃ s : ReferenceObc ℝ,
        computeBornEnergyForces ⟨Real.sqrt, Real.exp, Real.log, Real.tanh, fun a b => a ^ b⟩
          ((ReferenceObc.new { (scenarioParameters : ObcParameters ℝ) with
              soluteDielectric := 0 }).setIncludeAceApproximation 0)
          { (scenarioParameters : ObcParameters ℝ) with soluteDielectric := 0 }
          scenarioCoordinates scenarioCharges none (fun _ => ![1, 2, 3])
        = some { obcEnergy := 0, inputForces := fun _ => ![1, 2, 3], self := s } := by
  refine ⟨⟨Or.inl rfl, by simp [ReferenceObc.new, ReferenceObc.setIncludeAceApproximation,
    scenarioParameters]⟩, ?_⟩
  obtain ⟨-, b, s, F1, -, -, -, h4⟩ :=
    zero_dielectric_degenerates
      (⟨Real.sqrt, Real.exp, Real.log, Real.tanh, fun a b => a ^ b⟩ : Libm ℝ)
      ((ReferenceObc.new { (scenarioParameters : ObcParameters ℝ) with
          soluteDielectric := 0 }).setIncludeAceApproximation 0)
      { (scenarioParameters : ObcParameters ℝ) with soluteDielectric := 0 }
      scenarioCoordinates scenarioCharges none (fun _ => ![1, 2, 3]) (Or.inl rfl)
      (by simp [ReferenceObc.new, ReferenceObc.setIncludeAceApproximation,
        scenarioParameters])
  exact ⟨s, h4 rfl⟩

/-! ## Force/energy consistency -/

/-- Outside the burial interval (`r + s ≤ ρ`) the summand is zero. -/
theorem hctTerm_eq_A (M : Libm α) (ρ s r : α) (h : r + s ≤ ρ) : hctTerm M ρ r s = 0 := by
  unfold hctTerm
  simp only [not_lt.2 h, if_false]

/-- Where `|r - s| ≤ ρ < r + s` the lower bound is `ρ` and there is no full-burial summand. -/
theorem hctTerm_eq_B (M : Libm α) (ρ s r : α) (h1 : ρ < r + s) (h2 : |r - s| ≤ ρ) :
    hctTerm M ρ r s = hctClosed M s r (1 / ρ) := by
  unfold hctTerm hctClosed
  have h3 : ¬ ρ < s - r := by
    have := neg_le_of_abs_le h2
    intro h; linarith
  simp only [h1, if_true, h3, if_false]
  rcases lt_or_eq_of_le h2 with h4 | h4
  · simp only [gt_iff_lt, h4, if_true]
  · simp only [gt_iff_lt, h4, lt_self_iff_false, if_false]

/-- Where `ρ ≤ r - s` the lower bound is `r - s`. -/
theorem hctTerm_eq_C (M : Libm α) (ρ s r : α) (hρ : 0 < ρ) (hs : 0 < s) (h : ρ ≤ r - s) :
    hctTerm M ρ r s = hctClosed M s r (1 / (r - s)) := by
  unfold hctTerm hctClosed
  have h1 : ρ < r + s := by linarith
  have h2 : |r - s| = r - s := abs_of_nonneg (by linarith)
  have h3 : ¬ ρ < s - r := by intro h; linarith
  have h4 : ¬ ρ > r - s := not_lt.2 h
  simp only [h1, if_true, h2, h3, h4, if_false]

/-- Where `ρ ≤ s - r` the lower bound is `s - r` and the full-burial summand is present
(it vanishes on the boundary). -/
theorem hctTerm_eq_D (M : Libm α) (ρ s r : α) (hρ : 0 < ρ) (hr : 0 < r) (h : ρ ≤ s - r) :
    hctTerm M ρ r s = hctClosed M s r (1 / (s - r)) + 2 * (1 / ρ - 1 / (s - r)) := by
  unfold hctTerm hctClosed
  have h1 : ρ < r + s := by linarith
  have h2 : |r - s| = s - r := by rw [abs_sub_comm]; exact abs_of_nonneg (by linarith)
  have h4 : ¬ ρ > s - r := not_lt.2 h
  simp only [h1, if_true, h2, h4, if_false]
  rcases lt_or_eq_of_le h with h5 | h5
  · simp only [h5, if_true]
  · simp only [← h5, lt_self_iff_false, if_false, sub_self, mul_zero, add_zero]

/-- Where `|r - s| ≤ ρ` the value `t3` is taken with lower bound `ρ`. -/
theorem chainT3_eq_B (M : Libm α) (ρ s r : α) (h2 : |r - s| ≤ ρ) :
    chainT3 M ρ r s = t3Of M s r (1 / ρ) := by
  unfold chainT3 t3Of
  rcases lt_or_eq_of_le h2 with h4 | h4
  · simp only [gt_iff_lt, h4, if_true]
  · simp only [gt_iff_lt, h4, lt_self_iff_false, if_false]

/-- Where `ρ ≤ r - s` the value `t3` is taken with lower bound `r - s`. -/
theorem chainT3_eq_C (M : Libm α) (ρ s r : α) (h : ρ ≤ r - s) (hρ : 0 < ρ) :
    chainT3 M ρ r s = t3Of M s r (1 / (r - s)) := by
  unfold chainT3 t3Of
  have h2 : |r - s| = r - s := abs_of_nonneg (by linarith)
  have h4 : ¬ ρ > r - s := not_lt.2 h
  simp only [h2, h4, if_false]

/-- Where `ρ ≤ s - r` the value `t3` is taken with lower bound `s - r`. -/
theorem chainT3_eq_D (M : Libm α) (ρ s r : α) (h : ρ ≤ s - r) (hρ : 0 < ρ) :
    chainT3 M ρ r s = t3Of M s r (1 / (s - r)) := by
  unfold chainT3 t3Of
  have h2 : |r - s| = s - r := by rw [abs_sub_comm]; exact abs_of_nonneg (by linarith)
  have h4 : ¬ ρ > s - r := not_lt.2 h
  simp only [h2, h4, if_false]

/-- Derivative of the HCT closed form in `r` along a differentiable lower-bound inverse
`l`: minus twice `t3`, plus the partial derivative in `l` times the derivative of `l`. -/
theorem hasDerivAt_hctClosed (M : Libm ℝ) (hLN : M.LN = Real.log) (s : ℝ) (l : ℝ → ℝ)
    (l' r : ℝ) (hl : HasDerivAt l l' r)
    (hlpos : 0 < l r) (hr : 0 < r) (hrs : 0 < r + s) :
    HasDerivAt (fun r => hctClosed M s r (l r))
      (-2 * t3Of M s r (l r)
        + (1 - (1 / 2) * r * l r - 1 / (2 * r * l r) + s * s * l r / (2 * r)) * l') r := by
  have hid : HasDerivAt (fun r : ℝ => r) 1 r := hasDerivAt_id r
  have hu : HasDerivAt (fun r : ℝ => 1 / (r + s)) (-(1 / ((r + s) * (r + s)))) r := by
    have := ((hid.add_const s).inv hrs.ne')
    simp only [one_div]
    convert this using 1
    field_simp
    ring
  have hri : HasDerivAt (fun r : ℝ => 1 / r) (-(1 / (r * r))) r := by
    have := (hid.inv hr.ne')
    simp only [one_div]
    convert this using 1
    field_simp
    ring
  have hq : HasDerivAt (fun r : ℝ => (1 / (r + s)) / l r)
      ((-(1 / ((r + s) * (r + s))) * l r - (1 / (r + s)) * l') / (l r) ^ 2) r :=
    hu.div hl hlpos.ne'
  have hqpos : (1 / (r + s)) / l r ≠ 0 := by positivity
  have hlog := hq.log hqpos
  unfold hctClosed
  rw [hLN]
  have := ((((hl.sub hu).add (((hasDerivAt_const r (1 / 4 : ℝ)).mul hid).mul
    ((hu.mul hu).sub (hl.mul hl)))).add
    (((hasDerivAt_const r (1 / 2 : ℝ)).mul hri).mul hlog)).add
    ((((hasDerivAt_const r ((1 / 4 : ℝ) * s * s)).mul hri)).mul ((hl.mul hl).sub (hu.mul hu))))
  convert this using 1
  unfold t3Of
  rw [hLN]
  have h1 := hr.ne'
  have h2 := hrs.ne'
  have h3 := hlpos.ne'
  field_simp
  ring

/-- The hyperbolic tangent has derivative `1 - tanh^2`. -/
theorem hasDerivAt_tanh (x : ℝ) : HasDerivAt Real.tanh (1 - Real.tanh x * Real.tanh x) x := by
  have hc : Real.cosh x ≠ 0 := (Real.cosh_pos x).ne'
  have h := (Real.hasDerivAt_sinh x).div (Real.hasDerivAt_cosh x) hc
  have he : (fun y => Real.sinh y / Real.cosh y) = Real.tanh := by
    funext y; rw [Real.tanh_eq_sinh_div_cosh]
  rw [he] at h
  convert h using 1
  rw [Real.tanh_eq_sinh_div_cosh]
  field_simp
  left
  ring

/-- Gluing: a function that near `r0` agrees at each point with one of two functions
sharing value and derivative at `r0` has that derivative at `r0`. -/
theorem hasDerivAt_of_eventually_or {h f g : ℝ → ℝ} {d r0 : ℝ} (hf : HasDerivAt f d r0)
    (hg : HasDerivAt g d r0) (hfg : f r0 = g r0)
    (hh : ∀ᶠ r in nhds r0, h r = f r ∨ h r = g r) : HasDerivAt h d r0 := by
  have h0 : h r0 = f r0 := by
    rcases hh.self_of_nhds with h1 | h1
    · exact h1
    · rw [h1, hfg]
  rw [hasDerivAt_iff_isLittleO] at hf hg ⊢
  rw [Asymptotics.isLittleO_iff] at hf hg ⊢
  intro c hc
  filter_upwards [hf hc, hg hc, hh] with r h1 h2 h3
  rcases h3 with h3 | h3
  · rw [h3, h0]; exact h1
  · rw [h3, h0, hfg]; exact h2

/-- Derivative of the summand where the lower bound is the constant `ρ`. -/
theorem hasDerivAt_pieceB (M : Libm ℝ) (hLN : M.LN = Real.log) (ρ s r : ℝ) (hρ : 0 < ρ)
    (hr : 0 < r) (hrs : 0 < r + s) :
    HasDerivAt (fun r => hctClosed M s r (1 / ρ)) (-2 * t3Of M s r (1 / ρ)) r := by
  have := hasDerivAt_hctClosed M hLN s (fun _ => 1 / ρ) 0 r (hasDerivAt_const r _)
    (by positivity) hr hrs
  simpa using this

/-- Derivative of the summand where the lower bound is `r - s`: the partial derivative in
`l` vanishes there, which is the comment `dL/dr & dU/dr are zero` of line 619. -/
theorem hasDerivAt_pieceC (M : Libm ℝ) (hLN : M.LN = Real.log) (s r : ℝ)
    (hr : 0 < r) (hrs : 0 < r + s) (h : 0 < r - s) :
    HasDerivAt (fun r => hctClosed M s r (1 / (r - s))) (-2 * t3Of M s r (1 / (r - s))) r := by
  have hl : HasDerivAt (fun r : ℝ => 1 / (r - s)) (-(1 / ((r - s) * (r - s)))) r := by
    have := (((hasDerivAt_id r).sub_const s).inv h.ne')
    simp only [one_div]
    convert this using 1
    field_simp
    ring
  have := hasDerivAt_hctClosed M hLN s (fun r => 1 / (r - s)) _ r hl (by positivity) hr hrs
  convert this using 1
  have h1 := hr.ne'
  have h2 := h.ne'
  have : (1 - 1 / 2 * r * (1 / (r - s)) - 1 / (2 * r * (1 / (r - s)))
      + s * s * (1 / (r - s)) / (2 * r)) = 0 := by
    field_simp
    ring
  rw [this, zero_mul, add_zero]

/-- Derivative of the summand where the lower bound is `s - r`: the full-burial summand
cancels the partial derivative in `l`. -/
theorem hasDerivAt_pieceD (M : Libm ℝ) (hLN : M.LN = Real.log) (ρ s r : ℝ)
    (hr : 0 < r) (hrs : 0 < r + s) (h : 0 < s - r) :
    HasDerivAt (fun r => hctClosed M s r (1 / (s - r)) + 2 * (1 / ρ - 1 / (s - r)))
      (-2 * t3Of M s r (1 / (s - r))) r := by
  have hl : HasDerivAt (fun r : ℝ => 1 / (s - r)) (1 / ((s - r) * (s - r))) r := by
    have := (((hasDerivAt_id r).const_sub s).inv h.ne')
    simp only [one_div]
    convert this using 1
    field_simp
    ring
  have h0 := hasDerivAt_hctClosed M hLN s (fun r => 1 / (s - r)) _ r hl (by positivity) hr hrs
  have := h0.add (((hasDerivAt_const r (1 / ρ)).sub hl).const_mul 2)
  convert this using 1
  have h1 := hr.ne'
  have h2 := h.ne'
  have : (1 - 1 / 2 * r * (1 / (s - r)) - 1 / (2 * r * (1 / (s - r)))
      + s * s * (1 / (s - r)) / (2 * r)) = 2 := by
    field_simp
    ring
  rw [this]
  ring

/-- On the boundary `l = u` the value `t3` is zero. -/
theorem t3Of_eq_zero (M : Libm ℝ) (hLN : M.LN = Real.log) (s r : ℝ) (hrs : 0 < r + s) :
    t3Of M s r (1 / (r + s)) = 0 := by
  unfold t3Of
  rw [hLN, div_self (by positivity)]
  simp

/-- On the boundary `l = u` the closed form is zero. -/
theorem hctClosed_eq_zero (M : Libm ℝ) (hLN : M.LN = Real.log) (s r : ℝ) (hrs : 0 < r + s) :
    hctClosed M s r (1 / (r + s)) = 0 := by
  unfold hctClosed
  rw [hLN, div_self (by positivity)]
  simp

/-- The summand of `computeBornRadii` is differentiable in the distance at every
`r0 > 0`, kinks included, with derivative minus twice the `t3` the second main loop uses
(zero where that loop skips the pair). -/
theorem hasDerivAt_hctTerm (M : Libm ℝ) (hLN : M.LN = Real.log) (ρ s r0 : ℝ) (hρ : 0 < ρ)
    (hs : 0 < s) (hr : 0 < r0) :
    HasDerivAt (fun r => hctTerm M ρ r s)
      (-2 * (if ρ < r0 + s then chainT3 M ρ r0 s else 0)) r0 := by
  have hrs : 0 < r0 + s := by linarith
  have hpos : ∀ᶠ r in nhds r0, 0 < r := eventually_gt_nhds hr
  rcases lt_trichotomy (r0 + s) ρ with hA | hA | hA
  · -- inside region A
    rw [if_neg (by linarith)]
    have hev : ∀ᶠ r in nhds r0, r < ρ - s := eventually_lt_nhds (by linarith)
    have : HasDerivAt (fun _ : ℝ => (0 : ℝ)) (-2 * 0) r0 := by
      simpa using hasDerivAt_const r0 (0 : ℝ)
    refine this.congr_of_eventuallyEq ?_
    filter_upwards [hev] with r h1
    exact hctTerm_eq_A M ρ s r (by linarith)
  · -- boundary A / B
    rw [if_neg (by linarith)]
    have hB := hasDerivAt_pieceB M hLN ρ s r0 hρ hr hrs
    have hρ' : 1 / ρ = 1 / (r0 + s) := by rw [hA]
    rw [hρ', t3Of_eq_zero M hLN s r0 hrs, ← hρ'] at hB
    have h0 : HasDerivAt (fun _ : ℝ => (0 : ℝ)) (-2 * 0) r0 := by
      simpa using hasDerivAt_const r0 (0 : ℝ)
    refine hasDerivAt_of_eventually_or h0 hB ?_ ?_
    · rw [hρ', hctClosed_eq_zero M hLN s r0 hrs]
    · have e1 : ∀ᶠ r in nhds r0, r < ρ + s := eventually_lt_nhds (by linarith)
      have e2 : ∀ᶠ r in nhds r0, s - ρ < r := eventually_gt_nhds (by linarith)
      filter_upwards [e1, e2] with r h1 h2
      rcases le_or_lt (r + s) ρ with h3 | h3
      · exact Or.inl (hctTerm_eq_A M ρ s r h3)
      · exact Or.inr (hctTerm_eq_B M ρ s r h3 (abs_le.2 ⟨by linarith, by linarith⟩))
  · rw [if_pos hA]
    rcases lt_trichotomy (r0 - s) ρ with hC | hC | hC
    · rcases lt_trichotomy (s - r0) ρ with hD | hD | hD
      · -- inside region B
        have hB := hasDerivAt_pieceB M hLN ρ s r0 hρ hr hrs
        rw [chainT3_eq_B M ρ s r0 (abs_le.2 ⟨by linarith, by linarith⟩)]
        refine hB.congr_of_eventuallyEq ?_
        have e1 : ∀ᶠ r in nhds r0, r < ρ + s := eventually_lt_nhds (by linarith)
        have e2 : ∀ᶠ r in nhds r0, s - ρ < r := eventually_gt_nhds (by linarith)
        have e3 : ∀ᶠ r in nhds r0, ρ - s < r := eventually_gt_nhds (by linarith)
        filter_upwards [e1, e2, e3] with r h1 h2 h3
        exact hctTerm_eq_B M ρ s r (by linarith) (abs_le.2 ⟨by linarith, by linarith⟩)
      · -- boundary B / D
        have hB := hasDerivAt_pieceB M hLN ρ s r0 hρ hr hrs
        have hDd := hasDerivAt_pieceD M hLN ρ s r0 hr hrs (by linarith)
        rw [chainT3_eq_B M ρ s r0 (abs_le.2 ⟨by linarith, by linarith⟩)]
        rw [hD] at hDd
        refine hasDerivAt_of_eventually_or hB hDd ?_ ?_
        · simp only [hD]; ring
        · have e1 : ∀ᶠ r in nhds r0, r < ρ + s := eventually_lt_nhds (by linarith)
          have e3 : ∀ᶠ r in nhds r0, ρ - s < r := eventually_gt_nhds (by linarith)
          filter_upwards [e1, e3, hpos] with r h1 h3 h4
          rcases le_or_lt ρ (s - r) with h5 | h5
          · exact Or.inr (hctTerm_eq_D M ρ s r hρ h4 h5)
          · exact Or.inl (hctTerm_eq_B M ρ s r (by linarith)
              (abs_le.2 ⟨by linarith, by linarith⟩))
      · -- inside region D
        have hDd := hasDerivAt_pieceD M hLN ρ s r0 hr hrs (by linarith)
        rw [chainT3_eq_D M ρ s r0 hD.le hρ]
        refine hDd.congr_of_eventuallyEq ?_
        have e1 : ∀ᶠ r in nhds r0, r < s - ρ := eventually_lt_nhds (by linarith)
        filter_upwards [e1, hpos] with r h1 h4
        exact hctTerm_eq_D M ρ s r hρ h4 (by linarith)
    · -- boundary B / C
      have hB := hasDerivAt_pieceB M hLN ρ s r0 hρ hr hrs
      have hCc := hasDerivAt_pieceC M hLN s r0 hr hrs (by linarith)
      rw [chainT3_eq_B M ρ s r0 (abs_le.2 ⟨by linarith, by linarith⟩)]
      rw [hC] at hCc
      refine hasDerivAt_of_eventually_or hB hCc ?_ ?_
      · simp only [hC]
      · have e2 : ∀ᶠ r in nhds r0, s - ρ < r := eventually_gt_nhds (by linarith)
        have e3 : ∀ᶠ r in nhds r0, ρ - s < r := eventually_gt_nhds (by linarith)
        filter_upwards [e2, e3] with r h2 h3
        rcases le_or_lt ρ (r - s) with h5 | h5
        · exact Or.inr (hctTerm_eq_C M ρ s r hρ hs h5)
        · exact Or.inl (hctTerm_eq_B M ρ s r (by linarith)
            (abs_le.2 ⟨by linarith, by linarith⟩))
    · -- inside region C
      have hCc := hasDerivAt_pieceC M hLN s r0 hr hrs (by linarith)
      rw [chainT3_eq_C M ρ s r0 hC.le hρ]
      refine hCc.congr_of_eventuallyEq ?_
      have e1 : ∀ᶠ r in nhds r0, ρ + s < r := eventually_gt_nhds (by linarith)
      filter_upwards [e1] with r h1
      exact hctTerm_eq_C M ρ s r hρ hs (by linarith)

/-- Components of the moved coordinates. -/
theorem moveAtom_apply (x : Nat → vector3 α) (k : Nat) (c : Fin 3) (t : α) (j : Nat)
    (c1 : Fin 3) :
    moveAtom x k c t j c1 = x j c1 + (if j = k ∧ c1 = c then t - x k c else 0) := by
  unfold moveAtom
  by_cases hj : j = k
  · subst hj
    by_cases hc : c1 = c
    · subst hc; simp
    · simp [hc]
  · simp [hj]

/-- Setting a component to the value it has changes nothing. -/
theorem moveAtom_self (x : Nat → vector3 α) (k : Nat) (c : Fin 3) :
    moveAtom x k c (x k c) = x := by
  unfold moveAtom
  simp

/-- The squared distance of a pair is a quadratic polynomial in the moved component. -/
theorem r2_moveAtom (M : Libm α) (x : Nat → vector3 α) (k : Nat) (c : Fin 3) (t : α)
    (i j : Nat) :
    (getDeltaR M (moveAtom x k c t i) (moveAtom x k c t j)).R2Index
      = (getDeltaR M (x i) (x j)).R2Index
        + 2 * (x j c - x i c) * incidence k i j * (t - x k c)
        + incidence k i j * incidence k i j * ((t - x k c) * (t - x k c)) := by
  unfold getDeltaR incidence
  simp only [moveAtom_apply]
  fin_cases c <;> by_cases hi : i = k <;> by_cases hj : j = k <;>
    simp [hi, hj] <;> ring

/-- A list sum of differentiable functions is differentiable, term by term. -/
theorem hasDerivAt_listSum {ι : Type} (l : List ι) (f : ι → ℝ → ℝ) (f' : ι → ℝ) (t : ℝ)
    (h : ∀ a ∈ l, HasDerivAt (f a) (f' a) t) :
    HasDerivAt (fun t => (l.map (fun a => f a t)).sum) (l.map f').sum t := by
  induction l with
  | nil => simpa using hasDerivAt_const t (0 : ℝ)
  | cons a l ih =>
    simp only [List.map_cons, List.sum_cons]
    exact (h a (List.mem_cons_self _ _)).add (ih (fun b hb => h b (List.mem_cons_of_mem _ hb)))

/-- Derivative of the squared distance of a pair in the moved component. -/
theorem hasDerivAt_r2 (M : Libm ℝ) (x : Nat → vector3 ℝ) (k : Nat) (c : Fin 3) (i j : Nat) :
    HasDerivAt (fun t => (getDeltaR M (moveAtom x k c t i) (moveAtom x k c t j)).R2Index)
      (2 * (x j c - x i c) * incidence k i j) (x k c) := by
  have hfun : (fun t => (getDeltaR M (moveAtom x k c t i) (moveAtom x k c t j)).R2Index)
      = fun t => (getDeltaR M (x i) (x j)).R2Index
        + 2 * (x j c - x i c) * incidence k i j * (t - x k c)
        + incidence k i j * incidence k i j * ((t - x k c) * (t - x k c)) := by
    funext t; exact r2_moveAtom M x k c t i j
  rw [hfun]
  have hid : HasDerivAt (fun t : ℝ => t - x k c) 1 (x k c) := (hasDerivAt_id _).sub_const _
  have := ((hasDerivAt_const (x k c) (getDeltaR M (x i) (x j)).R2Index).add
    (hid.const_mul (2 * (x j c - x i c) * incidence k i j))).add
    ((hid.mul hid).const_mul (incidence k i j * incidence k i j))
  convert this using 1
  simp

/-- The distance slot of `getDeltaR` is the square root of the squared-distance slot. -/
theorem rIndex_eq (M : Libm ℝ) (a b : vector3 ℝ) :
    (getDeltaR M a b).RIndex = M.SQRT (getDeltaR M a b).R2Index := rfl

/-- The squared distance is non-negative. -/
theorem r2_nonneg (M : Libm ℝ) (a b : vector3 ℝ) : 0 ≤ (getDeltaR M a b).R2Index := by
  unfold getDeltaR
  simp only
  nlinarith [mul_self_nonneg (b 0 - a 0), mul_self_nonneg (b 1 - a 1),
    mul_self_nonneg (b 2 - a 2)]

/-- Distinct positions have a positive squared distance. -/
theorem r2_pos (M : Libm ℝ) (a b : vector3 ℝ) (h : a ≠ b) :
    0 < (getDeltaR M a b).R2Index := by
  rcases (r2_nonneg M a b).lt_or_eq with h1 | h1
  · exact h1
  · exfalso
    apply h
    unfold getDeltaR at h1
    simp only at h1
    have h0 : b 0 - a 0 = 0 := by
      nlinarith [sq_nonneg (b 0 - a 0), sq_nonneg (b 1 - a 1), sq_nonneg (b 2 - a 2)]
    have h1' : b 1 - a 1 = 0 := by
      nlinarith [sq_nonneg (b 0 - a 0), sq_nonneg (b 1 - a 1), sq_nonneg (b 2 - a 2)]
    have h2 : b 2 - a 2 = 0 := by
      nlinarith [sq_nonneg (b 0 - a 0), sq_nonneg (b 1 - a 1), sq_nonneg (b 2 - a 2)]
    funext c
    fin_cases c
    · simpa using (sub_eq_zero.1 h0).symm
    · simpa using (sub_eq_zero.1 h1').symm
    · simpa using (sub_eq_zero.1 h2).symm

/-- Derivative of the distance of a pair of distinct atoms in the moved component. -/
theorem hasDerivAt_r (M : Libm ℝ) (hS : M.SQRT = Real.sqrt) (x : Nat → vector3 ℝ) (k : Nat)
    (c : Fin 3) (i j : Nat) (hpos : 0 < (getDeltaR M (x i) (x j)).R2Index) :
    HasDerivAt (fun t => (getDeltaR M (moveAtom x k c t i) (moveAtom x k c t j)).RIndex)
      ((x j c - x i c) * incidence k i j * (1 / (getDeltaR M (x i) (x j)).RIndex)) (x k c) := by
  simp only [rIndex_eq, hS]
  have h2 := hasDerivAt_r2 M x k c i j
  have h0 : (getDeltaR M (moveAtom x k c (x k c) i) (moveAtom x k c (x k c) j)).R2Index ≠ 0 := by
    rw [moveAtom_self]; exact hpos.ne'
  have := h2.sqrt h0
  convert this using 1
  rw [moveAtom_self]
  have : Real.sqrt (getDeltaR M (x i) (x j)).R2Index ≠ 0 := (Real.sqrt_pos.2 hpos).ne'
  field_simp
  ring

/-- Without cutoff in the stored parameters the inner loop of `computeBornRadii` is the
list sum of the summands of all other atoms. -/
theorem hctSum_noCutoff (M : Libm α) (self : ReferenceObc α) (p : ObcParameters α)
    (y : Nat → vector3 α) (i : Nat) (hcut : self._obcParameters.useCutoff = false) :
    hctSum M self p y i
      = ((List.range p.numberOfAtoms).map fun j =>
          if j ≠ i then
            hctTerm M (p.atomicRadii i - p.dielectricOffset) (getDeltaR M (y i) (y j)).RIndex
              ((p.atomicRadii j - p.dielectricOffset) * p.scaledRadiusFactors j)
          else 0).sum := by
  unfold hctSum
  have key := foldl_adds (id : α → α)
    (fun sum atomJ =>
      if atomJ ≠ i then
        if self._obcParameters.useCutoff = true
            ∧ (getDeltaR M (y i) (y atomJ)).RIndex > self._obcParameters.cutoffDistance
        then sum
        else sum + hctTerm M (p.atomicRadii i - p.dielectricOffset)
          (getDeltaR M (y i) (y atomJ)).RIndex
          ((p.atomicRadii atomJ - p.dielectricOffset) * p.scaledRadiusFactors atomJ)
      else sum)
    (fun j =>
      if j ≠ i then
        hctTerm M (p.atomicRadii i - p.dielectricOffset) (getDeltaR M (y i) (y j)).RIndex
          ((p.atomicRadii j - p.dielectricOffset) * p.scaledRadiusFactors j)
      else 0)
    (List.range p.numberOfAtoms)
    (fun s j _ => by
      simp only [id, hcut, Bool.false_eq_true, false_and, if_false]
      by_cases h1 : j ≠ i
      · simp only [h1, ne_eq, not_false_eq_true, if_true]
      · simp only [h1, if_false, add_zero])
    0
  simp only [id, zero_add] at key
  exact key

/-- The inner sum of `computeBornRadii` is differentiable in the moved component. -/
theorem hasDerivAt_hctSum (M : Libm ℝ) (hS : M.SQRT = Real.sqrt) (hLN : M.LN = Real.log)
    (self : ReferenceObc ℝ) (p : ObcParameters ℝ) (x : Nat → vector3 ℝ) (k : Nat) (c : Fin 3)
    (i : Nat) (hcut : self._obcParameters.useCutoff = false)
    (hρ : 0 < p.atomicRadii i - p.dielectricOffset)
    (hs : ∀ j, j < p.numberOfAtoms →
      0 < (p.atomicRadii j - p.dielectricOffset) * p.scaledRadiusFactors j)
    (hd : ∀ j, j < p.numberOfAtoms → j ≠ i → x i ≠ x j) :
    HasDerivAt (fun t => hctSum M self p (moveAtom x k c t) i)
      (hctSumDeriv M p x k c i) (x k c) := by
  have hfun : (fun t => hctSum M self p (moveAtom x k c t) i)
      = fun t => ((List.range p.numberOfAtoms).map fun j =>
          (fun j t => if j ≠ i then
            hctTerm M (p.atomicRadii i - p.dielectricOffset)
              (getDeltaR M (moveAtom x k c t i) (moveAtom x k c t j)).RIndex
              ((p.atomicRadii j - p.dielectricOffset) * p.scaledRadiusFactors j)
          else 0) j t).sum := by
    funext t
    exact hctSum_noCutoff M self p _ i hcut
  rw [hfun]
  unfold hctSumDeriv
  refine hasDerivAt_listSum _ _ _ _ (fun j hj => ?_)
  have hjN : j < p.numberOfAtoms := List.mem_range.1 hj
  by_cases hji : j ≠ i
  · simp only [hji, ne_eq, not_false_eq_true, if_true]
    have hr2 := r2_pos M (x i) (x j) (hd j hjN hji)
    have hr := hasDerivAt_r M hS x k c i j hr2
    have hrpos : 0 < (getDeltaR M (x i) (x j)).RIndex := by
      rw [rIndex_eq, hS]; exact Real.sqrt_pos.2 hr2
    have hH := hasDerivAt_hctTerm M hLN (p.atomicRadii i - p.dielectricOffset)
      ((p.atomicRadii j - p.dielectricOffset) * p.scaledRadiusFactors j)
      (getDeltaR M (x i) (x j)).RIndex hρ (hs j hjN) hrpos
    have h0 : (getDeltaR M (moveAtom x k c (x k c) i) (moveAtom x k c (x k c) j)).RIndex
        = (getDeltaR M (x i) (x j)).RIndex := by rw [moveAtom_self]
    rw [← h0] at hH
    have := HasDerivAt.comp (x k c) hH hr
    rw [h0] at this
    exact this
  · simp only [hji, if_false]
    exact hasDerivAt_const _ _

/-- The hyperbolic tangent is below 1. -/
theorem tanh_lt_one (z : ℝ) : Real.tanh z < 1 := by
  rw [Real.tanh_eq_sinh_div_cosh, div_lt_one (Real.cosh_pos z)]
  exact Real.sinh_lt_cosh z

/-- The denominator of line 234 is positive when `0 < offsetRadiusI ≤ radiusI`. -/
theorem obcDenominator_pos (ρ a z : ℝ) (hρ : 0 < ρ) (hρa : ρ ≤ a) :
    0 < 1 / ρ - Real.tanh z / a := by
  have ha : 0 < a := lt_of_lt_of_le hρ hρa
  have h1 : Real.tanh z / a < 1 / a := by
    exact div_lt_div_of_pos_right (tanh_lt_one z) ha
  have h2 : 1 / a ≤ 1 / ρ := one_div_le_one_div_of_le hρ hρa
  linarith

/-- Derivative of the OBC remapping of lines 229-234 in `sum`: the square of the Born
radius times the chain value of lines 238-239 times one half. -/
theorem hasDerivAt_obcCore (ρ a al be ga S : ℝ) (hρ : 0 < ρ) (hρa : ρ ≤ a) :
    HasDerivAt
      (fun S : ℝ => 1 / (1 / ρ - Real.tanh (al * (S * (1 / 2) * ρ)
          - be * ((S * (1 / 2) * ρ) * (S * (1 / 2) * ρ))
          + ga * ((S * (1 / 2) * ρ) * ((S * (1 / 2) * ρ) * (S * (1 / 2) * ρ)))) / a))
      ((1 / (1 / ρ - Real.tanh (al * (S * (1 / 2) * ρ)
          - be * ((S * (1 / 2) * ρ) * (S * (1 / 2) * ρ))
          + ga * ((S * (1 / 2) * ρ) * ((S * (1 / 2) * ρ) * (S * (1 / 2) * ρ)))) / a))
        * (1 / (1 / ρ - Real.tanh (al * (S * (1 / 2) * ρ)
          - be * ((S * (1 / 2) * ρ) * (S * (1 / 2) * ρ))
          + ga * ((S * (1 / 2) * ρ) * ((S * (1 / 2) * ρ) * (S * (1 / 2) * ρ)))) / a))
        * ((1 - Real.tanh (al * (S * (1 / 2) * ρ)
              - be * ((S * (1 / 2) * ρ) * (S * (1 / 2) * ρ))
              + ga * ((S * (1 / 2) * ρ) * ((S * (1 / 2) * ρ) * (S * (1 / 2) * ρ))))
            * Real.tanh (al * (S * (1 / 2) * ρ)
              - be * ((S * (1 / 2) * ρ) * (S * (1 / 2) * ρ))
              + ga * ((S * (1 / 2) * ρ) * ((S * (1 / 2) * ρ) * (S * (1 / 2) * ρ)))))
          * (ρ * (al - 2 * be * (S * (1 / 2) * ρ)
              + 3 * ga * ((S * (1 / 2) * ρ) * (S * (1 / 2) * ρ)))) / a)
        * (1 / 2)) S := by
  have ha : 0 < a := lt_of_lt_of_le hρ hρa
  have hΨ : HasDerivAt (fun S : ℝ => S * (1 / 2) * ρ) (1 / 2 * ρ) S := by
    have := (((hasDerivAt_id S).mul_const (1 / 2 : ℝ)).mul_const ρ)
    simpa using this
  have hP : HasDerivAt (fun S : ℝ => al * (S * (1 / 2) * ρ)
          - be * ((S * (1 / 2) * ρ) * (S * (1 / 2) * ρ))
          + ga * ((S * (1 / 2) * ρ) * ((S * (1 / 2) * ρ) * (S * (1 / 2) * ρ))))
      ((al - 2 * be * (S * (1 / 2) * ρ)
          + 3 * ga * ((S * (1 / 2) * ρ) * (S * (1 / 2) * ρ))) * (1 / 2 * ρ)) S := by
    have := ((hΨ.const_mul al).sub ((hΨ.mul hΨ).const_mul be)).add
      ((hΨ.mul (hΨ.mul hΨ)).const_mul ga)
    convert this using 1
    ring
  have hth := (hasDerivAt_tanh _).comp S hP
  have hpos := obcDenominator_pos ρ a (al * (S * (1 / 2) * ρ)
          - be * ((S * (1 / 2) * ρ) * (S * (1 / 2) * ρ))
          + ga * ((S * (1 / 2) * ρ) * ((S * (1 / 2) * ρ) * (S * (1 / 2) * ρ)))) hρ hρa
  have hden := (hasDerivAt_const S (1 / ρ)).sub (hth.div_const a)
  have hinv := hden.inv hpos.ne'
  simp only [Function.comp] at hinv
  generalize Real.tanh (al * (S * (1 / 2) * ρ)
          - be * ((S * (1 / 2) * ρ) * (S * (1 / 2) * ρ))
          + ga * ((S * (1 / 2) * ρ) * ((S * (1 / 2) * ρ) * (S * (1 / 2) * ρ)))) = th at hinv hpos ⊢
  simp only [one_div] at hinv ⊢
  convert hinv using 1
  have h1 := hρ.ne'
  have h2 := ha.ne'
  have h3 := hpos.ne'
  simp only [one_div] at h3
  field_simp
  ring

/-- Derivative of the Born radius written by `computeBornRadii` in the inner sum. -/
theorem hasDerivAt_obcRemap (M : Libm ℝ) (hT : M.TANH = Real.tanh) (p : ObcParameters ℝ)
    (i : Nat) (S : ℝ) (hρ : 0 < p.atomicRadii i - p.dielectricOffset)
    (hρa : p.atomicRadii i - p.dielectricOffset ≤ p.atomicRadii i) :
    HasDerivAt (fun S => (obcRemap M p none i S).1)
      ((obcRemap M p none i S).1 * (obcRemap M p none i S).1 * (obcRemap M p none i S).2
        * (1 / 2)) S := by
  have := hasDerivAt_obcCore (p.atomicRadii i - p.dielectricOffset) (p.atomicRadii i)
    p.alphaObc p.betaObc p.gammaObc S hρ hρa
  unfold obcRemap
  simp only [hT]
  exact this

/-- The Born radius written by `computeBornRadii` is positive when
`0 < offsetRadiusI ≤ radiusI`. -/
theorem obcRemap_fst_pos (M : Libm ℝ) (hT : M.TANH = Real.tanh) (p : ObcParameters ℝ)
    (g : Option (Nat → ℝ)) (i : Nat) (S : ℝ) (hρ : 0 < p.atomicRadii i - p.dielectricOffset)
    (hρa : p.atomicRadii i - p.dielectricOffset ≤ p.atomicRadii i) :
    0 < (obcRemap M p g i S).1 := by
  unfold obcRemap
  simp only [hT]
  exact one_div_pos.2 (obcDenominator_pos _ _ _ hρ hρa)

/-- The Born radius of an atom is positive when `0 < offsetRadiusI ≤ radiusI`. -/
theorem bornRadiusOut_pos (M : Libm ℝ) (hT : M.TANH = Real.tanh) (self : ReferenceObc ℝ)
    (p : ObcParameters ℝ) (y : Nat → vector3 ℝ) (g : Option (Nat → ℝ)) (i : Nat)
    (hρ : 0 < p.atomicRadii i - p.dielectricOffset)
    (hρa : p.atomicRadii i - p.dielectricOffset ≤ p.atomicRadii i) :
    0 < bornRadiusOut M self p y g i :=
  obcRemap_fst_pos M hT p g i _ hρ hρa

/-- The Born radius of atom `i` is differentiable in the moved component. -/
theorem hasDerivAt_bornRadiusOut (M : Libm ℝ) (hS : M.SQRT = Real.sqrt)
    (hLN : M.LN = Real.log) (hT : M.TANH = Real.tanh)
    (self : ReferenceObc ℝ) (p : ObcParameters ℝ) (x : Nat → vector3 ℝ) (k : Nat) (c : Fin 3)
    (i : Nat) (hcut : self._obcParameters.useCutoff = false)
    (hρ : 0 < p.atomicRadii i - p.dielectricOffset)
    (hρa : p.atomicRadii i - p.dielectricOffset ≤ p.atomicRadii i)
    (hs : ∀ j, j < p.numberOfAtoms →
      0 < (p.atomicRadii j - p.dielectricOffset) * p.scaledRadiusFactors j)
    (hd : ∀ j, j < p.numberOfAtoms → j ≠ i → x i ≠ x j) :
    HasDerivAt (fun t => bornRadiusOut M self p (moveAtom x k c t) none i)
      (bornRadiusDeriv M self p x k c i) (x k c) := by
  have h1 := hasDerivAt_hctSum M hS hLN self p x k c i hcut hρ hs hd
  have h2 := hasDerivAt_obcRemap M hT p i
    (hctSum M self p (moveAtom x k c (x k c)) i) hρ hρa
  have := HasDerivAt.comp (x k c) h2 h1
  rw [moveAtom_self] at this
  exact this

/-- Derivative of `Gpol` along differentiable `r2` and `alpha2_ij`: half of `dGpol_dr`
times the derivative of `r2` plus `dGpol_dalpha2_ij` times the derivative of `alpha2_ij`. -/
theorem hasDerivAt_gpol (cq : ℝ) (R A : ℝ → ℝ) (R' A' t : ℝ) (hR : HasDerivAt R R' t)
    (hA : HasDerivAt A A' t) (hRn : 0 ≤ R t) (hAp : 0 < A t) :
    HasDerivAt (fun t => cq / Real.sqrt (R t + A t * Real.exp (-(R t / (4 * A t)))))
      ((-(cq / Real.sqrt (R t + A t * Real.exp (-(R t / (4 * A t)))))
            * (1 - (1 / 4) * Real.exp (-(R t / (4 * A t))))
            / (R t + A t * Real.exp (-(R t / (4 * A t))))) * (1 / 2) * R'
        + (-(1 / 2) * (cq / Real.sqrt (R t + A t * Real.exp (-(R t / (4 * A t)))))
            * Real.exp (-(R t / (4 * A t))) * (1 + R t / (4 * A t))
            / (R t + A t * Real.exp (-(R t / (4 * A t))))) * A') t := by
  have h4A : (4 * A t) ≠ 0 := by positivity
  have hq := (hR.div (hA.const_mul 4) h4A).neg
  have he := hq.exp
  have hf := hR.add (hA.mul he)
  have hfpos : 0 < R t + A t * Real.exp (-(R t / (4 * A t))) := by positivity
  have hsq := hf.sqrt hfpos.ne'
  have hsqpos : 0 < Real.sqrt (R t + A t * Real.exp (-(R t / (4 * A t)))) :=
    Real.sqrt_pos.2 hfpos
  have := (hasDerivAt_const t cq).div hsq hsqpos.ne'
  rw [Real.sq_sqrt hfpos.le] at this
  convert this using 1
  have h1 := hAp.ne'
  have h2 := hfpos.ne'
  have h3 := hsqpos.ne'
  generalize Real.exp (-(R t / (4 * A t))) = E at *
  generalize Real.sqrt (R t + A t * E) = sf at *
  field_simp
  ring

/-- Without cutoff the pair energy is `Gpol` off the diagonal and half of it on the
diagonal. -/
theorem pairEnergy_noCutoff (M : Libm α) (p : ObcParameters α) (y : Nat → vector3 α)
    (q b : Nat → α) (pc : α) (i j : Nat) (hcut : p.useCutoff = false) :
    pairEnergy M p y q b pc i j
      = (if i ≠ j then 1 else 1 / 2) * pairGpol M y q b pc i j := by
  unfold pairEnergy
  simp only [hcut, Bool.false_eq_true, false_and, if_false]
  by_cases h : i ≠ j
  · simp only [h, ne_eq, not_false_eq_true, if_true, one_mul]
  · simp only [h, if_false]; ring

/-- The entry `bornRadii[i]` of the energy routines is differentiable in the moved
component. -/
theorem hasDerivAt_bornRadiiOf (M : Libm ℝ) (hS : M.SQRT = Real.sqrt)
    (hLN : M.LN = Real.log) (hT : M.TANH = Real.tanh)
    (self : ReferenceObc ℝ) (p : ObcParameters ℝ) (x : Nat → vector3 ℝ) (k : Nat) (c : Fin 3)
    (i : Nat) (hi : i < p.numberOfAtoms) (hcut : self._obcParameters.useCutoff = false)
    (hadm : Admissible p x) :
    HasDerivAt (fun t => bornRadiiOf M self p (moveAtom x k c t) none i)
      (bornRadiusDeriv M self p x k c i) (x k c) := by
  obtain ⟨h0, h1, h2, h3⟩ := hadm
  have hfun : (fun t => bornRadiiOf M self p (moveAtom x k c t) none i)
      = fun t => bornRadiusOut M self p (moveAtom x k c t) none i := by
    funext t; unfold bornRadiiOf; simp only [hi, if_true]
  rw [hfun]
  refine hasDerivAt_bornRadiusOut M hS hLN hT self p x k c i hcut ?_ ?_ ?_ ?_
  · linarith [h1 i hi]
  · linarith
  · intro j hj
    exact mul_pos (by linarith [h1 j hj]) (h2 j hj)
  · intro j hj hji
    exact h3 i j hi hj (Ne.symm hji)

/-- The entry `bornRadii[i]` of the energy routines is positive. -/
theorem bornRadiiOf_pos (M : Libm ℝ) (hT : M.TANH = Real.tanh)
    (self : ReferenceObc ℝ) (p : ObcParameters ℝ) (y : Nat → vector3 ℝ)
    (i : Nat) (hi : i < p.numberOfAtoms) (h0 : 0 ≤ p.dielectricOffset)
    (h1 : p.dielectricOffset < p.atomicRadii i) :
    0 < bornRadiiOf M self p y none i := by
  unfold bornRadiiOf
  simp only [hi, if_true]
  exact bornRadiusOut_pos M hT self p y none i (by linarith) (by linarith)

/-- The energy of a pair is differentiable in the moved component. -/
theorem hasDerivAt_pairEnergy (M : Libm ℝ) (hS : M.SQRT = Real.sqrt)
    (hE : M.EXP = Real.exp) (hLN : M.LN = Real.log) (hT : M.TANH = Real.tanh)
    (self : ReferenceObc ℝ) (p : ObcParameters ℝ) (x : Nat → vector3 ℝ) (q : Nat → ℝ)
    (pc : ℝ) (k : Nat) (c : Fin 3)
    (i j : Nat) (hi : i < p.numberOfAtoms) (hj : j < p.numberOfAtoms)
    (hcut : self._obcParameters.useCutoff = false) (hcut2 : p.useCutoff = false)
    (hadm : Admissible p x) :
    HasDerivAt
      (fun t => pairEnergy M p (moveAtom x k c t) q
        (bornRadiiOf M self p (moveAtom x k c t) none) pc i j)
      (pairEnergyDeriv M x q (bornRadiiOf M self p x none)
        (bornRadiusDeriv M self p x k c) pc k c i j) (x k c) := by
  have hfun : (fun t => pairEnergy M p (moveAtom x k c t) q
        (bornRadiiOf M self p (moveAtom x k c t) none) pc i j)
      = fun t => (if i ≠ j then 1 else 1 / 2)
        * ((pc * q j) / Real.sqrt
          ((getDeltaR M (moveAtom x k c t i) (moveAtom x k c t j)).R2Index
            + (bornRadiiOf M self p (moveAtom x k c t) none i
                * bornRadiiOf M self p (moveAtom x k c t) none j)
              * Real.exp (-((getDeltaR M (moveAtom x k c t i) (moveAtom x k c t j)).R2Index
                / (4 * (bornRadiiOf M self p (moveAtom x k c t) none i
                  * bornRadiiOf M self p (moveAtom x k c t) none j)))))) := by
    funext t
    rw [pairEnergy_noCutoff M p _ q _ pc i j hcut2]
    unfold pairGpol
    simp only [hS, hE]
  rw [hfun]
  have hbi := hasDerivAt_bornRadiiOf M hS hLN hT self p x k c i hi hcut hadm
  have hbj := hasDerivAt_bornRadiiOf M hS hLN hT self p x k c j hj hcut hadm
  have hr2 := hasDerivAt_r2 M x k c i j
  have hpi := bornRadiiOf_pos M hT self p x i hi hadm.1 (hadm.2.1 i hi)
  have hpj := bornRadiiOf_pos M hT self p x j hj hadm.1 (hadm.2.1 j hj)
  have hg := hasDerivAt_gpol (pc * q j)
    (fun t => (getDeltaR M (moveAtom x k c t i) (moveAtom x k c t j)).R2Index)
    (fun t => bornRadiiOf M self p (moveAtom x k c t) none i
                * bornRadiiOf M self p (moveAtom x k c t) none j)
    _ _ (x k c) hr2 (hbi.mul hbj)
    (by simp only [moveAtom_self]; exact r2_nonneg M _ _)
    (by simp only [moveAtom_self]; exact mul_pos hpi hpj)
  have := hg.const_mul (if i ≠ j then (1 : ℝ) else 1 / 2)
  simp only [moveAtom_self] at this
  convert this using 1
  unfold pairEnergyDeriv pairDGpolDr pairDGpolDalpha2 pairGpol
  simp only [hS, hE]

/-- The polar pair sum is differentiable in the moved component. -/
theorem hasDerivAt_polarSum (M : Libm ℝ) (hS : M.SQRT = Real.sqrt)
    (hE : M.EXP = Real.exp) (hLN : M.LN = Real.log) (hT : M.TANH = Real.tanh)
    (self : ReferenceObc ℝ) (p : ObcParameters ℝ) (x : Nat → vector3 ℝ) (q : Nat → ℝ)
    (k : Nat) (c : Fin 3)
    (hcut : self._obcParameters.useCutoff = false) (hcut2 : p.useCutoff = false)
    (hadm : Admissible p x) :
    HasDerivAt
      (fun t => polarSum M p (moveAtom x k c t) q
        (bornRadiiOf M self p (moveAtom x k c t) none) (preFactor p * p.strength))
      (polarSumDeriv M self p x q k c) (x k c) := by
  unfold polarSum polarSumDeriv
  refine hasDerivAt_listSum _
    (fun i t => ((List.range' i (p.numberOfAtoms - i)).map fun j =>
      pairEnergy M p (moveAtom x k c t) q (bornRadiiOf M self p (moveAtom x k c t) none)
        (preFactor p * p.strength * q i) i j).sum) _ _ (fun i hi => ?_)
  have hi1 : i < p.numberOfAtoms := List.mem_range.1 hi
  refine hasDerivAt_listSum _
    (fun j t => pairEnergy M p (moveAtom x k c t) q
      (bornRadiiOf M self p (moveAtom x k c t) none)
      (preFactor p * p.strength * q i) i j) _ _ (fun j hj => ?_)
  have hj1 := List.mem_range'_1.1 hj
  exact hasDerivAt_pairEnergy M hS hE hLN hT self p x q _ k c i j hi1 (by omega) hcut hcut2 hadm

/-- The ACE energy when every Born radius is positive. -/
theorem aceStage_fst (M : Libm ℝ) (hP : M.POW = fun a b => a ^ b) (self : ReferenceObc ℝ)
    (p : ObcParameters ℝ) (b : Nat → ℝ) (hb : ∀ i, i < p.numberOfAtoms → 0 < b i) :
    (aceStage M self p b).1
      = ∑ i in Finset.range p.numberOfAtoms,
          (if self.includeAceApproximation ≠ 0 then
            p.strength * (p.pi4Asolv * (p.atomicRadii i + p.probeRadius)
              * (p.atomicRadii i + p.probeRadius) * (p.atomicRadii i / b i) ^ 6)
          else 0) := by
  unfold aceStage
  by_cases hf : self.includeAceApproximation ≠ 0
  · simp only [hf, ne_eq, not_false_eq_true, if_true, computeAceNonPolarForce_eq, zero_add]
    refine Finset.sum_congr rfl (fun i hi => ?_)
    rw [if_pos (hb i (Finset.mem_range.1 hi))]
    unfold aceSaTerm
    rw [hP]
    simp only
    rw [show ((6 : ℝ)) = ((6 : ℕ) : ℝ) by norm_num, Real.rpow_natCast]
  · simp only [hf, if_false, Finset.sum_const_zero]

/-- The ACE entry of `bornForces` for an atom with a positive Born radius. -/
theorem aceStage_snd (M : Libm ℝ) (hP : M.POW = fun a b => a ^ b) (self : ReferenceObc ℝ)
    (p : ObcParameters ℝ) (b : Nat → ℝ) (i : Nat) (hi : i < p.numberOfAtoms) (hb : 0 < b i) :
    (aceStage M self p b).2 i
      = (if self.includeAceApproximation ≠ 0 then
          p.strength * (-6) * (p.pi4Asolv * (p.atomicRadii i + p.probeRadius)
              * (p.atomicRadii i + p.probeRadius) * (p.atomicRadii i / b i) ^ 6) / b i
        else 0) := by
  unfold aceStage
  by_cases hf : self.includeAceApproximation ≠ 0
  · simp only [hf, ne_eq, not_false_eq_true, if_true, computeAceNonPolarForce_eq, hi, hb,
      and_self, zero_add]
    unfold aceSaTerm
    rw [hP]
    simp only
    rw [show ((6 : ℝ)) = ((6 : ℕ) : ℝ) by norm_num, Real.rpow_natCast]
  · simp only [hf, if_false]

/-- The ACE energy is differentiable in the moved component. -/
theorem hasDerivAt_ace (M : Libm ℝ) (hS : M.SQRT = Real.sqrt)
    (hLN : M.LN = Real.log) (hT : M.TANH = Real.tanh) (hP : M.POW = fun a b => a ^ b)
    (self : ReferenceObc ℝ) (p : ObcParameters ℝ) (x : Nat → vector3 ℝ)
    (k : Nat) (c : Fin 3)
    (hcut : self._obcParameters.useCutoff = false) (hadm : Admissible p x) :
    HasDerivAt
      (fun t => (aceStage M self p (bornRadiiOf M self p (moveAtom x k c t) none)).1)
      (aceDeriv M self p x k c) (x k c) := by
  have hfun : (fun t => (aceStage M self p (bornRadiiOf M self p (moveAtom x k c t) none)).1)
      = fun t => ∑ i in Finset.range p.numberOfAtoms,
          (if self.includeAceApproximation ≠ 0 then
            p.strength * (p.pi4Asolv * (p.atomicRadii i + p.probeRadius)
              * (p.atomicRadii i + p.probeRadius)
              * (p.atomicRadii i / bornRadiiOf M self p (moveAtom x k c t) none i) ^ 6)
          else 0) := by
    funext t
    exact aceStage_fst M hP self p _
      (fun i hi => bornRadiiOf_pos M hT self p _ i hi hadm.1 (hadm.2.1 i hi))
  rw [hfun]
  unfold aceDeriv
  refine HasDerivAt.sum (fun i hi => ?_)
  have hi1 := Finset.mem_range.1 hi
  have hb := hasDerivAt_bornRadiiOf M hS hLN hT self p x k c i hi1 hcut hadm
  have hpos := bornRadiiOf_pos M hT self p x i hi1 hadm.1 (hadm.2.1 i hi1)
  rw [aceStage_snd M hP self p _ i hi1 hpos]
  by_cases hf : self.includeAceApproximation ≠ 0
  · simp only [hf, ne_eq, not_false_eq_true, if_true]
    have h0 : bornRadiiOf M self p (moveAtom x k c (x k c)) none i ≠ 0 := by
      rw [moveAtom_self]; exact hpos.ne'
    have := ((((hasDerivAt_const (x k c) (p.atomicRadii i)).div hb h0).pow 6).const_mul
      (p.pi4Asolv * (p.atomicRadii i + p.probeRadius)
              * (p.atomicRadii i + p.probeRadius))).const_mul p.strength
    simp only [moveAtom_self] at this
    convert this using 1
    have h1 := hpos.ne'
    field_simp
    ring
  · simp only [hf, if_false, zero_mul]
    exact hasDerivAt_const _ _

/-- The returned energy is differentiable in the moved component. -/
theorem hasDerivAt_energyOf (M : Libm ℝ) (hS : M.SQRT = Real.sqrt)
    (hE : M.EXP = Real.exp) (hLN : M.LN = Real.log) (hT : M.TANH = Real.tanh)
    (hP : M.POW = fun a b => a ^ b)
    (self : ReferenceObc ℝ) (p : ObcParameters ℝ) (x : Nat → vector3 ℝ) (q : Nat → ℝ)
    (k : Nat) (c : Fin 3)
    (hcut : self._obcParameters.useCutoff = false) (hcut2 : p.useCutoff = false)
    (hadm : Admissible p x) :
    HasDerivAt (fun t => energyOf M self p (moveAtom x k c t) q)
      (aceDeriv M self p x k c + polarSumDeriv M self p x q k c) (x k c) :=
  (hasDerivAt_ace M hS hLN hT hP self p x k c hcut hadm).add
    (hasDerivAt_polarSum M hS hE hLN hT self p x q k c hcut hcut2 hadm)

/-- A list sum of arrays, read at one index. -/
theorem listSum_apply {ι κ : Type} (l : List ι) (f : ι → κ → α) (k : κ) :
    (l.map f).sum k = (l.map fun a => f a k).sum := by
  induction l with
  | nil => simp
  | cons a l ih => simp [ih]

/-- A list sum of force arrays, read at one atom and one component. -/
theorem listSum_apply2 {ι : Type} (l : List ι) (f : ι → Nat → vector3 α) (k : Nat)
    (c : Fin 3) :
    (l.map f).sum k c = (l.map fun a => f a k c).sum := by
  induction l with
  | nil => simp
  | cons a l ih => simp [ih]

/-- Pairing a list sum of arrays with fixed weights, term by term. -/
theorem sum_mul_listSum (n : Nat) (β : Nat → α) (l : List (Nat → α)) :
    ∑ i in Finset.range n, l.sum i * β i
      = (l.map fun f => ∑ i in Finset.range n, f i * β i).sum := by
  induction l with
  | nil => simp
  | cons f l ih =>
    simp only [List.sum_cons, Pi.add_apply, add_mul, Finset.sum_add_distrib, List.map_cons, ih]

/-- Pairing an array with one non-zero entry with fixed weights. -/
theorem sum_single_mul (n : Nat) (β : Nat → α) (j : Nat) (v : α) (hj : j < n) :
    ∑ i in Finset.range n, (Pi.single j v : Nat → α) i * β i = v * β j := by
  rw [Finset.sum_eq_single j]
  · simp
  · intro b _ hb
    simp [Pi.single_apply, hb]
  · intro h
    exact absurd (Finset.mem_range.2 hj) h

/-- Components of the displacement of a pair. -/
theorem pairDelta_apply (M : Libm α) (x : Nat → vector3 α) (i j : Nat) (c : Fin 3) :
    pairDelta M x i j c = x j c - x i c := by
  unfold pairDelta getDeltaR
  fin_cases c <;> simp

/-- Taking a vector from atom `i` and giving it to atom `j`, read at atom `k`. -/
theorem single_pair_apply (i j k : Nat) (c : Fin 3) (v : vector3 α) :
    ((Pi.single i (-v) + Pi.single j v : Nat → vector3 α) k) c = v c * incidence k i j := by
  unfold incidence
  by_cases hi : i = k <;> by_cases hj : j = k <;>
    simp [Pi.single_apply, hi, hj, eq_comm]

/-- Without cutoff, what a pair adds to component `c` of the force on atom `k` in
the first main loop. -/
theorem pairForces_apply (M : Libm α) (p : ObcParameters α) (x : Nat → vector3 α)
    (q b : Nat → α) (pc : α) (i j k : Nat) (c : Fin 3) (hcut : p.useCutoff = false) :
    pairForces M p x q b pc i j k c
      = if i ≠ j then pairDGpolDr M x q b pc i j * (x j c - x i c) * incidence k i j
        else 0 := by
  unfold pairForces
  simp only [hcut, Bool.false_eq_true, false_and, if_false]
  by_cases hij : i ≠ j
  · simp only [hij, ne_eq, not_false_eq_true, if_true]
    rw [single_pair_apply]
    simp only [Pi.smul_apply, smul_eq_mul, pairDelta_apply]
  · simp only [hij, if_false]
    rfl

/-- A pair of an atom with itself has incidence zero. -/
theorem incidence_self (k i : Nat) : (incidence k i i : α) = 0 := by
  unfold incidence; simp

/-- The derivative of the polar pair sum is the first-pass force increment plus the
part through the Born radii. -/
theorem polarSumDeriv_eq (M : Libm α) (self : ReferenceObc α) (p : ObcParameters α)
    (x : Nat → vector3 α) (q : Nat → α) (k : Nat) (c : Fin 3) (hcut : p.useCutoff = false) :
    polarSumDeriv M self p x q k c
      = firstPassForces M p x q (bornRadiiOf M self p x none) (preFactor p * p.strength) k c
        + alphaPart M p x q (bornRadiiOf M self p x none) (bornRadiusDeriv M self p x k c)
            (preFactor p * p.strength) := by
  unfold polarSumDeriv firstPassForces alphaPart
  rw [listSum_apply2, ← List.sum_map_add]
  congr 1
  apply List.map_congr_left
  intro i _
  rw [listSum_apply2, ← List.sum_map_add]
  congr 1
  apply List.map_congr_left
  intro j _
  rw [pairForces_apply M p x q _ _ i j k c hcut]
  unfold pairEnergyDeriv
  by_cases hij : i ≠ j
  · simp only [hij, ne_eq, not_false_eq_true, if_true]
    ring
  · have : i = j := not_not.1 hij
    subst this
    simp only [ne_eq, not_true_eq_false, if_false, incidence_self]
    ring

/-- Without cutoff, what an ordered pair adds to component `c` of the force on atom
`k` in the second main loop. -/
theorem chainPairForces_apply (M : Libm α) (p : ObcParameters α) (x : Nat → vector3 α)
    (bf : Nat → α) (i j k : Nat) (c : Fin 3) (hcut : p.useCutoff = false) :
    chainPairForces M p x bf i j k c
      = if j ≠ i then
          bf i * ((1 / 2) * ((-2 * (if p.atomicRadii i - p.dielectricOffset
              < (getDeltaR M (x i) (x j)).RIndex
                + (p.atomicRadii j - p.dielectricOffset) * p.scaledRadiusFactors j
            then chainT3 M (p.atomicRadii i - p.dielectricOffset)
              (getDeltaR M (x i) (x j)).RIndex
              ((p.atomicRadii j - p.dielectricOffset) * p.scaledRadiusFactors j)
            else 0))
            * ((x j c - x i c) * incidence k i j * (1 / (getDeltaR M (x i) (x j)).RIndex))))
        else 0 := by
  unfold chainPairForces
  simp only [hcut, Bool.false_eq_true, false_and, if_false]
  by_cases hji : j ≠ i
  · simp only [hji, ne_eq, not_false_eq_true, if_true]
    split_ifs with hact
    · have := single_pair_apply j i k c (chainDe M p x bf i j • pairDelta M x i j)
      rw [add_comm] at this
      rw [this]
      simp only [Pi.smul_apply, smul_eq_mul, pairDelta_apply]
      unfold chainDe incidence
      ring
    · simp
  · simp only [hji, if_false]
    rfl

/-- The second-pass force increment is the sum over the atoms of the un-rescaled
`bornForces` entry times the derivative of the Born radius. -/
theorem secondPassForces_eq (M : Libm α) (self : ReferenceObc α) (p : ObcParameters α)
    (x : Nat → vector3 α) (q : Nat → α) (k : Nat) (c : Fin 3) (hcut : p.useCutoff = false) :
    secondPassForces M p x (bornForcesOf M self p x q none) k c
      = ∑ i in Finset.range p.numberOfAtoms,
          ((aceStage M self p (bornRadiiOf M self p x none)).2
            + firstPassBornForces M p x q (bornRadiiOf M self p x none)
                (preFactor p * p.strength)) i
          * bornRadiusDeriv M self p x k c i := by
  unfold secondPassForces
  rw [listSum_apply2, listSum_range]
  refine Finset.sum_congr rfl (fun i hi => ?_)
  have hi1 := Finset.mem_range.1 hi
  rw [listSum_apply2]
  unfold bornRadiusDeriv hctSumDeriv
  rw [← List.sum_map_mul_left, ← List.sum_map_mul_left]
  congr 1
  apply List.map_congr_left
  intro j _
  rw [chainPairForces_apply M p x _ i j k c hcut]
  have hbf : bornForcesOf M self p x q none i
      = ((aceStage M self p (bornRadiiOf M self p x none)).2
            + firstPassBornForces M p x q (bornRadiiOf M self p x none)
                (preFactor p * p.strength)) i
        * (bornRadiusOut M self p x none i * bornRadiusOut M self p x none i
          * obcChainOut M self p x none i) := by
    unfold bornForcesOf bornRadiiOf
    simp only [hi1, if_true]
  rw [hbf]
  by_cases hji : j ≠ i
  · simp only [hji, ne_eq, not_false_eq_true, if_true]
    ring
  · simp only [hji, if_false, mul_zero]

/-- What a pair adds to `bornForces`, paired with the derivatives of the Born radii. -/
theorem sum_pairBornForces_mul (M : Libm α) (p : ObcParameters α) (x : Nat → vector3 α)
    (q b β : Nat → α) (pc : α) (i j : Nat) (hi : i < p.numberOfAtoms)
    (hj : j < p.numberOfAtoms) (hcut : p.useCutoff = false) :
    ∑ m in Finset.range p.numberOfAtoms, pairBornForces M p x q b pc i j m * β m
      = (if i ≠ j then 1 else 1 / 2)
        * (pairDGpolDalpha2 M x q b pc i j * (β i * b j + b i * β j)) := by
  unfold pairBornForces
  simp only [hcut, Bool.false_eq_true, false_and, if_false, Pi.add_apply, add_mul,
    Finset.sum_add_distrib]
  rw [sum_single_mul _ β i _ hi]
  by_cases hij : i ≠ j
  · simp only [hij, ne_eq, not_false_eq_true, if_true]
    rw [sum_single_mul _ β j _ hj]
    ring
  · have : i = j := not_not.1 hij
    subst this
    simp only [ne_eq, not_true_eq_false, if_false, Pi.zero_apply, zero_mul,
      Finset.sum_const_zero, zero_add]
    ring

/-- What the first main loop adds to `bornForces`, paired with the derivatives of the
Born radii, is the part of the derivative of the polar pair sum through the Born radii. -/
theorem sum_firstPassBornForces_mul (M : Libm α) (p : ObcParameters α)
    (x : Nat → vector3 α) (q b β : Nat → α) (pre : α) (hcut : p.useCutoff = false) :
    ∑ m in Finset.range p.numberOfAtoms, firstPassBornForces M p x q b pre m * β m
      = alphaPart M p x q b β pre := by
  unfold firstPassBornForces alphaPart
  rw [sum_mul_listSum, List.map_map]
  congr 1
  apply List.map_congr_left
  intro i hi
  have hi1 : i < p.numberOfAtoms := List.mem_range.1 hi
  simp only [Function.comp]
  rw [sum_mul_listSum, List.map_map]
  congr 1
  apply List.map_congr_left
  intro j hj
  have hj1 := List.mem_range'_1.1 hj
  simp only [Function.comp]
  exact sum_pairBornForces_mul M p x q b β _ i j hi1 (by omega) hcut

/-- Without cutoff the force increment of `computeBornEnergyForces` is the sum of the
derivative of the ACE energy and the derivative of the polar pair sum. -/
theorem forceIncrement_eq_deriv (M : Libm α) (self : ReferenceObc α) (p : ObcParameters α)
    (x : Nat → vector3 α) (q : Nat → α) (k : Nat) (c : Fin 3) (hcut : p.useCutoff = false) :
    forceIncrement M self p x q none k c
      = aceDeriv M self p x k c + polarSumDeriv M self p x q k c := by
  unfold forceIncrement
  rw [Pi.add_apply, Pi.add_apply, secondPassForces_eq M self p x q k c hcut,
    polarSumDeriv_eq M self p x q k c hcut]
  simp only [Pi.add_apply, add_mul, Finset.sum_add_distrib]
  rw [sum_firstPassBornForces_mul M p x q _ _ _ hcut]
  unfold aceDeriv
  ring

/-- Without cutoff and grid, and under the data-model invariants, the returned energy
is differentiable in every coordinate component and its derivative is the force increment. -/
theorem hasDerivAt_energy_forceIncrement (M : Libm ℝ) (hS : M.SQRT = Real.sqrt)
    (hE : M.EXP = Real.exp) (hLN : M.LN = Real.log) (hT : M.TANH = Real.tanh)
    (hP : M.POW = fun a b => a ^ b)
    (self : ReferenceObc ℝ) (p : ObcParameters ℝ) (x : Nat → vector3 ℝ) (q : Nat → ℝ)
    (k : Nat) (c : Fin 3)
    (hcut : self._obcParameters.useCutoff = false) (hcut2 : p.useCutoff = false)
    (hadm : Admissible p x) :
    HasDerivAt (fun t => energyOf M self p (moveAtom x k c t) q)
      (forceIncrement M self p x q none k c) (x k c) := by
  rw [forceIncrement_eq_deriv M self p x q k c hcut2]
  exact hasDerivAt_energyOf M hS hE hLN hT hP self p x q k c hcut hcut2 hadm

/-- The two-atom probe satisfies the data-model invariants. -/
theorem probe_admissible : Admissible (probeParameters : ObcParameters ℝ) probeCoordinates := by
  refine ⟨by simp [probeParameters], fun i _ => by simp [probeParameters],
    fun i _ => by simp [probeParameters], fun i j hi hj hij => ?_⟩
  simp only [probeParameters] at hi hj
  intro h
  have h0 := congrFun h 0
  unfold probeCoordinates at h0
  interval_cases i <;> interval_cases j <;> simp at hij h0

/-- Both Born radii of the probe are 1. -/
theorem probe_bornRadii (M : Libm ℝ) (hT : M.TANH = Real.tanh) (self : ReferenceObc ℝ)
    (i : Nat) (hi : i < 2) :
    bornRadiiOf M self (probeParameters : ObcParameters ℝ) probeCoordinates none i = 1 := by
  unfold bornRadiiOf bornRadiusOut obcRemap
  simp [probeParameters, hi, hT]
  norm_num

/-- Both chain values of the probe are 0. -/
theorem probe_obcChain (M : Libm ℝ) (self : ReferenceObc ℝ) (i : Nat) :
    obcChainOut M self (probeParameters : ObcParameters ℝ) probeCoordinates none i = 0 := by
  unfold obcChainOut obcRemap
  simp [probeParameters]

/-- The first component of the force increment on atom 0 of the probe. -/
theorem probe_forceIncrement (M : Libm ℝ) (hS : M.SQRT = Real.sqrt)
    (hE : M.EXP = Real.exp) (hT : M.TANH = Real.tanh) (self : ReferenceObc ℝ) :
    forceIncrement M self (probeParameters : ObcParameters ℝ) probeCoordinates probeCharges
        none 0 0
      = 1 / Real.sqrt (1 + Real.exp (-(1 / 4))) * (1 - 1 / 4 * Real.exp (-(1 / 4)))
          / (1 + Real.exp (-(1 / 4))) := by
  unfold forceIncrement
  rw [Pi.add_apply, Pi.add_apply, secondPassForces_eq M self _ _ _ 0 0 rfl]
  have hβ : ∀ i, bornRadiusDeriv M self (probeParameters : ObcParameters ℝ)
      probeCoordinates 0 0 i = 0 := by
    intro i
    unfold bornRadiusDeriv
    rw [probe_obcChain]
    ring
  simp only [hβ, mul_zero, Finset.sum_const_zero, add_zero]
  unfold firstPassForces
  rw [listSum_apply2]
  have hN : (probeParameters : ObcParameters ℝ).numberOfAtoms = 2 := rfl
  simp only [hN, listSum_apply2]
  simp only [List.range_succ, List.range_zero, List.nil_append, List.cons_append,
    List.map_cons, List.map_nil, List.sum_cons, List.sum_nil, List.range']
  have hpf := fun (b : Nat → ℝ) (pc : ℝ) (i j : Nat) =>
    pairForces_apply M (probeParameters : ObcParameters ℝ) probeCoordinates probeCharges
      b pc i j 0 0 rfl
  simp only [hpf]
  simp only [ne_eq, not_true_eq_false, if_false, zero_ne_one, not_false_eq_true, if_true,
    add_zero, zero_add]
  unfold pairDGpolDr pairGpol incidence getDeltaR
  simp only [probe_bornRadii M hT self 0 (by norm_num), probe_bornRadii M hT self 1 (by norm_num),
    hS, hE]
  simp [probeCoordinates, probeParameters, probeCharges, preFactor]
  ring

/-- The first component of the force increment on atom 0 of the probe is positive. -/
theorem probe_forceIncrement_pos (M : Libm ℝ) (hS : M.SQRT = Real.sqrt)
    (hE : M.EXP = Real.exp) (hT : M.TANH = Real.tanh) (self : ReferenceObc ℝ) :
    0 < forceIncrement M self (probeParameters : ObcParameters ℝ) probeCoordinates
      probeCharges none 0 0 := by
  rw [probe_forceIncrement M hS hE hT self]
  have h1 : Real.exp (-(1 / 4)) < 1 := by
    have h0 : Real.exp (-(1 / 4)) < Real.exp 0 := Real.exp_lt_exp.2 (by norm_num)
    rw [Real.exp_zero] at h0
    exact h0
  have h2 : 0 < Real.exp (-(1 / 4)) := Real.exp_pos _
  have h3 : 0 < Real.sqrt (1 + Real.exp (-(1 / 4))) := Real.sqrt_pos.2 (by linarith)
  have h4 : 0 < 1 - 1 / 4 * Real.exp (-(1 / 4)) := by linarith
  positivity

/-- C2, amended. Force/energy consistency with the sign the code has.  Over the reals with the
exact maths library, for every configuration with pairwise distinct atom positions, no cutoff
(in the passed and in the stored parameters), no correction grid, a dielectric offset that is
non-negative and below every atomic radius, and positive scale factors: the energy returned
by `computeBornEnergyForces` is differentiable in each coordinate component of each atom k,
and the amount the call adds to that component of `inputForces[k]` (first pass plus
back-propagation pass) is that derivative, the gradient of the energy and not its negative. -/
theorem forceIncrement_is_gradient (M : Libm ℝ) (hM : M.IsExact)
    (self : ReferenceObc ℝ) (p : ObcParameters ℝ) (x : Nat → vector3 ℝ) (q : Nat → ℝ)
    (F : Nat → vector3 ℝ) (k : Nat) (c : Fin 3)
    (hlen : p.numberOfAtoms ≤ self._obcChain.length)
    (hcut : self._obcParameters.useCutoff = false) (hcut2 : p.useCutoff = false)
    (hadm : Admissible p x) :
    (∀ y : Nat → vector3 ℝ,
      (computeBornEnergyForces M self p y q none F).map EnergyForces.obcEnergy
        = some (energyOf M self p y q))
    ∧ ∃ out : EnergyForces ℝ,
        computeBornEnergyForces M self p x q none F = some out
        ∧ HasDerivAt (fun t => energyOf M self p (moveAtom x k c t) q)
            (out.inputForces k c - F k c) (x k c) := by
  obtain ⟨hS, hE, hLN, hT, hP⟩ := hM
  refine ⟨fun y => ?_, _, computeBornEnergyForces_some M self p x q none F hlen, ?_⟩
  · rw [computeBornEnergyForces_some M self p y q none F hlen]
    rfl
  · simp only [Pi.add_apply, add_sub_cancel_left]
    exact hasDerivAt_energy_forceIncrement M hS hE hLN hT hP self p x q k c hcut hcut2 hadm

/-- C2 fails as stated.  At the two-atom probe (unit like charges at distance 1, Born radii 1)
the call adds a positive amount to the first component of `inputForces[0]`, and the returned
energy does not have the negative of that amount as its derivative in the first coordinate
of atom 0: the added amount is the derivative itself. -/
theorem forceIncrement_not_negative_gradient :
    ∃ out : EnergyForces ℝ,
      computeBornEnergyForces ⟨Real.sqrt, Real.exp, Real.log, Real.tanh, fun a b => a ^ b⟩
          (ReferenceObc.new probeParameters) probeParameters probeCoordinates probeCharges
          none (fun _ => 0) = some out
      ∧ (∀ y : Nat → vector3 ℝ,
          (computeBornEnergyForces ⟨Real.sqrt, Real.exp, Real.log, Real.tanh, fun a b => a ^ b⟩
            (ReferenceObc.new probeParameters) probeParameters y probeCharges
            none (fun _ => 0)).map EnergyForces.obcEnergy
          = some (energyOf ⟨Real.sqrt, Real.exp, Real.log, Real.tanh, fun a b => a ^ b⟩
              (ReferenceObc.new probeParameters) probeParameters y probeCharges))
      ∧ 0 < out.inputForces 0 0
      ∧ ¬ HasDerivAt
          (fun t => energyOf ⟨Real.sqrt, Real.exp, Real.log, Real.tanh, fun a b => a ^ b⟩
            (ReferenceObc.new probeParameters) probeParameters
            (moveAtom probeCoordinates 0 0 t) probeCharges)
          (-(out.inputForces 0 0 - (fun _ => (0 : vector3 ℝ)) 0 0)) (probeCoordinates 0 0) := by
  have hlen : (probeParameters : ObcParameters ℝ).numberOfAtoms
      ≤ (ReferenceObc.new (probeParameters : ObcParameters ℝ))._obcChain.length := by
    simp [ReferenceObc.new, probeParameters]
  have hpos := probe_forceIncrement_pos
    (⟨Real.sqrt, Real.exp, Real.log, Real.tanh, fun a b => a ^ b⟩ : Libm ℝ) rfl rfl rfl
    (ReferenceObc.new probeParameters)
  have hd := hasDerivAt_energy_forceIncrement
    (⟨Real.sqrt, Real.exp, Real.log, Real.tanh, fun a b => a ^ b⟩ : Libm ℝ) rfl rfl rfl rfl rfl
    (ReferenceObc.new probeParameters) probeParameters probeCoordinates probeCharges 0 0
    rfl rfl probe_admissible
  refine ⟨_, computeBornEnergyForces_some _ _ _ _ _ none _ hlen, fun y => ?_, ?_, ?_⟩
  · rw [computeBornEnergyForces_some _ _ _ y _ none _ hlen]
    rfl
  · simpa using hpos
  · intro hneg
    have := hneg.unique hd
    simp only [Pi.add_apply, Pi.zero_apply, zero_add, sub_zero] at this
    linarith

/-- C2, amended, at the two-atom probe: the hypotheses hold there and the increment of the
first component of `inputForces[0]` is the derivative of the energy. -/
theorem forceIncrement_is_gradient_witness :
    (Libm.IsExact ⟨Real.sqrt, Real.exp, Real.log, Real.tanh, fun a b => a ^ b⟩
      ∧ (probeParameters : ObcParameters ℝ).numberOfAtoms
          ≤ (ReferenceObc.new (probeParameters : ObcParameters ℝ))._obcChain.length
      ∧ (ReferenceObc.new (probeParameters : ObcParameters ℝ))._obcParameters.useCutoff = false
      ∧ (probeParameters : ObcParameters ℝ).useCutoff = false
      ∧ Admissible (probeParameters : ObcParameters ℝ) probeCoordinates)
    ∧ ∃ out : EnergyForces ℝ,
        computeBornEnergyForces ⟨Real.sqrt, Real.exp, Real.log, Real.tanh, fun a b => a ^ b⟩
          (ReferenceObc.new probeParameters) probeParameters probeCoordinates probeCharges
          none (fun _ => ![1, 2, 3]) = some out
        ∧ HasDerivAt
            (fun t => energyOf ⟨Real.sqrt, Real.exp, Real.log, Real.tanh, fun a b => a ^ b⟩
              (ReferenceObc.new probeParameters) probeParameters
              (moveAtom probeCoordinates 0 0 t) probeCharges)
            (out.inputForces 0 0 - (fun _ => (![1, 2, 3] : vector3 ℝ)) 0 0)
            (probeCoordinates 0 0) :=
  ⟨⟨⟨rfl, rfl, rfl, rfl, rfl⟩, by simp [ReferenceObc.new, probeParameters], rfl, rfl,
      probe_admissible⟩,
    (forceIncrement_is_gradient
      (⟨Real.sqrt, Real.exp, Real.log, Real.tanh, fun a b => a ^ b⟩ : Libm ℝ)
      ⟨rfl, rfl, rfl, rfl, rfl⟩ (ReferenceObc.new probeParameters) probeParameters
      probeCoordinates probeCharges (fun _ => ![1, 2, 3]) 0 0
      (by simp [ReferenceObc.new, probeParameters]) rfl rfl probe_admissible).2⟩

/-- The squared distance does not depend on the order of the two atoms. -/
theorem r2Index_symm (M : Libm α) (a b : vector3 α) :
    (getDeltaR M a b).R2Index = (getDeltaR M b a).R2Index := by
  unfold getDeltaR
  simp only
  ring

/-- The distance does not depend on the order of the two atoms. -/
theorem rIndex_symm (M : Libm α) (a b : vector3 α) :
    (getDeltaR M a b).RIndex = (getDeltaR M b a).RIndex := by
  have h := r2Index_symm M a b
  unfold getDeltaR at h ⊢
  simp only at h ⊢
  rw [h]

/-- The polar energy of a pair, cutoff shift included, is invariant under swapping the two
atoms. -/
theorem pairEnergy_symm (M : Libm α) (p : ObcParameters α) (x : Nat → vector3 α)
    (q b : Nat → α) (pre : α) (i j : Nat) :
    pairEnergy M p x q b (pre * q i) i j = pairEnergy M p x q b (pre * q j) j i := by
  unfold pairEnergy pairGpol
  rw [rIndex_symm M (x i) (x j), r2Index_symm M (x i) (x j), mul_comm (b i) (b j),
    show pre * q i * q j = pre * q j * q i by ring]
  by_cases hij : i = j
  · subst hij; rfl
  · have hji : ¬ j = i := fun h => hij h.symm
    simp only [ne_eq, hij, hji, not_false_eq_true, if_true]


/-- Exchanging atoms 0 and 1 is an involution. -/
theorem swapAtoms_swapAtoms (i : Nat) : swapAtoms (swapAtoms i) = i := by
  unfold swapAtoms
  by_cases h0 : i = 0
  · simp [h0]
  · by_cases h1 : i = 1
    · simp [h1]
    · simp [h0, h1]

/-- Exchanging atoms 0 and 1 keeps distinct atoms distinct. -/
theorem swapAtoms_ne (i j : Nat) : swapAtoms i ≠ swapAtoms j ↔ i ≠ j := by
  constructor
  · intro h hij; exact h (by rw [hij])
  · intro h hij
    apply h
    have := congrArg swapAtoms hij
    rwa [swapAtoms_swapAtoms, swapAtoms_swapAtoms] at this

/-- The OBC remapping of atom i in the exchanged system is that of the exchanged atom. -/
theorem obcRemap_swapped (M : Libm α) (p : ObcParameters α) (g : Option (Nat → α)) (i : Nat)
    (S : α) :
    obcRemap M p.swapped (g.map fun grid i => grid (swapAtoms i)) i S
      = obcRemap M p g (swapAtoms i) S := by
  unfold obcRemap ObcParameters.swapped
  cases g <;> rfl

/-- With two atoms, the inner sum of atom i in the exchanged system is that of the exchanged
atom. -/
theorem hctSum_swapped (M : Libm α) (self : ReferenceObc α) (p : ObcParameters α)
    (x : Nat → vector3 α) (hN : p.numberOfAtoms = 2) (i : Nat) (hi : i < 2) :
    hctSum M self p.swapped (fun i => x (swapAtoms i)) i = hctSum M self p x (swapAtoms i) := by
  unfold hctSum ObcParameters.swapped
  simp only [hN]
  interval_cases i <;>
    simp [List.range_succ, swapAtoms]

/-- With two atoms, the Born radii of the exchanged system are the exchanged Born radii. -/
theorem bornRadiiOf_swapped (M : Libm α) (self : ReferenceObc α) (p : ObcParameters α)
    (x : Nat → vector3 α) (g : Option (Nat → α)) (hN : p.numberOfAtoms = 2) :
    bornRadiiOf M self p.swapped (fun i => x (swapAtoms i))
        (g.map fun grid i => grid (swapAtoms i))
      = fun i => bornRadiiOf M self p x g (swapAtoms i) := by
  funext i
  unfold bornRadiiOf bornRadiusOut
  have hN2 : p.swapped.numberOfAtoms = 2 := hN
  rw [hN, hN2]
  by_cases hi : i < 2
  · have hs : swapAtoms i < 2 := by
      unfold swapAtoms; interval_cases i <;> simp
    rw [if_pos hi, if_pos hs, obcRemap_swapped, hctSum_swapped M self p x hN i hi]
  · have hs : ¬ swapAtoms i < 2 := by
      unfold swapAtoms
      have h0 : i ≠ 0 := by omega
      have h1 : i ≠ 1 := by omega
      simpa [h0, h1] using hi
    rw [if_neg hi, if_neg hs]

/-- The pair energy of the exchanged system is the pair energy of the exchanged pair. -/
theorem pairEnergy_swapped (M : Libm α) (p : ObcParameters α) (x : Nat → vector3 α)
    (q b : Nat → α) (pc : α) (i j : Nat) :
    pairEnergy M p.swapped (fun i => x (swapAtoms i)) (fun i => q (swapAtoms i))
        (fun i => b (swapAtoms i)) pc i j
      = pairEnergy M p x q b pc (swapAtoms i) (swapAtoms j) := by
  unfold pairEnergy pairGpol ObcParameters.swapped
  by_cases hij : i ≠ j
  · have := (swapAtoms_ne i j).2 hij
    simp only [hij, this, ne_eq, not_false_eq_true, if_true]
  · have h2 : ¬ swapAtoms i ≠ swapAtoms j := fun h => hij ((swapAtoms_ne i j).1 h)
    simp only [hij, h2, if_false]

/-- With two atoms, the polar pair sum of the exchanged system is the polar pair sum. -/
theorem polarSum_swapped (M : Libm α) (p : ObcParameters α) (x : Nat → vector3 α)
    (q b : Nat → α) (pre : α) (hN : p.numberOfAtoms = 2) :
    polarSum M p.swapped (fun i => x (swapAtoms i)) (fun i => q (swapAtoms i))
        (fun i => b (swapAtoms i)) pre
      = polarSum M p x q b pre := by
  unfold polarSum
  have hN2 : p.swapped.numberOfAtoms = 2 := hN
  rw [hN, hN2]
  simp only [pairEnergy_swapped]
  simp only [List.range_succ, List.range_zero, List.nil_append, List.cons_append,
    List.map_cons, List.map_nil, List.sum_cons, List.sum_nil, List.range', add_zero]
  have h0 : swapAtoms 0 = 1 := rfl
  have h1 : swapAtoms 1 = 0 := rfl
  simp only [h0, h1, Nat.reduceSub, List.range', List.map_cons, List.map_nil, List.sum_cons,
    List.sum_nil, add_zero, Nat.reduceAdd]
  rw [pairEnergy_symm M p x q b pre 1 0]
  ring

/-- With two atoms, the ACE energy of the exchanged system is the ACE energy. -/
theorem aceStage_swapped (M : Libm α) (self : ReferenceObc α) (p : ObcParameters α)
    (b : Nat → α) (hN : p.numberOfAtoms = 2) :
    (aceStage M self p.swapped (fun i => b (swapAtoms i))).1 = (aceStage M self p b).1 := by
  unfold aceStage
  by_cases hf : self.includeAceApproximation ≠ 0
  · simp only [hf, ne_eq, not_false_eq_true, if_true, computeAceNonPolarForce_eq]
    have hN2 : p.swapped.numberOfAtoms = 2 := hN
    rw [hN, hN2]
    have hsa : ∀ i, aceSaTerm M p.swapped (fun i => b (swapAtoms i)) i
        = aceSaTerm M p b (swapAtoms i) := fun i => rfl
    have hst : p.swapped.strength = p.strength := rfl
    simp only [hsa, hst, Finset.sum_range_succ, Finset.sum_range_zero, zero_add]
    have h0 : swapAtoms 0 = 1 := rfl
    have h1 : swapAtoms 1 = 0 := rfl
    rw [h0, h1]
    exact add_comm _ _
  · simp only [hf, if_false]

/-- C11. Polar symmetry: the polar energy of a pair, `Gpol` with its cutoff shift (and the
cutoff test), is the same for (i, j) and (j, i); consequently, with two atoms, exchanging
them (coordinates, charges, radii, scale factors and grid entries together) leaves the
energy returned by `computeBornEnergy` unchanged. -/
theorem computeBornEnergy_exchange (M : Libm α) (self : ReferenceObc α)
    (p : ObcParameters α) (x : Nat → vector3 α) (q : Nat → α) (g : Option (Nat → α))
    (hN : p.numberOfAtoms = 2) (h : 2 ≤ self._obcChain.length) :
    (∀ (b : Nat → α) (pre : α) (i j : Nat),
      pairEnergy M p x q b (pre * q i) i j = pairEnergy M p x q b (pre * q j) j i)
    ∧ ∃ (e : α) (s s1 : ReferenceObc α),
        computeBornEnergy M self p x q g = some (e, s)
        ∧ computeBornEnergy M self p.swapped (fun i => x (swapAtoms i))
            (fun i => q (swapAtoms i)) (g.map fun grid i => grid (swapAtoms i))
          = some (e, s1) := by
  refine ⟨fun b pre i j => pairEnergy_symm M p x q b pre i j, ?_⟩
  have h1 : p.numberOfAtoms ≤ self._obcChain.length := by omega
  have h2 : p.swapped.numberOfAtoms ≤ self._obcChain.length := h1
  have e1 := computeBornEnergy_some M self p x q g h1
  have e2 := computeBornEnergy_some M self p.swapped (fun i => x (swapAtoms i))
    (fun i => q (swapAtoms i)) (g.map fun grid i => grid (swapAtoms i)) h2
  have hpre : preFactor p.swapped = preFactor p := rfl
  have hst : p.swapped.strength = p.strength := rfl
  rw [bornRadiiOf_swapped M self p x g hN, aceStage_swapped M self p _ hN, hpre, hst,
    polarSum_swapped M p x q _ _ hN] at e2
  exact ⟨_, _, _, e1, e2⟩

/-- C11 at the two-atom scenario, on a freshly constructed object and over the reals. -/
theorem computeBornEnergy_exchange_witness :
    ((scenarioParameters : ObcParameters ℝ).numberOfAtoms = 2
      ∧ 2 ≤ (ReferenceObc.new (scenarioParameters : ObcParameters ℝ))._obcChain.length)
    ∧ ∃ (e : ℝ) (s s1 : ReferenceObc ℝ),
        computeBornEnergy ⟨Real.sqrt, Real.exp, Real.log, Real.tanh, fun a b => a ^ b⟩
          (ReferenceObc.new scenarioParameters) scenarioParameters scenarioCoordinates
          scenarioCharges none = some (e, s)
        ∧ computeBornEnergy ⟨Real.sqrt, Real.exp, Real.log, Real.tanh, fun a b => a ^ b⟩
            (ReferenceObc.new scenarioParameters)
            (scenarioParameters : ObcParameters ℝ).swapped
            (fun i => scenarioCoordinates (swapAtoms i))
            (fun i => scenarioCharges (swapAtoms i))
            ((none : Option (Nat → ℝ)).map fun grid i => grid (swapAtoms i))
          = some (e, s1) :=
  ⟨⟨rfl, by simp [ReferenceObc.new, scenarioParameters]⟩,
    (computeBornEnergy_exchange
      (⟨Real.sqrt, Real.exp, Real.log, Real.tanh, fun a b => a ^ b⟩ : Libm ℝ)
      (ReferenceObc.new scenarioParameters) scenarioParameters scenarioCoordinates
      scenarioCharges none rfl (by simp [ReferenceObc.new, scenarioParameters])).2⟩

/-- A list sum of differences is the difference of the list sums. -/
theorem listSum_map_sub {ι β : Type} [AddCommGroup β] (l : List ι) (f g : ι → β) :
    (l.map fun i => f i - g i).sum = (l.map f).sum - (l.map g).sum := by
  induction l with
  | nil => simp
  | cons a l ih =>
    simp only [List.map_cons, List.sum_cons, ih]
    abel

/-- Two list sums agree when their terms agree on the list. -/
theorem listSum_congr {ι β : Type} [AddCommMonoid β] (l : List ι) (f g : ι → β)
    (h : ∀ i, i ∈ l → f i = g i) : (l.map f).sum = (l.map g).sum := by
  rw [List.map_congr_left h]

/-- When no pair is beyond the stored cutoff distance, the inner loop of `computeBornRadii`
gives the sum it gives without cutoff. -/
theorem hctSum_withCutoff_far (M : Libm α) (self : ReferenceObc α) (p : ObcParameters α)
    (x : Nat → vector3 α) (c : α) (i : Nat)
    (h : ∀ j, j < p.numberOfAtoms → (getDeltaR M (x i) (x j)).RIndex ≤ c) :
    hctSum M (self.setObcParameters (p.withCutoff c)) (p.withCutoff c) x i
      = hctSum M (self.setObcParameters p.withoutCutoff) p.withoutCutoff x i := by
  unfold hctSum
  apply List.foldl_ext
  intro s j hj
  have hle := h j (List.mem_range.1 hj)
  simp only [ReferenceObc.setObcParameters, ObcParameters.withCutoff,
    ObcParameters.withoutCutoff, gt_iff_lt, not_lt.2 hle, and_false, if_false,
    Bool.false_eq_true, false_and]

/-- When no pair is beyond the cutoff distance, the Born radii are those without cutoff. -/
theorem bornRadiiOf_withCutoff_far (M : Libm α) (self : ReferenceObc α)
    (p : ObcParameters α) (x : Nat → vector3 α) (g : Option (Nat → α)) (c : α)
    (h : ∀ i j, i < p.numberOfAtoms → j < p.numberOfAtoms →
      (getDeltaR M (x i) (x j)).RIndex ≤ c) :
    bornRadiiOf M (self.setObcParameters (p.withCutoff c)) (p.withCutoff c) x g
      = bornRadiiOf M (self.setObcParameters p.withoutCutoff) p.withoutCutoff x g := by
  funext i
  unfold bornRadiiOf bornRadiusOut
  have hN1 : (p.withCutoff c).numberOfAtoms = p.numberOfAtoms := rfl
  have hN2 : p.withoutCutoff.numberOfAtoms = p.numberOfAtoms := rfl
  rw [hN1, hN2]
  by_cases hi : i < p.numberOfAtoms
  · rw [if_pos hi, if_pos hi, hctSum_withCutoff_far M self p x c i (fun j hj => h i j hi hj)]
    rfl
  · rw [if_neg hi, if_neg hi]

/-- The energy of a pair within the cutoff distance is its energy without cutoff minus, off
the diagonal, the shift `partialChargeI * partialCharges[atomJ] / cutoffDistance`. -/
theorem pairEnergy_withCutoff_far (M : Libm α) (p : ObcParameters α) (x : Nat → vector3 α)
    (q b : Nat → α) (pc c : α) (i j : Nat) (h : (getDeltaR M (x i) (x j)).RIndex ≤ c) :
    pairEnergy M (p.withCutoff c) x q b pc i j
      = pairEnergy M p.withoutCutoff x q b pc i j - (if i ≠ j then pc * q j / c else 0) := by
  unfold pairEnergy
  simp only [ObcParameters.withCutoff, ObcParameters.withoutCutoff, gt_iff_lt, not_lt.2 h,
    and_false, if_false, Bool.false_eq_true, false_and, if_true]
  by_cases hij : i ≠ j
  · simp only [hij, ne_eq, not_false_eq_true, if_true]
  · simp only [hij, if_false, sub_zero]

/-- When no pair is beyond the cutoff distance, the polar pair sum is the one without cutoff
minus the shifts of the off-diagonal pairs. -/
theorem polarSum_withCutoff_far (M : Libm α) (p : ObcParameters α) (x : Nat → vector3 α)
    (q b : Nat → α) (pre c : α)
    (h : ∀ i j, i < p.numberOfAtoms → j < p.numberOfAtoms →
      (getDeltaR M (x i) (x j)).RIndex ≤ c) :
    polarSum M (p.withCutoff c) x q b pre
      = polarSum M p.withoutCutoff x q b pre - pre * chargePairSum p.numberOfAtoms q / c := by
  unfold polarSum chargePairSum
  have hN1 : (p.withCutoff c).numberOfAtoms = p.numberOfAtoms := rfl
  have hN2 : p.withoutCutoff.numberOfAtoms = p.numberOfAtoms := rfl
  rw [hN1, hN2]
  have hshift : pre * ((List.range p.numberOfAtoms).map fun i =>
        ((List.range' i (p.numberOfAtoms - i)).map fun j =>
          if i ≠ j then q i * q j else 0).sum).sum / c
      = ((List.range p.numberOfAtoms).map fun i =>
        ((List.range' i (p.numberOfAtoms - i)).map fun j =>
          if i ≠ j then pre * q i * q j / c else 0).sum).sum := by
    rw [mul_div_right_comm, ← List.sum_map_mul_left]
    refine listSum_congr _ _ _ (fun i _ => ?_)
    rw [← List.sum_map_mul_left]
    refine listSum_congr _ _ _ (fun j _ => ?_)
    by_cases hij : i ≠ j
    · simp only [hij, ne_eq, not_false_eq_true, if_true]; ring
    · simp only [hij, if_false, mul_zero]
  rw [hshift, ← listSum_map_sub]
  refine listSum_congr _ _ _ (fun i hi => ?_)
  rw [← listSum_map_sub]
  refine listSum_congr _ _ _ (fun j hj => ?_)
  have hi1 := List.mem_range.1 hi
  have hj1 : j < p.numberOfAtoms := by
    have := (List.mem_range'_1.1 hj).2
    omega
  exact pairEnergy_withCutoff_far M p x q b (pre * q i) c i j (h i j hi1 hj1)

/-- When no pair is beyond the cutoff distance, the energy `computeBornEnergy` returns with
the cutoff enabled is the energy it returns with the cutoff disabled minus
`strength * preFactor * (sum of q i * q j over the pairs i < j) / cutoffDistance`. -/
theorem cutoffEnergy_far (M : Libm α) (self : ReferenceObc α) (p : ObcParameters α)
    (x : Nat → vector3 α) (q : Nat → α) (g : Option (Nat → α)) (c : α)
    (hlen : p.numberOfAtoms ≤ self._obcChain.length)
    (h : ∀ i j, i < p.numberOfAtoms → j < p.numberOfAtoms →
      (getDeltaR M (x i) (x j)).RIndex ≤ c) :
    ∃ E : α, noCutoffEnergy M self p x q g = some E
      ∧ cutoffEnergy M self p x q g c
        = some (E - p.strength * preFactor p * chargePairSum p.numberOfAtoms q / c) := by
  have h1 : (p.withCutoff c).numberOfAtoms
      ≤ (self.setObcParameters (p.withCutoff c))._obcChain.length := hlen
  have h2 : p.withoutCutoff.numberOfAtoms
      ≤ (self.setObcParameters p.withoutCutoff)._obcChain.length := hlen
  refine ⟨(aceStage M (self.setObcParameters p.withoutCutoff) p.withoutCutoff
      (bornRadiiOf M (self.setObcParameters p.withoutCutoff) p.withoutCutoff x g)).1
    + p.strength * polarSum M p.withoutCutoff x q
      (bornRadiiOf M (self.setObcParameters p.withoutCutoff) p.withoutCutoff x g)
      (preFactor p), ?_, ?_⟩
  · unfold noCutoffEnergy
    rw [computeBornEnergy_some M _ _ x q g h2]
    rfl
  · unfold cutoffEnergy
    rw [computeBornEnergy_some M _ _ x q g h1, bornRadiiOf_withCutoff_far M self p x g c h,
      polarSum_withCutoff_far M p x q _ _ c h]
    simp only [Option.map_some']
    have hs : (p.withCutoff c).strength = p.withoutCutoff.strength := rfl
    have hpre : preFactor (p.withCutoff c) = preFactor p.withoutCutoff := rfl
    have hpre2 : preFactor p.withoutCutoff = preFactor p := rfl
    have hs2 : p.withoutCutoff.strength = p.strength := rfl
    have hace : ∀ b, aceStage M (self.setObcParameters (p.withCutoff c)) (p.withCutoff c) b
        = aceStage M (self.setObcParameters p.withoutCutoff) p.withoutCutoff b :=
      fun b => rfl
    rw [hs, hpre, hace, hpre2, hs2]
    congr 1
    ring

/-- The Born radii of the probe configuration are 1 whatever the cutoff. -/
theorem probe_bornRadii_withCutoff (M : Libm ℝ) (hT : M.TANH = Real.tanh)
    (self : ReferenceObc ℝ) (c : ℝ) (i : Nat) (hi : i < 2) :
    bornRadiiOf M self ((probeParameters : ObcParameters ℝ).withCutoff c) probeCoordinates
      none i = 1 := by
  unfold bornRadiiOf bornRadiusOut obcRemap
  simp [probeParameters, ObcParameters.withCutoff, hi, hT]
  norm_num

/-- The polar pair sum of the probe configuration with unit Born radii and the cutoff
enabled at a distance `c ≥ 0`. -/
theorem probe_polarSum_withCutoff (M : Libm ℝ) (hS : M.SQRT = Real.sqrt)
    (hE : M.EXP = Real.exp) (b : Nat → ℝ) (hb0 : b 0 = 1) (hb1 : b 1 = 1) (c : ℝ)
    (hc : 0 ≤ c) :
    polarSum M ((probeParameters : ObcParameters ℝ).withCutoff c) probeCoordinates
        probeCharges b 1
      = 1 + if 1 > c then 0 else 1 / Real.sqrt (1 + Real.exp (-(1 / 4))) - 1 / c := by
  unfold polarSum
  have hN : ((probeParameters : ObcParameters ℝ).withCutoff c).numberOfAtoms = 2 := rfl
  rw [hN]
  simp only [List.range_succ, List.range_zero, List.nil_append, List.cons_append,
    List.map_cons, List.map_nil, List.sum_cons, List.sum_nil, List.range', add_zero,
    Nat.reduceSub, Nat.reduceAdd]
  unfold pairEnergy pairGpol getDeltaR
  simp only [hb0, hb1, hS, hE]
  simp [probeParameters, ObcParameters.withCutoff, probeCoordinates, probeCharges,
    not_lt.2 hc]
  by_cases h1 : c < 1
  · simp only [h1, if_true]; norm_num
  · simp only [h1, if_false]; ring_nf

/-- The energy of the probe configuration with the cutoff enabled at a distance `c ≥ 0`: the
two diagonal pairs give one half each, the off-diagonal pair is skipped below `c = 1` and
gives the shifted `Gpol` from there on. -/
theorem probe_cutoffEnergy (M : Libm ℝ) (hM : M.IsExact) (c : ℝ) (hc : 0 ≤ c) :
    cutoffEnergy M (ReferenceObc.new probeParameters) probeParameters probeCoordinates
        probeCharges none c
      = some (1 + if 1 > c then 0
          else 1 / Real.sqrt (1 + Real.exp (-(1 / 4))) - 1 / c) := by
  obtain ⟨hS, hE, hLN, hT, hP⟩ := hM
  unfold cutoffEnergy
  have hlen : ((probeParameters : ObcParameters ℝ).withCutoff c).numberOfAtoms
      ≤ ((ReferenceObc.new (probeParameters : ObcParameters ℝ)).setObcParameters
          ((probeParameters : ObcParameters ℝ).withCutoff c))._obcChain.length := by
    simp [ReferenceObc.new, ReferenceObc.setObcParameters, probeParameters,
      ObcParameters.withCutoff]
  rw [computeBornEnergy_some M _ _ _ _ _ hlen]
  simp only [Option.map_some', Option.some.injEq]
  have hace : ∀ b : Nat → ℝ,
      (aceStage M ((ReferenceObc.new (probeParameters : ObcParameters ℝ)).setObcParameters
        ((probeParameters : ObcParameters ℝ).withCutoff c))
        ((probeParameters : ObcParameters ℝ).withCutoff c) b).1 = 0 := by
    intro b
    unfold aceStage
    simp [computeAceNonPolarForce_eq, aceSaTerm, probeParameters, ObcParameters.withCutoff]
  have hpre : preFactor ((probeParameters : ObcParameters ℝ).withCutoff c) = 1 := by
    simp [preFactor, probeParameters, ObcParameters.withCutoff]
    norm_num
  have hst : ((probeParameters : ObcParameters ℝ).withCutoff c).strength = 1 := rfl
  rw [hace, hpre, hst, probe_polarSum_withCutoff M hS hE _
    (probe_bornRadii_withCutoff M hT _ c 0 (by norm_num))
    (probe_bornRadii_withCutoff M hT _ c 1 (by norm_num)) c hc]
  ring

/-- C12 as stated fails: at the probe configuration (two unit charges at distance 1, unit
Born radii) the energy returned by `computeBornEnergy` with the cutoff enabled drops when
`cutoffDistance` grows from 1/2 to 1, where the pair enters the sum with its shift, and rises
again from 1 to 4; it is neither non-decreasing nor non-increasing in `cutoffDistance`. -/
theorem cutoffEnergy_not_monotone :
    ∃ e1 e2 e3 : ℝ,
      cutoffEnergy ⟨Real.sqrt, Real.exp, Real.log, Real.tanh, fun a b => a ^ b⟩
        (ReferenceObc.new probeParameters) probeParameters probeCoordinates probeCharges
        none (1 / 2) = some e1
      ∧ cutoffEnergy ⟨Real.sqrt, Real.exp, Real.log, Real.tanh, fun a b => a ^ b⟩
        (ReferenceObc.new probeParameters) probeParameters probeCoordinates probeCharges
        none 1 = some e2
      ∧ cutoffEnergy ⟨Real.sqrt, Real.exp, Real.log, Real.tanh, fun a b => a ^ b⟩
        (ReferenceObc.new probeParameters) probeParameters probeCoordinates probeCharges
        none 4 = some e3
      ∧ e2 < e1 ∧ e2 < e3 := by
  have hM : Libm.IsExact ⟨Real.sqrt, Real.exp, Real.log, Real.tanh, fun a b => a ^ b⟩ :=
    ⟨rfl, rfl, rfl, rfl, rfl⟩
  refine ⟨_, _, _, probe_cutoffEnergy _ hM (1 / 2) (by norm_num),
    probe_cutoffEnergy _ hM 1 (by norm_num), probe_cutoffEnergy _ hM 4 (by norm_num), ?_, ?_⟩
  · have hs : 1 < Real.sqrt (1 + Real.exp (-(1 / 4))) := by
      rw [Real.lt_sqrt (by norm_num)]
      have := Real.exp_pos (-(1 / 4))
      linarith
    have hG : 1 / Real.sqrt (1 + Real.exp (-(1 / 4))) < 1 := by
      rw [div_lt_one (by linarith)]
      exact hs
    have h1 : ¬ (1 : ℝ) > 1 := by norm_num
    have h2 : (1 : ℝ) > 1 / 2 := by norm_num
    simp only [h1, h2, if_true, if_false]
    linarith
  · have h1 : ¬ (1 : ℝ) > 1 := by norm_num
    have h2 : ¬ (1 : ℝ) > 4 := by norm_num
    simp only [h1, h2, if_false]
    linarith

/-- C12, amended.  Once `cutoffDistance` is at least every interatomic distance (and
positive), the energy `computeBornEnergy` returns with the cutoff enabled is the energy `E`
it returns with the cutoff disabled minus
`strength * preFactor * (sum of q i * q j over the pairs i < j) / cutoffDistance`; on that
range it is a monotone function of `cutoffDistance` (non-decreasing or non-increasing,
according to the sign of that coefficient), and it converges to `E` as `cutoffDistance`
tends to infinity. -/
theorem cutoffEnergy_beyond_all_pairs (M : Libm ℝ) (self : ReferenceObc ℝ)
    (p : ObcParameters ℝ) (x : Nat → vector3 ℝ) (q : Nat → ℝ) (g : Option (Nat → ℝ))
    (R0 : ℝ) (hlen : p.numberOfAtoms ≤ self._obcChain.length) (hR0 : 0 < R0)
    (hR : ∀ i j, i < p.numberOfAtoms → j < p.numberOfAtoms →
      (getDeltaR M (x i) (x j)).RIndex ≤ R0) :
    ∃ E : ℝ, noCutoffEnergy M self p x q g = some E
      ∧ (∀ c, R0 ≤ c → cutoffEnergy M self p x q g c
          = some (E - p.strength * preFactor p * chargePairSum p.numberOfAtoms q / c))
      ∧ (MonotoneOn (fun c => (cutoffEnergy M self p x q g c).getD 0) (Set.Ici R0)
          ∨ AntitoneOn (fun c => (cutoffEnergy M self p x q g c).getD 0) (Set.Ici R0))
      ∧ Filter.Tendsto (fun c => (cutoffEnergy M self p x q g c).getD 0) Filter.atTop
          (nhds E) := by
  obtain ⟨E, hE, -⟩ := cutoffEnergy_far M self p x q g R0 hlen hR
  have hval : ∀ c, R0 ≤ c → cutoffEnergy M self p x q g c
      = some (E - p.strength * preFactor p * chargePairSum p.numberOfAtoms q / c) := by
    intro c hc
    obtain ⟨E1, hE1, h1⟩ := cutoffEnergy_far M self p x q g c hlen
      (fun i j hi hj => le_trans (hR i j hi hj) hc)
    rw [hE] at hE1
    rw [h1, Option.some.inj hE1]
  have hget : ∀ c, R0 ≤ c → (cutoffEnergy M self p x q g c).getD 0
      = E - p.strength * preFactor p * chargePairSum p.numberOfAtoms q / c := by
    intro c hc
    rw [hval c hc]
    rfl
  refine ⟨E, hE, hval, ?_, ?_⟩
  · rcases le_total 0 (p.strength * preFactor p * chargePairSum p.numberOfAtoms q)
      with hK | hK
    · left
      intro a ha b hb hab
      have ha1 : R0 ≤ a := ha
      have hb1 : R0 ≤ b := hb
      simp only [hget a ha1, hget b hb1]
      have := div_le_div_of_nonneg_left hK (lt_of_lt_of_le hR0 ha1) hab
      linarith
    · right
      intro a ha b hb hab
      have ha1 : R0 ≤ a := ha
      have hb1 : R0 ≤ b := hb
      simp only [hget a ha1, hget b hb1]
      have := div_le_div_of_nonneg_left (neg_nonneg.2 hK) (lt_of_lt_of_le hR0 ha1) hab
      rw [neg_div, neg_div] at this
      linarith
  · have hlim : Filter.Tendsto
        (fun c : ℝ => E - p.strength * preFactor p * chargePairSum p.numberOfAtoms q / c)
        Filter.atTop (nhds E) := by
      have h0 := (tendsto_const_nhds (x := E) (f := Filter.atTop (α := ℝ))).sub
        ((tendsto_const_nhds
          (x := p.strength * preFactor p * chargePairSum p.numberOfAtoms q)).div_atTop
          Filter.tendsto_id)
      simpa using h0
    refine hlim.congr' ?_
    filter_upwards [Filter.eventually_ge_atTop R0] with c hc
    exact (hget c hc).symm

/-- C12 (amended) at the probe configuration, on a freshly constructed object and over the
reals, from `cutoffDistance = 1` on. -/
theorem cutoffEnergy_beyond_all_pairs_witness :
    ((probeParameters : ObcParameters ℝ).numberOfAtoms
        ≤ (ReferenceObc.new (probeParameters : ObcParameters ℝ))._obcChain.length
      ∧ (0 : ℝ) < 1
      ∧ ∀ i j, i < (probeParameters : ObcParameters ℝ).numberOfAtoms →
          j < (probeParameters : ObcParameters ℝ).numberOfAtoms →
          (getDeltaR ⟨Real.sqrt, Real.exp, Real.log, Real.tanh, fun a b => a ^ b⟩
            (probeCoordinates i) (probeCoordinates j)).RIndex ≤ (1 : ℝ))
    ∧ ∃ E : ℝ,
      noCutoffEnergy ⟨Real.sqrt, Real.exp, Real.log, Real.tanh, fun a b => a ^ b⟩
        (ReferenceObc.new probeParameters) probeParameters probeCoordinates probeCharges
        none = some E
      ∧ (∀ c : ℝ, 1 ≤ c →
          cutoffEnergy ⟨Real.sqrt, Real.exp, Real.log, Real.tanh, fun a b => a ^ b⟩
            (ReferenceObc.new probeParameters) probeParameters probeCoordinates probeCharges
            none c
          = some (E - (probeParameters : ObcParameters ℝ).strength
              * preFactor (probeParameters : ObcParameters ℝ)
              * chargePairSum (probeParameters : ObcParameters ℝ).numberOfAtoms
                  probeCharges / c))
      ∧ (MonotoneOn (fun c : ℝ =>
            (cutoffEnergy ⟨Real.sqrt, Real.exp, Real.log, Real.tanh, fun a b => a ^ b⟩
              (ReferenceObc.new probeParameters) probeParameters probeCoordinates
              probeCharges none c).getD 0) (Set.Ici 1)
          ∨ AntitoneOn (fun c : ℝ =>
            (cutoffEnergy ⟨Real.sqrt, Real.exp, Real.log, Real.tanh, fun a b => a ^ b⟩
              (ReferenceObc.new probeParameters) probeParameters probeCoordinates
              probeCharges none c).getD 0) (Set.Ici 1))
      ∧ Filter.Tendsto (fun c : ℝ =>
            (cutoffEnergy ⟨Real.sqrt, Real.exp, Real.log, Real.tanh, fun a b => a ^ b⟩
              (ReferenceObc.new probeParameters) probeParameters probeCoordinates
              probeCharges none c).getD 0) Filter.atTop (nhds E) := by
  have hlen : (probeParameters : ObcParameters ℝ).numberOfAtoms
      ≤ (ReferenceObc.new (probeParameters : ObcParameters ℝ))._obcChain.length := by
    simp [ReferenceObc.new, probeParameters]
  have hR : ∀ i j, i < (probeParameters : ObcParameters ℝ).numberOfAtoms →
      j < (probeParameters : ObcParameters ℝ).numberOfAtoms →
      (getDeltaR ⟨Real.sqrt, Real.exp, Real.log, Real.tanh, fun a b => a ^ b⟩
        (probeCoordinates i) (probeCoordinates j)).RIndex ≤ (1 : ℝ) := by
    intro i j hi hj
    have hi2 : i < 2 := hi
    have hj2 : j < 2 := hj
    interval_cases i <;> interval_cases j <;> simp [getDeltaR, probeCoordinates]
  exact ⟨⟨hlen, one_pos, hR⟩,
    cutoffEnergy_beyond_all_pairs _ (ReferenceObc.new probeParameters) probeParameters
      probeCoordinates probeCharges none 1 hlen one_pos hR⟩

/-- A cache of exactly `n` slots is overwritten completely by the write loop over `n` atoms:
nothing of its former contents is left. -/
theorem writtenChain_full (c : List α) (n : Nat) (w : Nat → α) (h : c.length = n) :
    writtenChain c n w = (List.range n).map w := by
  apply List.ext_getElem
  · rw [writtenChain_length, h, List.length_map, List.length_range]
  · intro i h1 h2
    have hi : i < n := by simpa using h2
    have hget := writtenChain_getD c n w (le_of_eq h.symm) i
    rw [if_pos hi, List.getD_eq_getElem _ _ h1] at hget
    rw [hget]
    simp

/-- The inner sum of `computeBornRadii` depends on the object through its stored parameters
only. -/
theorem hctSum_congr (M : Libm α) (s1 s2 : ReferenceObc α) (p : ObcParameters α)
    (x : Nat → vector3 α) (i : Nat) (hP : s1._obcParameters = s2._obcParameters) :
    hctSum M s1 p x i = hctSum M s2 p x i := by
  unfold hctSum
  rw [hP]

/-- The Born radii depend on the object through its stored parameters only. -/
theorem bornRadiusOut_congr (M : Libm α) (s1 s2 : ReferenceObc α) (p : ObcParameters α)
    (x : Nat → vector3 α) (g : Option (Nat → α))
    (hP : s1._obcParameters = s2._obcParameters) :
    bornRadiusOut M s1 p x g = bornRadiusOut M s2 p x g := by
  funext i
  unfold bornRadiusOut
  rw [hctSum_congr M s1 s2 p x i hP]

/-- The chain derivatives depend on the object through its stored parameters only. -/
theorem obcChainOut_congr (M : Libm α) (s1 s2 : ReferenceObc α) (p : ObcParameters α)
    (x : Nat → vector3 α) (g : Option (Nat → α))
    (hP : s1._obcParameters = s2._obcParameters) :
    obcChainOut M s1 p x g = obcChainOut M s2 p x g := by
  funext i
  unfold obcChainOut
  rw [hctSum_congr M s1 s2 p x i hP]

/-- The array `bornRadii` of the energy routines depends on the object through its stored
parameters only. -/
theorem bornRadiiOf_congr (M : Libm α) (s1 s2 : ReferenceObc α) (p : ObcParameters α)
    (x : Nat → vector3 α) (g : Option (Nat → α))
    (hP : s1._obcParameters = s2._obcParameters) :
    bornRadiiOf M s1 p x g = bornRadiiOf M s2 p x g := by
  unfold bornRadiiOf
  rw [bornRadiusOut_congr M s1 s2 p x g hP]

/-- On a cache of exactly `numberOfAtoms` slots, the cache after `computeBornRadii` is the
list of the chain derivatives of this call. -/
theorem obcChainOf_full (M : Libm α) (self : ReferenceObc α) (p : ObcParameters α)
    (x : Nat → vector3 α) (g : Option (Nat → α))
    (h : self._obcChain.length = p.numberOfAtoms) :
    obcChainOf M self p x g = (List.range p.numberOfAtoms).map (obcChainOut M self p x g) :=
  writtenChain_full _ _ _ h

/-- The object after a successful call on a cache of exactly `numberOfAtoms` slots is the
same for two objects with the same stored parameters and ACE flag. -/
theorem stateAfter_congr (M : Libm α) (s1 s2 : ReferenceObc α) (p : ObcParameters α)
    (x : Nat → vector3 α) (g : Option (Nat → α))
    (hP : s1._obcParameters = s2._obcParameters)
    (hA : s1._includeAceApproximation = s2._includeAceApproximation)
    (h1 : s1._obcChain.length = p.numberOfAtoms)
    (h2 : s2._obcChain.length = p.numberOfAtoms) :
    ({ s1 with _obcChain := obcChainOf M s1 p x g } : ReferenceObc α)
      = { s2 with _obcChain := obcChainOf M s2 p x g } := by
  rw [obcChainOf_full M s1 p x g h1, obcChainOf_full M s2 p x g h2,
    obcChainOut_congr M s1 s2 p x g hP, hP, hA]

/-- The ACE stage depends on the object through its ACE flag only. -/
theorem aceStage_congr (M : Libm α) (s1 s2 : ReferenceObc α) (p : ObcParameters α)
    (b : Nat → α) (hA : s1._includeAceApproximation = s2._includeAceApproximation) :
    aceStage M s1 p b = aceStage M s2 p b := by
  unfold aceStage ReferenceObc.includeAceApproximation
  rw [hA]

/-- The force increment depends on the object through its stored parameters and its ACE flag
only. -/
theorem forceIncrement_congr (M : Libm α) (s1 s2 : ReferenceObc α) (p : ObcParameters α)
    (x : Nat → vector3 α) (q : Nat → α) (g : Option (Nat → α))
    (hP : s1._obcParameters = s2._obcParameters)
    (hA : s1._includeAceApproximation = s2._includeAceApproximation) :
    forceIncrement M s1 p x q g = forceIncrement M s2 p x q g := by
  unfold forceIncrement bornForcesOf
  rw [bornRadiiOf_congr M s1 s2 p x g hP, obcChainOut_congr M s1 s2 p x g hP]
  simp only [aceStage_congr M s1 s2 p _ hA]

/-- Two objects with the same stored parameters and ACE flag and caches of exactly
`numberOfAtoms` slots: `computeBornRadii` writes the same Born radii and leaves the same
object, whatever the caches and the output arrays held. -/
theorem computeBornRadii_congr (M : Libm α) (s1 s2 : ReferenceObc α) (p : ObcParameters α)
    (x : Nat → vector3 α) (g : Option (Nat → α)) (b1 b2 : Nat → α)
    (hP : s1._obcParameters = s2._obcParameters)
    (hA : s1._includeAceApproximation = s2._includeAceApproximation)
    (h1 : s1._obcChain.length = p.numberOfAtoms)
    (h2 : s2._obcChain.length = p.numberOfAtoms) :
    ∃ (r1 r2 : Nat → α) (t : ReferenceObc α),
      computeBornRadii M s1 p x g b1 = some (r1, t)
      ∧ computeBornRadii M s2 p x g b2 = some (r2, t)
      ∧ (∀ i, i < p.numberOfAtoms → r1 i = r2 i)
      ∧ t._obcParameters = s1._obcParameters
      ∧ t._includeAceApproximation = s1._includeAceApproximation
      ∧ t._obcChain.length = p.numberOfAtoms := by
  refine ⟨fun i => if i < p.numberOfAtoms then bornRadiusOut M s1 p x g i else b1 i,
    fun i => if i < p.numberOfAtoms then bornRadiusOut M s2 p x g i else b2 i,
    { s1 with _obcChain := obcChainOf M s1 p x g },
    computeBornRadii_some M s1 p x g b1 (le_of_eq h1.symm), ?_, ?_, rfl, rfl, ?_⟩
  · rw [computeBornRadii_some M s2 p x g b2 (le_of_eq h2.symm),
      stateAfter_congr M s1 s2 p x g hP hA h1 h2]
  · intro i hi
    simp only [hi, if_true, bornRadiusOut_congr M s1 s2 p x g hP]
  · show (obcChainOf M s1 p x g).length = p.numberOfAtoms
    unfold obcChainOf
    rw [writtenChain_length, h1]

/-- Two objects with the same stored parameters and ACE flag and caches of exactly
`numberOfAtoms` slots: `computeBornEnergy` returns the same energy and leaves the same
object. -/
theorem computeBornEnergy_congr (M : Libm α) (s1 s2 : ReferenceObc α) (p : ObcParameters α)
    (x : Nat → vector3 α) (q : Nat → α) (g : Option (Nat → α))
    (hP : s1._obcParameters = s2._obcParameters)
    (hA : s1._includeAceApproximation = s2._includeAceApproximation)
    (h1 : s1._obcChain.length = p.numberOfAtoms)
    (h2 : s2._obcChain.length = p.numberOfAtoms) :
    computeBornEnergy M s1 p x q g = computeBornEnergy M s2 p x q g := by
  rw [computeBornEnergy_some M s1 p x q g (le_of_eq h1.symm),
    computeBornEnergy_some M s2 p x q g (le_of_eq h2.symm),
    stateAfter_congr M s1 s2 p x g hP hA h1 h2, bornRadiiOf_congr M s1 s2 p x g hP,
    aceStage_congr M s1 s2 p _ hA]

/-- Two objects with the same stored parameters and ACE flag and caches of exactly
`numberOfAtoms` slots: `computeBornEnergyForces` returns the same energy and forces and
leaves the same object. -/
theorem computeBornEnergyForces_congr (M : Libm α) (s1 s2 : ReferenceObc α)
    (p : ObcParameters α) (x : Nat → vector3 α) (q : Nat → α) (g : Option (Nat → α))
    (F : Nat → vector3 α)
    (hP : s1._obcParameters = s2._obcParameters)
    (hA : s1._includeAceApproximation = s2._includeAceApproximation)
    (h1 : s1._obcChain.length = p.numberOfAtoms)
    (h2 : s2._obcChain.length = p.numberOfAtoms) :
    computeBornEnergyForces M s1 p x q g F = computeBornEnergyForces M s2 p x q g F := by
  rw [computeBornEnergyForces_some M s1 p x q g F (le_of_eq h1.symm),
    computeBornEnergyForces_some M s2 p x q g F (le_of_eq h2.symm),
    stateAfter_congr M s1 s2 p x g hP hA h1 h2, bornRadiiOf_congr M s1 s2 p x g hP,
    aceStage_congr M s1 s2 p _ hA, forceIncrement_congr M s1 s2 p x q g hP hA]

/-- C13. Determinism.  Take two objects with the same stored parameters and ACE flag whose
caches have exactly `numberOfAtoms` slots, with arbitrary contents, and arbitrary `bornRadii`
output arrays.  For identical parameters, coordinates, charges, grid and input forces,
`computeBornRadii` writes the same Born radii (entries below `numberOfAtoms`) and
`computeBornEnergy` and `computeBornEnergyForces` return the same energy and forces, each
leaving the same object (cache included); and repeating each call on the object it left
returns the same outputs again. -/
theorem calls_deterministic (M : Libm α) (s1 s2 : ReferenceObc α) (p : ObcParameters α)
    (x : Nat → vector3 α) (q : Nat → α) (g : Option (Nat → α)) (F : Nat → vector3 α)
    (b1 b2 : Nat → α)
    (hP : s1._obcParameters = s2._obcParameters)
    (hA : s1._includeAceApproximation = s2._includeAceApproximation)
    (h1 : s1._obcChain.length = p.numberOfAtoms)
    (h2 : s2._obcChain.length = p.numberOfAtoms) :
    (∃ (r1 r2 : Nat → α) (t : ReferenceObc α),
      computeBornRadii M s1 p x g b1 = some (r1, t)
      ∧ computeBornRadii M s2 p x g b2 = some (r2, t)
      ∧ (∀ i, i < p.numberOfAtoms → r1 i = r2 i)
      ∧ computeBornRadii M t p x g r1 = some (r1, t))
    ∧ (∃ (e : α) (t : ReferenceObc α),
      computeBornEnergy M s1 p x q g = some (e, t)
      ∧ computeBornEnergy M s2 p x q g = some (e, t)
      ∧ computeBornEnergy M t p x q g = some (e, t))
    ∧ (∃ out : EnergyForces α,
      computeBornEnergyForces M s1 p x q g F = some out
      ∧ computeBornEnergyForces M s2 p x q g F = some out
      ∧ computeBornEnergyForces M out.self p x q g F = some out) := by
  have hl1 := le_of_eq h1.symm
  have hlen : (obcChainOf M s1 p x g).length = p.numberOfAtoms := by
    unfold obcChainOf
    rw [writtenChain_length, h1]
  refine ⟨?_, ?_, ?_⟩
  · obtain ⟨r1, r2, t, e1, e2, hr, hPt, hAt, hLt⟩ :=
      computeBornRadii_congr M s1 s2 p x g b1 b2 hP hA h1 h2
    refine ⟨r1, r2, t, e1, e2, hr, ?_⟩
    obtain ⟨r3, r4, t2, e3, e4, hr2, -, -, -⟩ :=
      computeBornRadii_congr M s1 t p x g b1 r1 hPt.symm hAt.symm h1 hLt
    rw [e1] at e3
    have h3 := Option.some.inj e3
    have hr3 : r3 = r1 := (congrArg Prod.fst h3).symm
    have ht2 : t2 = t := (congrArg Prod.snd h3).symm
    subst hr3 ht2
    rw [e4]
    have : r4 = r3 := by
      have e5 := computeBornRadii_some M t2 p x g r3 (le_of_eq hLt.symm)
      rw [e4] at e5
      have h5 := congrArg Prod.fst (Option.some.inj e5)
      have e6 := computeBornRadii_some M s1 p x g b1 hl1
      rw [e1] at e6
      have h6 := congrArg Prod.fst (Option.some.inj e6)
      simp only at h5 h6
      funext i
      by_cases hi : i < p.numberOfAtoms
      · exact (hr2 i hi).symm
      · rw [h5]
        simp only [hi, if_false]
    rw [this]
  · refine ⟨_, _, computeBornEnergy_some M s1 p x q g hl1, ?_, ?_⟩
    · rw [← computeBornEnergy_congr M s1 s2 p x q g hP hA h1 h2]
      exact computeBornEnergy_some M s1 p x q g hl1
    · rw [← computeBornEnergy_congr M s1 { s1 with _obcChain := obcChainOf M s1 p x g }
        p x q g rfl rfl h1 hlen]
      exact computeBornEnergy_some M s1 p x q g hl1
  · refine ⟨_, computeBornEnergyForces_some M s1 p x q g F hl1, ?_, ?_⟩
    · rw [← computeBornEnergyForces_congr M s1 s2 p x q g F hP hA h1 h2]
      exact computeBornEnergyForces_some M s1 p x q g F hl1
    · rw [← computeBornEnergyForces_congr M s1
        { s1 with _obcChain := obcChainOf M s1 p x g } p x q g F rfl rfl h1 hlen]
      exact computeBornEnergyForces_some M s1 p x q g F hl1

/-- C13 at the two-atom scenario over the reals: a freshly constructed object against one
whose cache holds 7 and -3, with output arrays holding 0 and 5. -/
theorem calls_deterministic_witness :
    ((ReferenceObc.new (scenarioParameters : ObcParameters ℝ))._obcParameters
        = (⟨scenarioParameters, 1, [7, -3]⟩ : ReferenceObc ℝ)._obcParameters
      ∧ (ReferenceObc.new (scenarioParameters : ObcParameters ℝ))._includeAceApproximation
        = (⟨scenarioParameters, 1, [7, -3]⟩ : ReferenceObc ℝ)._includeAceApproximation
      ∧ (ReferenceObc.new (scenarioParameters : ObcParameters ℝ))._obcChain.length
        = (scenarioParameters : ObcParameters ℝ).numberOfAtoms
      ∧ (⟨scenarioParameters, 1, [7, -3]⟩ : ReferenceObc ℝ)._obcChain.length
        = (scenarioParameters : ObcParameters ℝ).numberOfAtoms)
    ∧ (∃ (r1 r2 : Nat → ℝ) (t : ReferenceObc ℝ),
      computeBornRadii ⟨Real.sqrt, Real.exp, Real.log, Real.tanh, fun a b => a ^ b⟩
        (ReferenceObc.new scenarioParameters) scenarioParameters scenarioCoordinates none
        (fun _ => 0) = some (r1, t)
      ∧ computeBornRadii ⟨Real.sqrt, Real.exp, Real.log, Real.tanh, fun a b => a ^ b⟩
        ⟨scenarioParameters, 1, [7, -3]⟩ scenarioParameters scenarioCoordinates none
        (fun _ => 5) = some (r2, t)
      ∧ (∀ i, i < (scenarioParameters : ObcParameters ℝ).numberOfAtoms → r1 i = r2 i)
      ∧ computeBornRadii ⟨Real.sqrt, Real.exp, Real.log, Real.tanh, fun a b => a ^ b⟩
        t scenarioParameters scenarioCoordinates none r1 = some (r1, t))
    ∧ (∃ (e : ℝ) (t : ReferenceObc ℝ),
      computeBornEnergy ⟨Real.sqrt, Real.exp, Real.log, Real.tanh, fun a b => a ^ b⟩
        (ReferenceObc.new scenarioParameters) scenarioParameters scenarioCoordinates
        scenarioCharges none = some (e, t)
      ∧ computeBornEnergy ⟨Real.sqrt, Real.exp, Real.log, Real.tanh, fun a b => a ^ b⟩
        ⟨scenarioParameters, 1, [7, -3]⟩ scenarioParameters scenarioCoordinates
        scenarioCharges none = some (e, t)
      ∧ computeBornEnergy ⟨Real.sqrt, Real.exp, Real.log, Real.tanh, fun a b => a ^ b⟩
        t scenarioParameters scenarioCoordinates scenarioCharges none = some (e, t))
    ∧ (∃ out : EnergyForces ℝ,
      computeBornEnergyForces ⟨Real.sqrt, Real.exp, Real.log, Real.tanh, fun a b => a ^ b⟩
        (ReferenceObc.new scenarioParameters) scenarioParameters scenarioCoordinates
        scenarioCharges none (fun _ => 0) = some out
      ∧ computeBornEnergyForces ⟨Real.sqrt, Real.exp, Real.log, Real.tanh, fun a b => a ^ b⟩
        ⟨scenarioParameters, 1, [7, -3]⟩ scenarioParameters scenarioCoordinates
        scenarioCharges none (fun _ => 0) = some out
      ∧ computeBornEnergyForces ⟨Real.sqrt, Real.exp, Real.log, Real.tanh, fun a b => a ^ b⟩
        out.self scenarioParameters scenarioCoordinates scenarioCharges none (fun _ => 0)
        = some out) :=
  ⟨⟨rfl, rfl, by simp [ReferenceObc.new, scenarioParameters], rfl⟩,
    calls_deterministic ⟨Real.sqrt, Real.exp, Real.log, Real.tanh, fun a b => a ^ b⟩
      (ReferenceObc.new scenarioParameters) ⟨scenarioParameters, 1, [7, -3]⟩
      scenarioParameters scenarioCoordinates scenarioCharges none (fun _ => 0)
      (fun _ => 0) (fun _ => 5) rfl rfl (by simp [ReferenceObc.new, scenarioParameters])
      rfl⟩

/-- C14 fails: `computeBornRadii` never resizes the cache; only the constructor sizes it.
An object constructed for one atom (also after `setObcParameters` with the two-atom
parameters) and called with the two-atom scenario writes `obcChain[1]` out of range, here a
failed call; an object constructed for two atoms and called with one-atom parameters
succeeds and leaves a cache of two slots, not one. -/
theorem computeBornRadii_never_resizes (M : Libm α) :
    computeBornRadii M
        (ReferenceObc.new { (scenarioParameters : ObcParameters α) with numberOfAtoms := 1 })
        scenarioParameters scenarioCoordinates none (fun _ => 0) = none
    ∧ computeBornRadii M
        ((ReferenceObc.new
          { (scenarioParameters : ObcParameters α) with numberOfAtoms := 1 }).setObcParameters
          scenarioParameters)
        scenarioParameters scenarioCoordinates none (fun _ => 0) = none
    ∧ ∃ (r : Nat → α) (t : ReferenceObc α),
        computeBornRadii M (ReferenceObc.new scenarioParameters)
          { (scenarioParameters : ObcParameters α) with numberOfAtoms := 1 }
          scenarioCoordinates none (fun _ => 0) = some (r, t)
        ∧ ({ (scenarioParameters : ObcParameters α) with numberOfAtoms := 1 }).numberOfAtoms
            = 1
        ∧ t._obcChain.length = 2 := by
  refine ⟨computeBornRadii_none M _ _ _ _ _ ?_, computeBornRadii_none M _ _ _ _ _ ?_,
    _, _, computeBornRadii_some M _ _ _ _ _ ?_, rfl, ?_⟩
  · simp [ReferenceObc.new, scenarioParameters]
  · simp [ReferenceObc.new, ReferenceObc.setObcParameters, scenarioParameters]
  · simp [ReferenceObc.new, scenarioParameters]
  · show (obcChainOf M _ _ _ _).length = 2
    unfold obcChainOf
    rw [writtenChain_length]
    simp [ReferenceObc.new, scenarioParameters]

/-- The hyperbolic tangent is positive on positive arguments. -/
theorem tanh_pos_of_pos (z : ℝ) (hz : 0 < z) : 0 < Real.tanh z := by
  rw [Real.tanh_eq_sinh_div_cosh]
  exact div_pos (Real.sinh_pos_iff.2 hz) (Real.cosh_pos z)

/-- With the slip parameters passed and no cutoff stored, atom 1 at distance 1 contributes
`(1 - ln 2) / 2` to the inner sum of atom 0. -/
theorem slip_hctSum_stored_off (M : Libm ℝ) (hS : M.SQRT = Real.sqrt)
    (hLN : M.LN = Real.log) :
    hctSum M (ReferenceObc.new slipParameters) slipParameters probeCoordinates 0
      = (1 - Real.log 2) / 2 := by
  unfold hctSum hctTerm getDeltaR
  simp [slipParameters, probeParameters, probeCoordinates, ReferenceObc.new, hS, hLN,
    List.range_succ]
  norm_num
  rw [one_div, Real.log_inv]
  ring

/-- With the slip parameters passed and a cutoff of 1/2 stored, atom 1 at distance 1 is
skipped and the inner sum of atom 0 is zero. -/
theorem slip_hctSum_stored_on (M : Libm ℝ) (hS : M.SQRT = Real.sqrt) :
    hctSum M ((ReferenceObc.new slipParameters).setObcParameters
        ((slipParameters : ObcParameters ℝ).withCutoff (1 / 2)))
      slipParameters probeCoordinates 0 = 0 := by
  unfold hctSum getDeltaR
  simp [slipParameters, probeParameters, probeCoordinates, ReferenceObc.new,
    ReferenceObc.setObcParameters, ObcParameters.withCutoff, hS, List.range_succ]
  intro h
  norm_num at h

/-- C15 fails: the cutoff test of `computeBornRadii` reads the parameters stored in the
object, while every other read of that routine and the cutoff tests of the pairwise passes
read the parameters passed to the call.  With the same passed parameters (cutoff disabled),
coordinates and no grid, an object storing those parameters and an object storing a cutoff
of 1/2 return different Born radii for atom 0. -/
theorem computeBornRadii_reads_stored_cutoff :
    ∃ (r1 r2 : Nat → ℝ) (t1 t2 : ReferenceObc ℝ),
      computeBornRadii ⟨Real.sqrt, Real.exp, Real.log, Real.tanh, fun a b => a ^ b⟩
        (ReferenceObc.new slipParameters) slipParameters probeCoordinates none
        (fun _ => 0) = some (r1, t1)
      ∧ computeBornRadii ⟨Real.sqrt, Real.exp, Real.log, Real.tanh, fun a b => a ^ b⟩
        ((ReferenceObc.new slipParameters).setObcParameters
          ((slipParameters : ObcParameters ℝ).withCutoff (1 / 2)))
        slipParameters probeCoordinates none (fun _ => 0) = some (r2, t2)
      ∧ r2 0 = 1 ∧ 1 < r1 0 := by
  have hlen1 : (slipParameters : ObcParameters ℝ).numberOfAtoms
      ≤ (ReferenceObc.new (slipParameters : ObcParameters ℝ))._obcChain.length := by
    simp [ReferenceObc.new, slipParameters, probeParameters]
  have hlen2 : (slipParameters : ObcParameters ℝ).numberOfAtoms
      ≤ ((ReferenceObc.new (slipParameters : ObcParameters ℝ)).setObcParameters
          ((slipParameters : ObcParameters ℝ).withCutoff (1 / 2)))._obcChain.length := hlen1
  refine ⟨_, _, _, _, computeBornRadii_some _ _ _ _ _ _ hlen1,
    computeBornRadii_some _ _ _ _ _ _ hlen2, ?_, ?_⟩
  · have h0 : 0 < (slipParameters : ObcParameters ℝ).numberOfAtoms := by
      simp [slipParameters, probeParameters]
    simp only [h0, if_true]
    unfold bornRadiusOut
    rw [slip_hctSum_stored_on _ rfl]
    unfold obcRemap
    simp [slipParameters, probeParameters]
    norm_num
  · have h0 : 0 < (slipParameters : ObcParameters ℝ).numberOfAtoms := by
      simp [slipParameters, probeParameters]
    simp only [h0, if_true]
    unfold bornRadiusOut
    rw [slip_hctSum_stored_off _ rfl rfl]
    unfold obcRemap
    simp [slipParameters, probeParameters]
    have hlog : Real.log 2 < 1 := by
      have := Real.log_two_lt_d9
      linarith
    have hz : 0 < (1 - Real.log 2) / 2 * 2⁻¹ * (2 - 1) := by
      have : 0 < 1 - Real.log 2 := by linarith
      positivity
    have ht := tanh_pos_of_pos _ hz
    have ht1 := tanh_lt_one ((1 - Real.log 2) / 2 * 2⁻¹ * (2 - 1))
    generalize Real.tanh ((1 - Real.log 2) / 2 * 2⁻¹ * (2 - 1)) = t at ht ht1
    have h21 : ((2 : ℝ) - 1)⁻¹ = 1 := by norm_num
    rw [h21]
    exact (one_lt_inv₀ (by linarith)).2 (by linarith)

/-- The generalized Born denominator of two atoms at a positive distance exceeds the
geometric mean of their Born radii, so the magnitude of the cross term stays below the sum
of the two self terms. -/
theorem gb_cross_lt_self (b0 b1 r2 : ℝ) (h0 : 0 < b0) (h1 : 0 < b1) (hr : 0 < r2) :
    1 / Real.sqrt (r2 + b0 * b1 * Real.exp (-(r2 / (4 * (b0 * b1)))))
      < 1 / (2 * b0) + 1 / (2 * b1) := by
  have ha : 0 < b0 * b1 := mul_pos h0 h1
  have hexp : 1 - r2 / (4 * (b0 * b1)) ≤ Real.exp (-(r2 / (4 * (b0 * b1)))) := by
    have := Real.add_one_le_exp (-(r2 / (4 * (b0 * b1))))
    linarith
  have hlow : b0 * b1 < r2 + b0 * b1 * Real.exp (-(r2 / (4 * (b0 * b1)))) := by
    have h2 : b0 * b1 * (1 - r2 / (4 * (b0 * b1)))
        ≤ b0 * b1 * Real.exp (-(r2 / (4 * (b0 * b1)))) :=
      mul_le_mul_of_nonneg_left hexp ha.le
    have h3 : b0 * b1 * (1 - r2 / (4 * (b0 * b1))) = b0 * b1 - r2 / 4 := by
      field_simp
      ring
    linarith
  have hs : Real.sqrt (b0 * b1)
      < Real.sqrt (r2 + b0 * b1 * Real.exp (-(r2 / (4 * (b0 * b1))))) :=
    Real.sqrt_lt_sqrt ha.le hlow
  have hs0 : 0 < Real.sqrt (b0 * b1) := Real.sqrt_pos.2 ha
  have hgm : Real.sqrt (b0 * b1) ≤ (b0 + b1) / 2 := by
    rw [Real.sqrt_le_left (by positivity)]
    nlinarith [sq_nonneg (b0 - b1)]
  have h4 : 1 / Real.sqrt (r2 + b0 * b1 * Real.exp (-(r2 / (4 * (b0 * b1)))))
      < 1 / Real.sqrt (b0 * b1) := one_div_lt_one_div_of_lt hs0 hs
  have h5 : 1 / Real.sqrt (b0 * b1) ≤ 1 / (2 * b0) + 1 / (2 * b1) := by
    have h6 : 1 / (2 * b0) + 1 / (2 * b1) = (b0 + b1) / 2 / (b0 * b1) := by
      field_simp
      ring
    rw [h6, div_le_div_iff₀ hs0 ha]
    have hsq : Real.sqrt (b0 * b1) * Real.sqrt (b0 * b1) = b0 * b1 :=
      Real.mul_self_sqrt ha.le
    nlinarith
  linarith

/-- The diagonal pair has `r2 = 0`, `D_ij = 0` and denominator `|bornRadii[i]|`. -/
theorem pairGpol_self (M : Libm ℝ) (hS : M.SQRT = Real.sqrt) (hE : M.EXP = Real.exp)
    (x : Nat → vector3 ℝ) (q b : Nat → ℝ) (pc : ℝ) (i : Nat) :
    pairGpol M x q b pc i i = pc * q i / |b i| := by
  unfold pairGpol getDeltaR
  simp only [hS, hE, sub_self, mul_zero, add_zero, zero_div, neg_zero, Real.exp_zero, mul_one,
    zero_add, Real.sqrt_mul_self_eq_abs]

/-- With two atoms and no cutoff the polar pair sum is the two self terms, each halved, plus
the cross term. -/
theorem polarSum_two (M : Libm ℝ) (hS : M.SQRT = Real.sqrt) (hE : M.EXP = Real.exp)
    (p : ObcParameters ℝ) (x : Nat → vector3 ℝ) (q b : Nat → ℝ) (K : ℝ)
    (hN : p.numberOfAtoms = 2) (hcut : p.useCutoff = false) :
    polarSum M p x q b K
      = K * (q 0 * q 0 / (2 * |b 0|) + q 1 * q 1 / (2 * |b 1|)
          + q 0 * q 1 / Real.sqrt ((getDeltaR M (x 0) (x 1)).R2Index
              + b 0 * b 1 * Real.exp (-((getDeltaR M (x 0) (x 1)).R2Index
                  / (4 * (b 0 * b 1)))))) := by
  unfold polarSum
  rw [hN]
  simp only [List.range_succ, List.range_zero, List.nil_append, List.cons_append,
    List.map_cons, List.map_nil, List.sum_cons, List.sum_nil, List.range', add_zero,
    Nat.reduceSub, Nat.reduceAdd, pairEnergy_noCutoff M p x q b _ _ _ hcut]
  have h01 : (0 : Nat) ≠ 1 := by decide
  simp only [ne_eq, not_true_eq_false, if_false, h01, not_false_eq_true, if_true,
    pairGpol_self M hS hE]
  unfold pairGpol
  simp only [hS, hE]
  ring

/-- A list sum of arrays, read at one index. -/
theorem listSum_eval {ι κ β : Type} [AddCommMonoid β] (l : List ι) (f : ι → κ → β) (k : κ) :
    (l.map f).sum k = (l.map fun a => f a k).sum := by
  induction l with
  | nil => simp
  | cons a l ih => simp [ih]

/-- The displacement of a pair is the difference of the two positions. -/
theorem pairDelta_eq_sub (M : Libm α) (x : Nat → vector3 α) (i j : Nat) :
    pairDelta M x i j = x j - x i := by
  funext c
  rw [pairDelta_apply]
  rfl

/-- Among two atoms every pair displacement lies on the axis through them. -/
theorem pairDelta_mem_axis (M : Libm α) (x : Nat → vector3 α) (i j : Nat) (hi : i < 2)
    (hj : j < 2) : pairDelta M x i j ∈ Submodule.span α {x 1 - x 0} := by
  rw [pairDelta_eq_sub]
  have hax : x 1 - x 0 ∈ Submodule.span α {x 1 - x 0} :=
    Submodule.subset_span (Set.mem_singleton _)
  interval_cases i <;> interval_cases j
  · rw [sub_self]; exact Submodule.zero_mem _
  · exact hax
  · have : x 0 - x 1 = -(x 1 - x 0) := by abel
    rw [this]
    exact Submodule.neg_mem _ hax
  · rw [sub_self]; exact Submodule.zero_mem _

/-- What a pair adds to the force on any atom in the first main loop is a multiple of the
displacement of the pair. -/
theorem pairForces_mem (M : Libm α) (p : ObcParameters α) (x : Nat → vector3 α)
    (q b : Nat → α) (pc : α) (i j k : Nat) (S : Submodule α (vector3 α))
    (h : pairDelta M x i j ∈ S) : pairForces M p x q b pc i j k ∈ S := by
  unfold pairForces
  split_ifs
  · exact S.zero_mem
  · rw [Pi.add_apply]
    refine S.add_mem ?_ ?_
    · by_cases hk : k = i
      · subst hk
        rw [Pi.single_eq_same]
        exact S.neg_mem (S.smul_mem _ h)
      · rw [Pi.single_eq_of_ne hk]
        exact S.zero_mem
    · by_cases hk : k = j
      · subst hk
        rw [Pi.single_eq_same]
        exact S.smul_mem _ h
      · rw [Pi.single_eq_of_ne hk]
        exact S.zero_mem
  · exact S.zero_mem

/-- What an ordered pair adds to the force on any atom in the second main loop is a multiple
of the displacement of the pair. -/
theorem chainPairForces_mem (M : Libm α) (p : ObcParameters α) (x : Nat → vector3 α)
    (bf : Nat → α) (i j k : Nat) (S : Submodule α (vector3 α))
    (h : pairDelta M x i j ∈ S) : chainPairForces M p x bf i j k ∈ S := by
  unfold chainPairForces
  split_ifs
  · exact S.zero_mem
  · rw [Pi.add_apply]
    refine S.add_mem ?_ ?_
    · by_cases hk : k = i
      · subst hk
        rw [Pi.single_eq_same]
        exact S.smul_mem _ h
      · rw [Pi.single_eq_of_ne hk]
        exact S.zero_mem
    · by_cases hk : k = j
      · subst hk
        rw [Pi.single_eq_same]
        exact S.neg_mem (S.smul_mem _ h)
      · rw [Pi.single_eq_of_ne hk]
        exact S.zero_mem
  · exact S.zero_mem
  · exact S.zero_mem

/-- With two atoms, the force increment on every atom is a multiple of the interatomic
axis. -/
theorem forceIncrement_mem_axis (M : Libm α) (self : ReferenceObc α) (p : ObcParameters α)
    (x : Nat → vector3 α) (q : Nat → α) (g : Option (Nat → α)) (k : Nat)
    (hN : p.numberOfAtoms = 2) :
    forceIncrement M self p x q g k ∈ Submodule.span α {x 1 - x 0} := by
  unfold forceIncrement firstPassForces secondPassForces
  rw [Pi.add_apply, hN]
  refine Submodule.add_mem _ ?_ ?_
  · rw [listSum_eval]
    refine list_sum_mem (fun v hv => ?_)
    obtain ⟨i, hi, rfl⟩ := List.mem_map.1 hv
    rw [listSum_eval]
    refine list_sum_mem (fun w hw => ?_)
    obtain ⟨j, hj, rfl⟩ := List.mem_map.1 hw
    have hi1 := List.mem_range.1 hi
    have hj1 := (List.mem_range'_1.1 hj).2
    exact pairForces_mem M p x q _ _ i j k _ (pairDelta_mem_axis M x i j hi1 (by omega))
  · rw [listSum_eval]
    refine list_sum_mem (fun v hv => ?_)
    obtain ⟨i, hi, rfl⟩ := List.mem_map.1 hv
    rw [listSum_eval]
    refine list_sum_mem (fun w hw => ?_)
    obtain ⟨j, hj, rfl⟩ := List.mem_map.1 hw
    exact chainPairForces_mem M p x _ i j k _
      (pairDelta_mem_axis M x i j (List.mem_range.1 hi) (List.mem_range.1 hj))

/-- With two atoms, the force increments on the two atoms are opposite. -/
theorem forceIncrement_two_opposite (M : Libm α) (self : ReferenceObc α)
    (p : ObcParameters α) (x : Nat → vector3 α) (q : Nat → α) (g : Option (Nat → α))
    (hN : p.numberOfAtoms = 2) :
    forceIncrement M self p x q g 0 = -forceIncrement M self p x q g 1 := by
  have h1 := total_firstPassForces M p x q (bornRadiiOf M self p x g)
    (preFactor p * p.strength)
  have h2 := total_secondPassForces M p x (bornForcesOf M self p x q g)
  rw [hN] at h1 h2
  simp only [Finset.sum_range_succ, Finset.sum_range_zero, zero_add] at h1 h2
  unfold forceIncrement
  rw [Pi.add_apply, Pi.add_apply, eq_neg_iff_add_eq_zero]
  have : firstPassForces M p x q (bornRadiiOf M self p x g) (preFactor p * p.strength) 0
      + secondPassForces M p x (bornForcesOf M self p x q g) 0
      + (firstPassForces M p x q (bornRadiiOf M self p x g) (preFactor p * p.strength) 1
        + secondPassForces M p x (bornForcesOf M self p x q g) 1)
      = (firstPassForces M p x q (bornRadiiOf M self p x g) (preFactor p * p.strength) 0
        + firstPassForces M p x q (bornRadiiOf M self p x g) (preFactor p * p.strength) 1)
      + (secondPassForces M p x (bornForcesOf M self p x q g) 0
        + secondPassForces M p x (bornForcesOf M self p x q g) 1) := by abel
  rw [this, h1, h2, add_zero]

/-- The two-atom scenario with the electric constant and the strength left open: the call
succeeds, the returned energy is `strength * electricConstant` times a positive number (the
two self terms outweigh the cross term of the opposite charges), and the force increments on
the two atoms are opposite and lie on the interatomic axis. -/
theorem scenario_energy_forces (M : Libm ℝ) (hM : M.IsExact) (self : ReferenceObc ℝ)
    (p : ObcParameters ℝ) (x : Nat → vector3 ℝ) (q : Nat → ℝ) (g : Option (Nat → ℝ))
    (F : Nat → vector3 ℝ) (hN : p.numberOfAtoms = 2)
    (hr0 : p.atomicRadii 0 = 15 / 100) (hr1 : p.atomicRadii 1 = 15 / 100)
    (hd : p.dielectricOffset = 9 / 1000) (hsol : p.soluteDielectric = 1)
    (hsolv : p.solventDielectric = 785 / 10) (hcut : p.useCutoff = false)
    (hace : self.includeAceApproximation = 0) (hq0 : q 0 = 1) (hq1 : q 1 = -1)
    (hsep : (getDeltaR M (x 0) (x 1)).RIndex = 3 / 10)
    (hlen : 2 ≤ self._obcChain.length) :
    ∃ (out : EnergyForces ℝ) (B : ℝ), 0 < B
      ∧ computeBornEnergyForces M self p x q g F = some out
      ∧ out.obcEnergy = p.strength * p.electricConstant * B
      ∧ out.inputForces 0 - F 0 = -(out.inputForces 1 - F 1)
      ∧ ∃ c : ℝ, out.inputForces 0 - F 0 = c • (x 1 - x 0) := by
  obtain ⟨hS, hE, hLN, hT, hP⟩ := hM
  have hlen1 : p.numberOfAtoms ≤ self._obcChain.length := by omega
  have hb : ∀ i, i < 2 → 0 < bornRadiiOf M self p x g i := by
    intro i hi
    unfold bornRadiiOf
    rw [hN, if_pos hi]
    refine bornRadiusOut_pos M hT self p x g i ?_ ?_ <;>
      interval_cases i <;> simp only [hr0, hr1, hd] <;> norm_num
  have hb0 := hb 0 (by norm_num)
  have hb1 := hb 1 (by norm_num)
  have hr2 : 0 < (getDeltaR M (x 0) (x 1)).R2Index := by
    have h1 := rIndex_eq M (x 0) (x 1)
    rw [hsep, hS] at h1
    have h2 : 0 < Real.sqrt (getDeltaR M (x 0) (x 1)).R2Index := by
      rw [← h1]; norm_num
    exact Real.sqrt_pos.1 h2
  have hbr := gb_cross_lt_self _ _ _ hb0 hb1 hr2
  refine ⟨_, 2 * (1 - 10 / 785) * (1 / (2 * bornRadiiOf M self p x g 0)
      + 1 / (2 * bornRadiiOf M self p x g 1)
      - 1 / Real.sqrt ((getDeltaR M (x 0) (x 1)).R2Index
          + bornRadiiOf M self p x g 0 * bornRadiiOf M self p x g 1
            * Real.exp (-((getDeltaR M (x 0) (x 1)).R2Index
                / (4 * (bornRadiiOf M self p x g 0 * bornRadiiOf M self p x g 1)))))),
    ?_, computeBornEnergyForces_some M self p x q g F hlen1, ?_, ?_, ?_⟩
  · have : (0 : ℝ) < 2 * (1 - 10 / 785) := by norm_num
    exact mul_pos this (by linarith)
  · show (aceStage M self p (bornRadiiOf M self p x g)).1
        + polarSum M p x q (bornRadiiOf M self p x g) (preFactor p * p.strength) = _
    have hace0 : (aceStage M self p (bornRadiiOf M self p x g)).1 = 0 := by
      unfold aceStage
      simp [hace]
    have hpre : preFactor p = 2 * p.electricConstant * (1 - 10 / 785) := by
      unfold preFactor
      rw [hsol, hsolv]
      norm_num
    rw [hace0, polarSum_two M hS hE p x q _ _ hN hcut, hpre, hq0, hq1, abs_of_pos hb0,
      abs_of_pos hb1]
    ring
  · show F 0 + forceIncrement M self p x q g 0 - F 0
        = -(F 1 + forceIncrement M self p x q g 1 - F 1)
    rw [add_sub_cancel_left, add_sub_cancel_left]
    exact forceIncrement_two_opposite M self p x q g hN
  · show ∃ c : ℝ, F 0 + forceIncrement M self p x q g 0 - F 0 = c • (x 1 - x 0)
    rw [add_sub_cancel_left]
    obtain ⟨c, hc⟩ := Submodule.mem_span_singleton.1
      (forceIncrement_mem_axis M self p x q g 0 hN)
    exact ⟨c, hc.symm⟩

/-- The atoms of the scenario are 0.3 apart. -/
theorem scenario_separation (M : Libm ℝ) (hS : M.SQRT = Real.sqrt) :
    (getDeltaR M (scenarioCoordinates 0) (scenarioCoordinates 1) : DeltaR ℝ).RIndex
      = 3 / 10 := by
  unfold getDeltaR
  simp only [hS, scenarioCoordinates]
  simp
  exact Real.sqrt_mul_self (by norm_num)

/-- C16. Concrete scenario: for two atoms with radii 0.15 and 0.15, dielectric offset 0.009,
separation 0.3, charges +1 and -1, soluteDielectric 1, solventDielectric 78.5, no cutoff and
the ACE term off, with the physical constants of the scenario (a negative electric
constant, -69.4677 in the reference units, and a positive strength), the total polar energy
`computeBornEnergyForces` returns is negative, and the force increments on the two atoms are
equal in magnitude, opposite in sign and parallel to the interatomic axis.  The scale
factors, the OBC constants and the grid are arbitrary. -/
theorem scenario_negative_energy_axial_forces (M : Libm ℝ) (hM : M.IsExact)
    (self : ReferenceObc ℝ) (p : ObcParameters ℝ) (x : Nat → vector3 ℝ) (q : Nat → ℝ)
    (g : Option (Nat → ℝ)) (F : Nat → vector3 ℝ) (hN : p.numberOfAtoms = 2)
    (hr0 : p.atomicRadii 0 = 15 / 100) (hr1 : p.atomicRadii 1 = 15 / 100)
    (hd : p.dielectricOffset = 9 / 1000) (hsol : p.soluteDielectric = 1)
    (hsolv : p.solventDielectric = 785 / 10) (hcut : p.useCutoff = false)
    (hace : self.includeAceApproximation = 0) (hq0 : q 0 = 1) (hq1 : q 1 = -1)
    (hsep : (getDeltaR M (x 0) (x 1)).RIndex = 3 / 10)
    (hlen : 2 ≤ self._obcChain.length)
    (hs : 0 < p.strength) (he : p.electricConstant < 0) :
    ∃ out : EnergyForces ℝ,
      computeBornEnergyForces M self p x q g F = some out
      ∧ out.obcEnergy < 0
      ∧ out.inputForces 0 - F 0 = -(out.inputForces 1 - F 1)
      ∧ ∃ c : ℝ, out.inputForces 0 - F 0 = c • (x 1 - x 0) := by
  obtain ⟨out, B, hB, hout, hE, hopp, hax⟩ := scenario_energy_forces M hM self p x q g F hN
    hr0 hr1 hd hsol hsolv hcut hace hq0 hq1 hsep hlen
  refine ⟨out, hout, ?_, hopp, hax⟩
  rw [hE]
  exact mul_neg_of_neg_of_pos (mul_neg_of_pos_of_neg hs he) hB

/-- C16 at the scenario parameters, whose electric constant is -69.4677 and whose strength
is 1, on a freshly constructed object with the ACE term switched off. -/
theorem scenario_negative_energy_axial_forces_witness :
    ((scenarioParameters : ObcParameters ℝ).numberOfAtoms = 2
      ∧ (scenarioParameters : ObcParameters ℝ).atomicRadii 0 = 15 / 100
      ∧ (scenarioParameters : ObcParameters ℝ).atomicRadii 1 = 15 / 100
      ∧ (scenarioParameters : ObcParameters ℝ).dielectricOffset = 9 / 1000
      ∧ (scenarioParameters : ObcParameters ℝ).soluteDielectric = 1
      ∧ (scenarioParameters : ObcParameters ℝ).solventDielectric = 785 / 10
      ∧ (scenarioParameters : ObcParameters ℝ).useCutoff = false
      ∧ ((ReferenceObc.new (scenarioParameters : ObcParameters ℝ)).setIncludeAceApproximation
          0).includeAceApproximation = 0
      ∧ (scenarioCharges 0 : ℝ) = 1 ∧ (scenarioCharges 1 : ℝ) = -1
      ∧ (getDeltaR ⟨Real.sqrt, Real.exp, Real.log, Real.tanh, fun a b => a ^ b⟩
          (scenarioCoordinates 0) (scenarioCoordinates 1) : DeltaR ℝ).RIndex = 3 / 10
      ∧ 2 ≤ ((ReferenceObc.new
          (scenarioParameters : ObcParameters ℝ)).setIncludeAceApproximation 0)._obcChain.length
      ∧ 0 < (scenarioParameters : ObcParameters ℝ).strength
      ∧ (scenarioParameters : ObcParameters ℝ).electricConstant < 0)
    ∧ ∃ out : EnergyForces ℝ,
      computeBornEnergyForces ⟨Real.sqrt, Real.exp, Real.log, Real.tanh, fun a b => a ^ b⟩
        ((ReferenceObc.new scenarioParameters).setIncludeAceApproximation 0)
        scenarioParameters scenarioCoordinates scenarioCharges none (fun _ => 0) = some out
      ∧ out.obcEnergy < 0
      ∧ out.inputForces 0 - (fun _ => 0 : Nat → vector3 ℝ) 0
          = -(out.inputForces 1 - (fun _ => 0 : Nat → vector3 ℝ) 1)
      ∧ ∃ c : ℝ, out.inputForces 0 - (fun _ => 0 : Nat → vector3 ℝ) 0
          = c • (scenarioCoordinates 1 - scenarioCoordinates 0) := by
  have hlen : 2 ≤ ((ReferenceObc.new
      (scenarioParameters : ObcParameters ℝ)).setIncludeAceApproximation 0)._obcChain.length := by
    simp [ReferenceObc.new, ReferenceObc.setIncludeAceApproximation, scenarioParameters]
  have hs : 0 < (scenarioParameters : ObcParameters ℝ).strength := by
    simp [scenarioParameters]
  have he : (scenarioParameters : ObcParameters ℝ).electricConstant < 0 := by
    simp [scenarioParameters]
  have hq0 : (scenarioCharges 0 : ℝ) = 1 := by simp [scenarioCharges]
  have hq1 : (scenarioCharges 1 : ℝ) = -1 := by simp [scenarioCharges]
  exact ⟨⟨rfl, rfl, rfl, rfl, rfl, rfl, rfl, rfl, hq0, hq1, scenario_separation _ rfl, hlen,
      hs, he⟩,
    scenario_negative_energy_axial_forces _ ⟨rfl, rfl, rfl, rfl, rfl⟩ _ scenarioParameters
      scenarioCoordinates scenarioCharges none (fun _ => 0) rfl rfl rfl rfl rfl rfl rfl rfl
      hq0 hq1 (scenario_separation _ rfl) hlen hs he⟩

/-- C17 as stated fails: the HCT term depends on the offset radius of the receiving atom and
on the scaled radius of the contributing atom, so it is not symmetric for atoms of different
radii.  For radii 1 and 3/2 (scale factor 1, no offset) at distance 1 the full-burial branch
is taken for neither ordering, and the term of atom 1 in the sum of atom 0 exceeds the term
of atom 0 in the sum of atom 1. -/
theorem hctContribution_not_symmetric :
    0 < (getDeltaR ⟨Real.sqrt, Real.exp, Real.log, Real.tanh, fun a b => a ^ b⟩
        (probeCoordinates 0) (probeCoordinates 1) : DeltaR ℝ).RIndex
    ∧ ¬ fullBurial ⟨Real.sqrt, Real.exp, Real.log, Real.tanh, fun a b => a ^ b⟩
        (unequalParameters : ObcParameters ℝ) probeCoordinates 0 1
    ∧ ¬ fullBurial ⟨Real.sqrt, Real.exp, Real.log, Real.tanh, fun a b => a ^ b⟩
        (unequalParameters : ObcParameters ℝ) probeCoordinates 1 0
    ∧ hctContribution ⟨Real.sqrt, Real.exp, Real.log, Real.tanh, fun a b => a ^ b⟩
        (unequalParameters : ObcParameters ℝ) probeCoordinates 1 0
      < hctContribution ⟨Real.sqrt, Real.exp, Real.log, Real.tanh, fun a b => a ^ b⟩
        (unequalParameters : ObcParameters ℝ) probeCoordinates 0 1 := by
  have hr01 : (getDeltaR ⟨Real.sqrt, Real.exp, Real.log, Real.tanh, fun a b => a ^ b⟩
      (probeCoordinates 0) (probeCoordinates 1) : DeltaR ℝ).RIndex = 1 := by
    simp [getDeltaR, probeCoordinates]
  have hr10 : (getDeltaR ⟨Real.sqrt, Real.exp, Real.log, Real.tanh, fun a b => a ^ b⟩
      (probeCoordinates 1) (probeCoordinates 0) : DeltaR ℝ).RIndex = 1 := by
    simp [getDeltaR, probeCoordinates]
  refine ⟨by rw [hr01]; norm_num, ?_, ?_, ?_⟩
  · unfold fullBurial
    rw [hr01]
    simp [unequalParameters, probeParameters]
    norm_num
  · unfold fullBurial
    rw [hr10]
    simp [unequalParameters, probeParameters]
    norm_num
  · unfold hctContribution
    rw [hr01, hr10]
    unfold hctTerm
    simp [unequalParameters, probeParameters]
    norm_num
    have habs : |(1 : ℝ) / 2| < 1 := by
      rw [abs_of_pos (by norm_num)]
      norm_num
    simp only [habs, if_true]
    have h1 : Real.log (3 / 4) ≤ 3 / 4 - 1 := Real.log_le_sub_one_of_pos (by norm_num)
    have h2 : 1 - (2 / 5 : ℝ)⁻¹ ≤ Real.log (2 / 5) :=
      Real.one_sub_inv_le_log_of_pos (by norm_num)
    norm_num at h1 h2 ⊢
    linarith

/-- Without cutoff in the stored parameters the inner loop of `computeBornRadii` sums the
HCT contributions of all other atoms. -/
theorem hctSum_eq_contributions (M : Libm α) (self : ReferenceObc α) (p : ObcParameters α)
    (x : Nat → vector3 α) (i : Nat) (hcut : self._obcParameters.useCutoff = false) :
    hctSum M self p x i
      = ((List.range p.numberOfAtoms).map fun j =>
          if j ≠ i then hctContribution M p x i j else 0).sum :=
  hctSum_noCutoff M self p x i hcut

/-- C17, amended.  The HCT term that atom `j` contributes to the burial sum of atom `i`
equals the term that `i` contributes to the sum of `j` when the two atoms have the same
atomic radius and the same scaled-radius factor, whether or not the full-burial branch is
taken. -/
theorem hctContribution_symm_of_equal_radii (M : Libm α) (p : ObcParameters α)
    (x : Nat → vector3 α) (i j : Nat) (hr : p.atomicRadii i = p.atomicRadii j)
    (hs : p.scaledRadiusFactors i = p.scaledRadiusFactors j) :
    hctContribution M p x i j = hctContribution M p x j i := by
  unfold hctContribution
  rw [hr, hs, rIndex_symm M (x i) (x j)]

/-- C17 (amended) at the two equal atoms of the scenario. -/
theorem hctContribution_symm_of_equal_radii_witness :
    ((scenarioParameters : ObcParameters ℝ).atomicRadii 0
        = (scenarioParameters : ObcParameters ℝ).atomicRadii 1
      ∧ (scenarioParameters : ObcParameters ℝ).scaledRadiusFactors 0
        = (scenarioParameters : ObcParameters ℝ).scaledRadiusFactors 1)
    ∧ hctContribution ⟨Real.sqrt, Real.exp, Real.log, Real.tanh, fun a b => a ^ b⟩
        (scenarioParameters : ObcParameters ℝ) scenarioCoordinates 0 1
      = hctContribution ⟨Real.sqrt, Real.exp, Real.log, Real.tanh, fun a b => a ^ b⟩
        (scenarioParameters : ObcParameters ℝ) scenarioCoordinates 1 0 :=
  ⟨⟨rfl, rfl⟩, hctContribution_symm_of_equal_radii _ _ _ 0 1 rfl rfl⟩

/-- When every other atom is outside the burial interval of atom `i` or beyond the cutoff of
the stored parameters, the inner loop of `computeBornRadii` returns 0 for atom `i`. -/
theorem hctSum_eq_zero (M : Libm α) (self : ReferenceObc α) (p : ObcParameters α)
    (x : Nat → vector3 α) (i : Nat)
    (h : ∀ j, j < p.numberOfAtoms → j ≠ i →
      (getDeltaR M (x i) (x j)).RIndex
          + (p.atomicRadii j - p.dielectricOffset) * p.scaledRadiusFactors j
        ≤ p.atomicRadii i - p.dielectricOffset
      ∨ (self._obcParameters.useCutoff = true
        ∧ (getDeltaR M (x i) (x j)).RIndex > self._obcParameters.cutoffDistance)) :
    hctSum M self p x i = 0 := by
  unfold hctSum
  refine foldl_keeps (fun s => s = 0) _ _ (fun s j hj hs => ?_) 0 rfl
  have hj1 := List.mem_range.1 hj
  by_cases hji : j ≠ i
  · rcases h j hj1 hji with h1 | h1
    · simp only [hji, ne_eq, not_false_eq_true, if_true, hctTerm_eq_A M _ _ _ h1, add_zero,
        ite_self]
      exact hs
    · simp only [hji, ne_eq, not_false_eq_true, if_true, h1, and_self]
      exact hs
  · simp only [hji, if_false]
    exact hs

/-- C18. An atom j with `offsetRadiusI >= r + scaledRadiusJ` has a zero HCT term, and an
atom beyond the enabled cutoff (of the parameters stored in the object) is skipped.  If every
`j != i` is of one of these two kinds and no correction grid is supplied, the burial sum of
atom i is zero and `computeBornRadii` returns `bornRadii[i] = atomicRadius[i] -
dielectricOffset` and `obcChain[i] = offsetRadiusI * alphaObc / atomicRadius[i]`, as for an
isolated atom; the only fact about `TANH` used is `TANH(0) = 0`. -/
theorem computeBornRadii_no_contributors (M : Libm α) (self : ReferenceObc α)
    (p : ObcParameters α) (x : Nat → vector3 α) (b : Nat → α) (i : Nat)
    (htanh : M.TANH 0 = 0) (hi : i < p.numberOfAtoms)
    (hlen : p.numberOfAtoms ≤ self._obcChain.length)
    (h : ∀ j, j < p.numberOfAtoms → j ≠ i →
      (getDeltaR M (x i) (x j)).RIndex
          + (p.atomicRadii j - p.dielectricOffset) * p.scaledRadiusFactors j
        ≤ p.atomicRadii i - p.dielectricOffset
      ∨ (self._obcParameters.useCutoff = true
        ∧ (getDeltaR M (x i) (x j)).RIndex > self._obcParameters.cutoffDistance)) :
    (∀ ρ r s : α, r + s ≤ ρ → hctTerm M ρ r s = 0)
    ∧ hctSum M self p x i = 0
    ∧ ∃ (b1 : Nat → α) (s1 : ReferenceObc α),
      computeBornRadii M self p x none b = some (b1, s1)
      ∧ b1 i = p.atomicRadii i - p.dielectricOffset
      ∧ s1._obcChain.getD i 0
          = (p.atomicRadii i - p.dielectricOffset) * p.alphaObc / p.atomicRadii i := by
  have h0 := hctSum_eq_zero M self p x i h
  refine ⟨fun ρ r s hρ => hctTerm_eq_A M ρ s r hρ, h0, _, _,
    computeBornRadii_some M self p x none b hlen, ?_, ?_⟩
  · simp only [hi, if_true]
    unfold bornRadiusOut obcRemap
    rw [h0]
    simp [htanh]
  · simp only [obcChainOf_getD M self p x none hlen i, hi, if_true]
    unfold obcChainOut obcRemap
    rw [h0]
    simp [htanh]

/-- C18 at the probe configuration with a cutoff of 1/2 stored in the object: the other atom,
at distance 1, is beyond the cutoff. -/
theorem computeBornRadii_no_contributors_witness :
    (Real.tanh 0 = 0
      ∧ 0 < (probeParameters : ObcParameters ℝ).numberOfAtoms
      ∧ (probeParameters : ObcParameters ℝ).numberOfAtoms
          ≤ (ReferenceObc.new ((probeParameters : ObcParameters ℝ).withCutoff
              (1 / 2)))._obcChain.length)
    ∧ (∀ ρ r s : ℝ, r + s ≤ ρ →
        hctTerm ⟨Real.sqrt, Real.exp, Real.log, Real.tanh, fun a b => a ^ b⟩ ρ r s = 0)
    ∧ hctSum ⟨Real.sqrt, Real.exp, Real.log, Real.tanh, fun a b => a ^ b⟩
        (ReferenceObc.new ((probeParameters : ObcParameters ℝ).withCutoff (1 / 2)))
        probeParameters probeCoordinates 0 = 0
    ∧ ∃ (b1 : Nat → ℝ) (s1 : ReferenceObc ℝ),
      computeBornRadii ⟨Real.sqrt, Real.exp, Real.log, Real.tanh, fun a b => a ^ b⟩
        (ReferenceObc.new ((probeParameters : ObcParameters ℝ).withCutoff (1 / 2)))
        probeParameters probeCoordinates none (fun _ => 0) = some (b1, s1)
      ∧ b1 0 = (probeParameters : ObcParameters ℝ).atomicRadii 0
          - (probeParameters : ObcParameters ℝ).dielectricOffset
      ∧ s1._obcChain.getD 0 0
          = ((probeParameters : ObcParameters ℝ).atomicRadii 0
              - (probeParameters : ObcParameters ℝ).dielectricOffset)
            * (probeParameters : ObcParameters ℝ).alphaObc
            / (probeParameters : ObcParameters ℝ).atomicRadii 0 := by
  have hlen : (probeParameters : ObcParameters ℝ).numberOfAtoms
      ≤ (ReferenceObc.new ((probeParameters : ObcParameters ℝ).withCutoff
          (1 / 2)))._obcChain.length := by
    simp [ReferenceObc.new, ObcParameters.withCutoff, probeParameters]
  have hpos : 0 < (probeParameters : ObcParameters ℝ).numberOfAtoms := by
    simp [probeParameters]
  exact ⟨⟨Real.tanh_zero, hpos, hlen⟩,
    computeBornRadii_no_contributors
      ⟨Real.sqrt, Real.exp, Real.log, Real.tanh, fun a b => a ^ b⟩
      (ReferenceObc.new ((probeParameters : ObcParameters ℝ).withCutoff (1 / 2)))
      probeParameters probeCoordinates (fun _ => 0) 0 Real.tanh_zero hpos hlen
      (by
        intro j hj hj0
        have hj2 : j < 2 := hj
        have hj1 : j = 1 := by omega
        subst hj1
        right
        refine ⟨rfl, ?_⟩
        simp [getDeltaR, probeCoordinates, ReferenceObc.new, ObcParameters.withCutoff,
          probeParameters]
        norm_num)⟩

/-- C19. Full-burial correction.  For a distance `r ≥ 0` the HCT term of a pair is the
closed form of lines 201-203 (when `offsetRadiusI < r + scaledRadiusJ`) plus the extra
summand `2 * (1/offsetRadiusI - l_ij)`, the latter exactly when
`offsetRadiusI < scaledRadiusJ - r`; in that case, the offset radius being non-negative,
`l_ij = 1 / (scaledRadiusJ - r)`, and for `offsetRadiusI > 0` the correction
`2 * (1/offsetRadiusI - 1/(scaledRadiusJ - r))` is strictly positive. -/
theorem hctTerm_fullBurial (M : Libm α) (ρ r s : α) (hr : 0 ≤ r) :
    hctTerm M ρ r s
        = (if ρ < r + s then
            hctClosed M s r (1 / (if ρ > |r - s| then ρ else |r - s|)) else 0)
          + (if ρ < s - r then 2 * (1 / ρ - 1 / (if ρ > |r - s| then ρ else |r - s|))
              else 0)
    ∧ (0 ≤ ρ → ρ < s - r → 1 / (if ρ > |r - s| then ρ else |r - s|) = 1 / (s - r))
    ∧ (0 < ρ → ρ < s - r → 0 < 2 * (1 / ρ - 1 / (s - r))) := by
  refine ⟨?_, ?_, ?_⟩
  · unfold hctTerm hctClosed
    by_cases h1 : ρ < r + s
    · by_cases h2 : ρ < s - r
      · simp only [h1, h2, if_true]
      · simp only [h1, h2, if_true, if_false, add_zero]
    · have h2 : ¬ ρ < s - r := by
        intro h
        apply h1
        linarith
      simp only [h1, h2, if_false, add_zero]
  · intro hρ h
    have h2 : |r - s| = s - r := by
      rw [abs_sub_comm]
      exact abs_of_nonneg (by linarith)
    have h3 : ¬ ρ > s - r := not_lt.2 h.le
    rw [h2, if_neg h3]
  · intro hρ h
    have h1 : 0 < s - r := lt_trans hρ h
    have h2 : 1 / (s - r) < 1 / ρ := one_div_lt_one_div_of_lt hρ h
    linarith

/-- C19 for offset radius 1, distance 1 and scaled radius 3, over the reals. -/
theorem hctTerm_fullBurial_witness :
    (0 : ℝ) ≤ 1
    ∧ hctTerm ⟨Real.sqrt, Real.exp, Real.log, Real.tanh, fun a b => a ^ b⟩ (1 : ℝ) 1 3
        = (if (1 : ℝ) < 1 + 3 then
            hctClosed ⟨Real.sqrt, Real.exp, Real.log, Real.tanh, fun a b => a ^ b⟩ 3 1
              (1 / (if (1 : ℝ) > |1 - 3| then 1 else |1 - 3|)) else 0)
          + (if (1 : ℝ) < 3 - 1 then
              2 * (1 / 1 - 1 / (if (1 : ℝ) > |1 - 3| then 1 else |1 - 3|)) else 0)
    ∧ ((0 : ℝ) ≤ 1 → (1 : ℝ) < 3 - 1 →
        (1 : ℝ) / (if (1 : ℝ) > |1 - 3| then 1 else |1 - 3|) = 1 / (3 - 1))
    ∧ ((0 : ℝ) < 1 → (1 : ℝ) < 3 - 1 → (0 : ℝ) < 2 * (1 / 1 - 1 / (3 - 1))) :=
  ⟨zero_le_one,
    hctTerm_fullBurial ⟨Real.sqrt, Real.exp, Real.log, Real.tanh, fun a b => a ^ b⟩
      (1 : ℝ) 1 3 zero_le_one⟩

/-- The diagonal pair has squared distance zero. -/
theorem r2Index_self (M : Libm α) (a : vector3 α) : (getDeltaR M a a).R2Index = 0 := by
  unfold getDeltaR
  simp

/-- The energy of the diagonal pair: half of `Gpol`, whose denominator is `|bornRadii[i]|`,
with no cutoff shift, for every cutoff setting with a non-negative distance. -/
theorem pairEnergy_self (M : Libm ℝ) (hS : M.SQRT = Real.sqrt) (hE : M.EXP = Real.exp)
    (p : ObcParameters ℝ) (x : Nat → vector3 ℝ) (q b : Nat → ℝ) (pc : ℝ) (i : Nat)
    (hc : p.useCutoff = false ∨ 0 ≤ p.cutoffDistance) :
    pairEnergy M p x q b pc i i = pc * q i / |b i| * (1 / 2) := by
  unfold pairEnergy
  have hr : (getDeltaR M (x i) (x i)).RIndex = 0 := by
    rw [rIndex_eq, r2Index_self, hS, Real.sqrt_zero]
  have hskip : ¬ (p.useCutoff = true ∧ (getDeltaR M (x i) (x i)).RIndex > p.cutoffDistance) := by
    rintro ⟨h1, h2⟩
    rcases hc with h | h
    · rw [h] at h1
      exact Bool.false_ne_true h1
    · rw [hr] at h2
      exact absurd h2 (not_lt.2 h)
  simp only [hskip, if_false, ne_eq, not_true_eq_false, pairGpol_self M hS hE]

/-- C20. Self-interaction halving.  The pair of an atom with itself has `r2 = 0`, `r = 0`
and `Gpol` denominator `|bornRadii[i]|`; for every cutoff setting with a non-negative
distance it is not skipped, not shifted by the cutoff correction, and counted with factor
one half.  Hence for one atom with `atomicRadius[0] > dielectricOffset`, no grid and the
ACE flag off, `computeBornEnergy` returns
`strength * preFactor * charge[0]^2 / (2 * (atomicRadius[0] - dielectricOffset))`. -/
theorem computeBornEnergy_single_atom (M : Libm ℝ) (hM : M.IsExact) (self : ReferenceObc ℝ)
    (p : ObcParameters ℝ) (x : Nat → vector3 ℝ) (q : Nat → ℝ)
    (hN : p.numberOfAtoms = 1) (hρ : p.dielectricOffset < p.atomicRadii 0)
    (hace : self.includeAceApproximation = 0)
    (hc : p.useCutoff = false ∨ 0 ≤ p.cutoffDistance)
    (hlen : 1 ≤ self._obcChain.length) :
    (∀ (b : Nat → ℝ) (pc : ℝ) (i : Nat),
      (getDeltaR M (x i) (x i)).R2Index = 0 ∧ (getDeltaR M (x i) (x i)).RIndex = 0
      ∧ pairGpol M x q b pc i i = pc * q i / |b i|
      ∧ pairEnergy M p x q b pc i i = pc * q i / |b i| * (1 / 2))
    ∧ ∃ s1 : ReferenceObc ℝ,
      computeBornEnergy M self p x q none
        = some (p.strength * preFactor p * q 0 ^ 2
            / (2 * (p.atomicRadii 0 - p.dielectricOffset)), s1) := by
  obtain ⟨hS, hE, hLN, hT, hP⟩ := hM
  refine ⟨fun b pc i => ⟨r2Index_self M (x i), ?_, pairGpol_self M hS hE x q b pc i,
    pairEnergy_self M hS hE p x q b pc i hc⟩, ?_⟩
  · rw [rIndex_eq, r2Index_self, hS, Real.sqrt_zero]
  · have hlen1 : p.numberOfAtoms ≤ self._obcChain.length := by omega
    refine ⟨{ self with _obcChain := obcChainOf M self p x none }, ?_⟩
    rw [computeBornEnergy_some M self p x q none hlen1]
    have hace0 : (aceStage M self p (bornRadiiOf M self p x none)).1 = 0 := by
      unfold aceStage
      simp [hace]
    have hb : bornRadiiOf M self p x none 0 = p.atomicRadii 0 - p.dielectricOffset := by
      unfold bornRadiiOf bornRadiusOut obcRemap
      rw [hctSum_single M self p x hN]
      simp [hN, hT]
    have hpol : polarSum M p x q (bornRadiiOf M self p x none) (preFactor p)
        = preFactor p * q 0 * q 0 / |bornRadiiOf M self p x none 0| * (1 / 2) := by
      unfold polarSum
      rw [hN]
      simp only [List.range_succ, List.range_zero, List.nil_append, List.map_cons,
        List.map_nil, List.sum_cons, List.sum_nil, List.range', add_zero, Nat.sub_zero,
        pairEnergy_self M hS hE p x q _ _ _ hc]
    rw [hace0, hpol, hb, abs_of_pos (by linarith)]
    congr 1
    rw [Prod.mk.injEq]
    refine ⟨?_, rfl⟩
    have hne : p.atomicRadii 0 - p.dielectricOffset ≠ 0 := by
      have : 0 < p.atomicRadii 0 - p.dielectricOffset := by linarith
      exact this.ne.symm
    field_simp
    ring

/-- C20 for one atom of the scenario (radius 0.15, dielectric offset 0.009, charge +1, no
cutoff), on a freshly constructed object with the ACE term switched off. -/
theorem computeBornEnergy_single_atom_witness :
    (({ (scenarioParameters : ObcParameters ℝ) with numberOfAtoms := 1 }).numberOfAtoms = 1
      ∧ ({ (scenarioParameters : ObcParameters ℝ) with numberOfAtoms := 1 }).dielectricOffset
          < ({ (scenarioParameters : ObcParameters ℝ) with numberOfAtoms := 1 }).atomicRadii 0
      ∧ ((ReferenceObc.new { (scenarioParameters : ObcParameters ℝ) with
            numberOfAtoms := 1 }).setIncludeAceApproximation 0).includeAceApproximation = 0
      ∧ 1 ≤ ((ReferenceObc.new { (scenarioParameters : ObcParameters ℝ) with
            numberOfAtoms := 1 }).setIncludeAceApproximation 0)._obcChain.length)
    ∧ ∃ s1 : ReferenceObc ℝ,
      computeBornEnergy ⟨Real.sqrt, Real.exp, Real.log, Real.tanh, fun a b => a ^ b⟩
        ((ReferenceObc.new { (scenarioParameters : ObcParameters ℝ) with
            numberOfAtoms := 1 }).setIncludeAceApproximation 0)
        { (scenarioParameters : ObcParameters ℝ) with numberOfAtoms := 1 }
        scenarioCoordinates scenarioCharges none
        = some (({ (scenarioParameters : ObcParameters ℝ) with numberOfAtoms := 1 }).strength
            * preFactor { (scenarioParameters : ObcParameters ℝ) with numberOfAtoms := 1 }
            * scenarioCharges 0 ^ 2
            / (2 * (({ (scenarioParameters : ObcParameters ℝ) with
                  numberOfAtoms := 1 }).atomicRadii 0
                - ({ (scenarioParameters : ObcParameters ℝ) with
                  numberOfAtoms := 1 }).dielectricOffset)), s1) := by
  have hρ : ({ (scenarioParameters : ObcParameters ℝ) with
        numberOfAtoms := 1 }).dielectricOffset
      < ({ (scenarioParameters : ObcParameters ℝ) with numberOfAtoms := 1 }).atomicRadii 0 := by
    simp [scenarioParameters]
    norm_num
  have hlen : 1 ≤ ((ReferenceObc.new { (scenarioParameters : ObcParameters ℝ) with
      numberOfAtoms := 1 }).setIncludeAceApproximation 0)._obcChain.length := by
    simp [ReferenceObc.new, ReferenceObc.setIncludeAceApproximation]
  exact ⟨⟨rfl, hρ, rfl, hlen⟩,
    (computeBornEnergy_single_atom
      ⟨Real.sqrt, Real.exp, Real.log, Real.tanh, fun a b => a ^ b⟩ ⟨rfl, rfl, rfl, rfl, rfl⟩
      ((ReferenceObc.new { (scenarioParameters : ObcParameters ℝ) with
          numberOfAtoms := 1 }).setIncludeAceApproximation 0)
      { (scenarioParameters : ObcParameters ℝ) with numberOfAtoms := 1 }
      scenarioCoordinates scenarioCharges rfl hρ rfl (Or.inl rfl) hlen).2⟩

/-- The chain derivative written by lines 238-239, in terms of Psi. -/
theorem obcRemap_snd (M : Libm α) (p : ObcParameters α) (Igrid : Option (Nat → α))
    (i : Nat) (S : α) :
    (obcRemap M p Igrid i S).2
      = (1 - M.TANH (p.alphaObc
              * ((p.atomicRadii i - p.dielectricOffset)
                * (1 / 2 * S + (match Igrid with
                    | some grid => grid i
                    | none => 0)))
            - p.betaObc
              * ((p.atomicRadii i - p.dielectricOffset)
                * (1 / 2 * S + (match Igrid with
                    | some grid => grid i
                    | none => 0))) ^ 2
            + p.gammaObc
              * ((p.atomicRadii i - p.dielectricOffset)
                * (1 / 2 * S + (match Igrid with
                    | some grid => grid i
                    | none => 0))) ^ 3) ^ 2)
        * ((p.atomicRadii i - p.dielectricOffset)
          * (p.alphaObc
            - 2 * p.betaObc
              * ((p.atomicRadii i - p.dielectricOffset)
                * (1 / 2 * S + (match Igrid with
                    | some grid => grid i
                    | none => 0)))
            + 3 * p.gammaObc
              * ((p.atomicRadii i - p.dielectricOffset)
                * (1 / 2 * S + (match Igrid with
                    | some grid => grid i
                    | none => 0))) ^ 2))
        / p.atomicRadii i := by
  have hpow : ∀ Ψ : α, p.alphaObc * Ψ - p.betaObc * (Ψ * Ψ) + p.gammaObc * (Ψ * (Ψ * Ψ))
      = p.alphaObc * Ψ - p.betaObc * Ψ ^ 2 + p.gammaObc * Ψ ^ 3 := fun Ψ => by ring
  have hsq : ∀ t : α, 1 - t * t = 1 - t ^ 2 := fun t => by ring
  have hsq2 : ∀ Ψ : α, Ψ * Ψ = Ψ ^ 2 := fun Ψ => by ring
  unfold obcRemap
  cases Igrid with
  | none =>
    simp only [hpow, hsq]
    rw [show S * (1 / 2) * (p.atomicRadii i - p.dielectricOffset)
      = (p.atomicRadii i - p.dielectricOffset) * (1 / 2 * S + 0) by ring]
    simp only [hsq2]
  | some grid =>
    simp only [hpow, hsq]
    rw [show (S * (1 / 2) + grid i) * (p.atomicRadii i - p.dielectricOffset)
      = (p.atomicRadii i - p.dielectricOffset) * (1 / 2 * S + grid i) by ring]
    simp only [hsq2]

/-- The Born radius the code writes is `B` at the Psi of the atom. -/
theorem bornRadiusOut_eq_specBornOfPsi (M : Libm α) (self : ReferenceObc α)
    (p : ObcParameters α) (x : Nat → vector3 α) (Igrid : Option (Nat → α)) (i : Nat) :
    bornRadiusOut M self p x Igrid i = specBornOfPsi M p i (specPsi M self p x Igrid i) := by
  rw [bornRadiusOut_eq_spec]
  rfl

/-- The chain derivative the code writes, in terms of the Psi of the atom. -/
theorem obcChainOut_eq_psi (M : Libm α) (self : ReferenceObc α)
    (p : ObcParameters α) (x : Nat → vector3 α) (Igrid : Option (Nat → α)) (i : Nat) :
    obcChainOut M self p x Igrid i
      = (1 - M.TANH (p.alphaObc * specPsi M self p x Igrid i
            - p.betaObc * specPsi M self p x Igrid i ^ 2
            + p.gammaObc * specPsi M self p x Igrid i ^ 3) ^ 2)
        * ((p.atomicRadii i - p.dielectricOffset)
          * (p.alphaObc - 2 * p.betaObc * specPsi M self p x Igrid i
            + 3 * p.gammaObc * specPsi M self p x Igrid i ^ 2))
        / p.atomicRadii i := by
  unfold obcChainOut
  rw [obcRemap_snd, hctSum_eq_spec]
  rfl

/-- Derivative of `B` in Psi where the denominator is non-zero. -/
theorem hasDerivAt_specBornOfPsi (M : Libm ℝ) (hT : M.TANH = Real.tanh)
    (p : ObcParameters ℝ) (i : Nat) (Ψ : ℝ)
    (hden : 1 / (p.atomicRadii i - p.dielectricOffset)
      - M.TANH (p.alphaObc * Ψ - p.betaObc * Ψ ^ 2 + p.gammaObc * Ψ ^ 3) / p.atomicRadii i
        ≠ 0) :
    HasDerivAt (specBornOfPsi M p i)
      (specBornOfPsi M p i Ψ ^ 2
        * ((1 - M.TANH (p.alphaObc * Ψ - p.betaObc * Ψ ^ 2 + p.gammaObc * Ψ ^ 3) ^ 2)
          * (p.alphaObc - 2 * p.betaObc * Ψ + 3 * p.gammaObc * Ψ ^ 2) / p.atomicRadii i)) Ψ := by
  have hz : HasDerivAt
      (fun Ψ : ℝ => p.alphaObc * Ψ - p.betaObc * Ψ ^ 2 + p.gammaObc * Ψ ^ 3)
      (p.alphaObc - 2 * p.betaObc * Ψ + 3 * p.gammaObc * Ψ ^ 2) Ψ := by
    have h1 := (hasDerivAt_id Ψ).const_mul p.alphaObc
    have h2 := ((hasDerivAt_id Ψ).pow 2).const_mul p.betaObc
    have h3 := ((hasDerivAt_id Ψ).pow 3).const_mul p.gammaObc
    have := (h1.sub h2).add h3
    convert this using 1
    simp only [id]
    ring
  have ht := (hasDerivAt_tanh _).comp Ψ hz
  have hd := (hasDerivAt_const Ψ (1 / (p.atomicRadii i - p.dielectricOffset))).sub
    (ht.div_const (p.atomicRadii i))
  rw [hT] at hden
  have hB := (hasDerivAt_const Ψ (1 : ℝ)).div hd hden
  unfold specBornOfPsi
  rw [hT]
  convert hB using 1
  simp only [Function.comp]
  field_simp
  ring

/-- C21. The cached chain derivative is the derivative of the Born radius with respect to
Psi, multiplied by `offsetRadiusI` and divided by the squared Born radius: with
`B(Psi) = 1 / (1/offsetRadiusI - tanh(alphaObc*Psi - betaObc*Psi^2 + gammaObc*Psi^3)
/ atomicRadius[i])`, the Born radius written for atom i is `B(Psi_i)`, and where the
denominator is non-zero `B` has a derivative `D` at `Psi_i` with
`obcChain[i] * bornRadii[i]^2 = offsetRadiusI * D`; hence the rescaling loop of
`computeBornEnergyForces` multiplies `bornForces[i]` by `offsetRadiusI * D`. -/
theorem obcChain_is_scaled_derivative (M : Libm ℝ) (hT : M.TANH = Real.tanh)
    (self : ReferenceObc ℝ) (p : ObcParameters ℝ) (x : Nat → vector3 ℝ)
    (g : Option (Nat → ℝ)) (i : Nat)
    (hden : 1 / (p.atomicRadii i - p.dielectricOffset)
      - M.TANH (p.alphaObc * specPsi M self p x g i - p.betaObc * specPsi M self p x g i ^ 2
          + p.gammaObc * specPsi M self p x g i ^ 3) / p.atomicRadii i ≠ 0) :
    bornRadiusOut M self p x g i = specBornOfPsi M p i (specPsi M self p x g i)
    ∧ ∃ D : ℝ, HasDerivAt (specBornOfPsi M p i) D (specPsi M self p x g i)
      ∧ obcChainOut M self p x g i * bornRadiusOut M self p x g i ^ 2
          = (p.atomicRadii i - p.dielectricOffset) * D
      ∧ ∀ bf : Nat → ℝ, i < p.numberOfAtoms → p.numberOfAtoms ≤ self._obcChain.length →
          rescaleBornForces p (bornRadiiOf M self p x g) (obcChainOf M self p x g) bf i
            = bf i * ((p.atomicRadii i - p.dielectricOffset) * D) := by
  have hB := bornRadiusOut_eq_specBornOfPsi M self p x g i
  have hC := obcChainOut_eq_psi M self p x g i
  have hscaled : obcChainOut M self p x g i * bornRadiusOut M self p x g i ^ 2
      = (p.atomicRadii i - p.dielectricOffset)
        * (specBornOfPsi M p i (specPsi M self p x g i) ^ 2
          * ((1 - M.TANH (p.alphaObc * specPsi M self p x g i
                - p.betaObc * specPsi M self p x g i ^ 2
                + p.gammaObc * specPsi M self p x g i ^ 3) ^ 2)
            * (p.alphaObc - 2 * p.betaObc * specPsi M self p x g i
                + 3 * p.gammaObc * specPsi M self p x g i ^ 2) / p.atomicRadii i)) := by
    rw [hC, hB]
    ring
  refine ⟨hB, _, hasDerivAt_specBornOfPsi M hT p i _ hden, hscaled, ?_⟩
  intro bf hi hlen
  rw [rescaleBornForces_eq, ← hscaled]
  simp only [hi, if_true, obcChainOf_getD M self p x g hlen i]
  unfold bornRadiiOf
  simp only [hi, if_true]
  ring

/-- C21 at atom 0 of the two-atom scenario, on a freshly constructed object and over the
reals. -/
theorem obcChain_is_scaled_derivative_witness :
    (1 / ((scenarioParameters : ObcParameters ℝ).atomicRadii 0
          - (scenarioParameters : ObcParameters ℝ).dielectricOffset)
      - Real.tanh ((scenarioParameters : ObcParameters ℝ).alphaObc
            * specPsi ⟨Real.sqrt, Real.exp, Real.log, Real.tanh, fun a b => a ^ b⟩
                (ReferenceObc.new scenarioParameters) scenarioParameters
                scenarioCoordinates none 0
          - (scenarioParameters : ObcParameters ℝ).betaObc
            * specPsi ⟨Real.sqrt, Real.exp, Real.log, Real.tanh, fun a b => a ^ b⟩
                (ReferenceObc.new scenarioParameters) scenarioParameters
                scenarioCoordinates none 0 ^ 2
          + (scenarioParameters : ObcParameters ℝ).gammaObc
            * specPsi ⟨Real.sqrt, Real.exp, Real.log, Real.tanh, fun a b => a ^ b⟩
                (ReferenceObc.new scenarioParameters) scenarioParameters
                scenarioCoordinates none 0 ^ 3)
        / (scenarioParameters : ObcParameters ℝ).atomicRadii 0 ≠ 0)
    ∧ bornRadiusOut ⟨Real.sqrt, Real.exp, Real.log, Real.tanh, fun a b => a ^ b⟩
        (ReferenceObc.new scenarioParameters) scenarioParameters scenarioCoordinates none 0
      = specBornOfPsi ⟨Real.sqrt, Real.exp, Real.log, Real.tanh, fun a b => a ^ b⟩
          scenarioParameters 0
          (specPsi ⟨Real.sqrt, Real.exp, Real.log, Real.tanh, fun a b => a ^ b⟩
            (ReferenceObc.new scenarioParameters) scenarioParameters scenarioCoordinates
            none 0)
    ∧ ∃ D : ℝ,
      HasDerivAt
        (specBornOfPsi ⟨Real.sqrt, Real.exp, Real.log, Real.tanh, fun a b => a ^ b⟩
          scenarioParameters 0) D
        (specPsi ⟨Real.sqrt, Real.exp, Real.log, Real.tanh, fun a b => a ^ b⟩
          (ReferenceObc.new scenarioParameters) scenarioParameters scenarioCoordinates
          none 0)
      ∧ obcChainOut ⟨Real.sqrt, Real.exp, Real.log, Real.tanh, fun a b => a ^ b⟩
          (ReferenceObc.new scenarioParameters) scenarioParameters scenarioCoordinates none 0
        * bornRadiusOut ⟨Real.sqrt, Real.exp, Real.log, Real.tanh, fun a b => a ^ b⟩
          (ReferenceObc.new scenarioParameters) scenarioParameters scenarioCoordinates
          none 0 ^ 2
        = ((scenarioParameters : ObcParameters ℝ).atomicRadii 0
            - (scenarioParameters : ObcParameters ℝ).dielectricOffset) * D
      ∧ ∀ bf : Nat → ℝ, 0 < (scenarioParameters : ObcParameters ℝ).numberOfAtoms →
          (scenarioParameters : ObcParameters ℝ).numberOfAtoms
            ≤ (ReferenceObc.new (scenarioParameters : ObcParameters ℝ))._obcChain.length →
          rescaleBornForces scenarioParameters
            (bornRadiiOf ⟨Real.sqrt, Real.exp, Real.log, Real.tanh, fun a b => a ^ b⟩
              (ReferenceObc.new scenarioParameters) scenarioParameters scenarioCoordinates
              none)
            (obcChainOf ⟨Real.sqrt, Real.exp, Real.log, Real.tanh, fun a b => a ^ b⟩
              (ReferenceObc.new scenarioParameters) scenarioParameters scenarioCoordinates
              none) bf 0
            = bf 0 * (((scenarioParameters : ObcParameters ℝ).atomicRadii 0
                - (scenarioParameters : ObcParameters ℝ).dielectricOffset) * D) := by
  have hden := ne_of_gt (obcDenominator_pos
    ((scenarioParameters : ObcParameters ℝ).atomicRadii 0
      - (scenarioParameters : ObcParameters ℝ).dielectricOffset)
    ((scenarioParameters : ObcParameters ℝ).atomicRadii 0)
    ((scenarioParameters : ObcParameters ℝ).alphaObc
        * specPsi ⟨Real.sqrt, Real.exp, Real.log, Real.tanh, fun a b => a ^ b⟩
            (ReferenceObc.new scenarioParameters) scenarioParameters
            scenarioCoordinates none 0
      - (scenarioParameters : ObcParameters ℝ).betaObc
        * specPsi ⟨Real.sqrt, Real.exp, Real.log, Real.tanh, fun a b => a ^ b⟩
            (ReferenceObc.new scenarioParameters) scenarioParameters
            scenarioCoordinates none 0 ^ 2
      + (scenarioParameters : ObcParameters ℝ).gammaObc
        * specPsi ⟨Real.sqrt, Real.exp, Real.log, Real.tanh, fun a b => a ^ b⟩
            (ReferenceObc.new scenarioParameters) scenarioParameters
            scenarioCoordinates none 0 ^ 3)
    (by simp [scenarioParameters]; norm_num) (by simp [scenarioParameters]; norm_num))
  exact ⟨hden, obcChain_is_scaled_derivative
    ⟨Real.sqrt, Real.exp, Real.log, Real.tanh, fun a b => a ^ b⟩ rfl
    (ReferenceObc.new scenarioParameters) scenarioParameters scenarioCoordinates none 0
    hden⟩

/-- C24. With the cutoff enabled in the parameters used by both the estimator and the pair
loop, and `cutoffDistance` at least as large as every pairwise distance, no pair is
skipped, the Born radii equal the no-cutoff Born radii, and `computeBornEnergy` returns
the no-cutoff energy minus
`strength * preFactor * (sum over pairs i < j of charge[i]*charge[j]) / cutoffDistance`. -/
theorem computeBornEnergy_cutoff_covers_all (M : Libm α) (self : ReferenceObc α)
    (p : ObcParameters α) (x : Nat → vector3 α) (q : Nat → α) (g : Option (Nat → α)) (c : α)
    (hlen : p.numberOfAtoms ≤ self._obcChain.length)
    (h : ∀ i j, i < p.numberOfAtoms → j < p.numberOfAtoms →
      (getDeltaR M (x i) (x j)).RIndex ≤ c) :
    (∀ i j, i < p.numberOfAtoms → j < p.numberOfAtoms →
      ¬ ((p.withCutoff c).useCutoff = true
        ∧ (getDeltaR M (x i) (x j)).RIndex > (p.withCutoff c).cutoffDistance))
    ∧ bornRadiiOf M (self.setObcParameters (p.withCutoff c)) (p.withCutoff c) x g
        = bornRadiiOf M (self.setObcParameters p.withoutCutoff) p.withoutCutoff x g
    ∧ ∃ (E : α) (s1 s2 : ReferenceObc α),
        computeBornEnergy M (self.setObcParameters p.withoutCutoff) p.withoutCutoff x q g
          = some (E, s1)
        ∧ computeBornEnergy M (self.setObcParameters (p.withCutoff c)) (p.withCutoff c) x q g
          = some (E - p.strength * preFactor p * chargePairSum p.numberOfAtoms q / c, s2) := by
  refine ⟨fun i j hi hj hskip => absurd hskip.2 (not_lt.2 (h i j hi hj)),
    bornRadiiOf_withCutoff_far M self p x g c h, ?_⟩
  obtain ⟨E, h1, h2⟩ := cutoffEnergy_far M self p x q g c hlen h
  unfold noCutoffEnergy at h1
  unfold cutoffEnergy at h2
  obtain ⟨⟨e1, s1⟩, hs1, he1⟩ := Option.map_eq_some'.1 h1
  obtain ⟨⟨e2, s2⟩, hs2, he2⟩ := Option.map_eq_some'.1 h2
  simp only at he1 he2
  subst he1 he2
  exact ⟨_, s1, s2, hs1, hs2⟩

/-- C24 at the probe configuration (two unit charges at distance 1) with
`cutoffDistance = 4`, on a freshly constructed object and over the reals. -/
theorem computeBornEnergy_cutoff_covers_all_witness :
    ((probeParameters : ObcParameters ℝ).numberOfAtoms
        ≤ (ReferenceObc.new (probeParameters : ObcParameters ℝ))._obcChain.length
      ∧ ∀ i j, i < (probeParameters : ObcParameters ℝ).numberOfAtoms →
          j < (probeParameters : ObcParameters ℝ).numberOfAtoms →
          (getDeltaR ⟨Real.sqrt, Real.exp, Real.log, Real.tanh, fun a b => a ^ b⟩
            (probeCoordinates i) (probeCoordinates j)).RIndex ≤ (4 : ℝ))
    ∧ ∃ (E : ℝ) (s1 s2 : ReferenceObc ℝ),
        computeBornEnergy ⟨Real.sqrt, Real.exp, Real.log, Real.tanh, fun a b => a ^ b⟩
          ((ReferenceObc.new probeParameters).setObcParameters
            (probeParameters : ObcParameters ℝ).withoutCutoff)
          (probeParameters : ObcParameters ℝ).withoutCutoff probeCoordinates probeCharges
          none = some (E, s1)
        ∧ computeBornEnergy ⟨Real.sqrt, Real.exp, Real.log, Real.tanh, fun a b => a ^ b⟩
          ((ReferenceObc.new probeParameters).setObcParameters
            ((probeParameters : ObcParameters ℝ).withCutoff 4))
          ((probeParameters : ObcParameters ℝ).withCutoff 4) probeCoordinates probeCharges
          none
          = some (E - (probeParameters : ObcParameters ℝ).strength
              * preFactor (probeParameters : ObcParameters ℝ)
              * chargePairSum (probeParameters : ObcParameters ℝ).numberOfAtoms
                  probeCharges / 4, s2) := by
  have hlen : (probeParameters : ObcParameters ℝ).numberOfAtoms
      ≤ (ReferenceObc.new (probeParameters : ObcParameters ℝ))._obcChain.length := by
    simp [ReferenceObc.new, probeParameters]
  have hR : ∀ i j, i < (probeParameters : ObcParameters ℝ).numberOfAtoms →
      j < (probeParameters : ObcParameters ℝ).numberOfAtoms →
      (getDeltaR ⟨Real.sqrt, Real.exp, Real.log, Real.tanh, fun a b => a ^ b⟩
        (probeCoordinates i) (probeCoordinates j)).RIndex ≤ (4 : ℝ) := by
    intro i j hi hj
    have hi2 : i < 2 := hi
    have hj2 : j < 2 := hj
    interval_cases i <;> interval_cases j <;> simp [getDeltaR, probeCoordinates]
  exact ⟨⟨hlen, hR⟩,
    (computeBornEnergy_cutoff_covers_all _ (ReferenceObc.new probeParameters)
      probeParameters probeCoordinates probeCharges none 4 hlen hR).2.2⟩

/-- For `y ≥ 1` the logarithm is at most `(y - 1/y) / 2`. -/
theorem log_le_half_sub_inv (y : ℝ) (hy : 1 ≤ y) : Real.log y ≤ (y - y⁻¹) / 2 := by
  have hy0 : 0 < y := lt_of_lt_of_le one_pos hy
  have h0 : 0 ≤ Real.log y := Real.log_nonneg hy
  have h1 := Real.self_le_sinh_iff.2 h0
  rw [Real.sinh_eq, Real.exp_neg, Real.exp_log hy0] at h1
  exact h1

/-- The HCT closed form is non-negative when the lower bound lies in the burial interval:
`1 / (r + s) ≤ l` and `(r - s) * l ≤ 1`. -/
theorem hctClosed_nonneg (M : Libm ℝ) (hLN : M.LN = Real.log) (s r l : ℝ) (hr : 0 < r)
    (hs : 0 < s) (hl : 1 / (r + s) ≤ l) (hmax : (r - s) * l ≤ 1) :
    0 ≤ hctClosed M s r l := by
  have hrs : 0 < r + s := by linarith
  have hu : 0 < 1 / (r + s) := one_div_pos.2 hrs
  have hl0 : 0 < l := lt_of_lt_of_le hu hl
  have hy : 1 ≤ l * (r + s) := by
    have := mul_le_mul_of_nonneg_right hl hrs.le
    rwa [one_div_mul_cancel hrs.ne'] at this
  have hlog : Real.log (1 / (r + s) / l) = -Real.log (l * (r + s)) := by
    rw [← Real.log_inv]
    congr 1
    field_simp
    ring
  have hbound := log_le_half_sub_inv _ hy
  have hid : l - 1 / (r + s) + (1 / 4) * r * ((1 / (r + s)) * (1 / (r + s)) - l * l)
      + ((1 / 4) * s * s * (1 / r)) * (l * l - (1 / (r + s)) * (1 / (r + s)))
      - (1 / 2) * (1 / r) * ((l * (r + s) - (l * (r + s))⁻¹) / 2)
      = (l - 1 / (r + s)) ^ 2 * (1 - (r - s) * l) * (r + s) / (4 * r * l) := by
    field_simp
    ring
  have hpos : 0 ≤ (l - 1 / (r + s)) ^ 2 * (1 - (r - s) * l) * (r + s) / (4 * r * l) := by
    have h1 : 0 ≤ 1 - (r - s) * l := by linarith
    positivity
  unfold hctClosed
  rw [hLN, hlog]
  have hr2 : 0 < (1 / 2) * (1 / r) := by positivity
  have := mul_le_mul_of_nonneg_left hbound hr2.le
  nlinarith [hid, hpos, this]

/-- The HCT term as the closed form plus the full-burial summand. -/
theorem hctTerm_eq_closed_add (M : Libm α) (ρ r s : α) (h : ρ < r + s) :
    hctTerm M ρ r s
      = hctClosed M s r (1 / (if ρ > |r - s| then ρ else |r - s|))
        + (if ρ < s - r then 2 * (1 / ρ - 1 / (if ρ > |r - s| then ρ else |r - s|))
            else 0) := by
  unfold hctTerm hctClosed
  by_cases h2 : ρ < s - r
  · simp only [h, h2, if_true]
  · simp only [h, h2, if_true, if_false, add_zero]

/-- Every HCT pair term is non-negative for positive distance, offset radius and scaled
radius. -/
theorem hctTerm_nonneg (M : Libm ℝ) (hLN : M.LN = Real.log) (ρ r s : ℝ) (hr : 0 < r)
    (hρ : 0 < ρ) (hs : 0 < s) : 0 ≤ hctTerm M ρ r s := by
  by_cases h : ρ < r + s
  · rw [hctTerm_eq_closed_add M ρ r s h]
    have habs : |r - s| < r + s := by
      rw [abs_lt]
      constructor <;> linarith
    have hL : 0 < (if ρ > |r - s| then ρ else |r - s|)
        ∧ (if ρ > |r - s| then ρ else |r - s|) ≤ r + s
        ∧ r - s ≤ (if ρ > |r - s| then ρ else |r - s|)
        ∧ ρ ≤ (if ρ > |r - s| then ρ else |r - s|) := by
      by_cases h1 : ρ > |r - s|
      · simp only [h1, if_true]
        exact ⟨hρ, h.le, le_trans (le_abs_self _) h1.le, le_refl _⟩
      · simp only [h1, if_false]
        have h2 : ρ ≤ |r - s| := not_lt.1 h1
        exact ⟨lt_of_lt_of_le hρ h2, habs.le, le_abs_self _, h2⟩
    obtain ⟨hL0, hLU, hLr, hLρ⟩ := hL
    generalize (if ρ > |r - s| then ρ else |r - s|) = L at hL0 hLU hLr hLρ
    have hrs : 0 < r + s := by linarith
    have h1 : 1 / (r + s) ≤ 1 / L := one_div_le_one_div_of_le hL0 hLU
    have h2 : (r - s) * (1 / L) ≤ 1 := by
      rw [mul_one_div, div_le_one hL0]
      exact hLr
    have hclosed := hctClosed_nonneg M hLN s r (1 / L) hr hs h1 h2
    have hcorr : 0 ≤ (if ρ < s - r then 2 * (1 / ρ - 1 / L) else 0) := by
      by_cases h3 : ρ < s - r
      · simp only [h3, if_true]
        have := one_div_le_one_div_of_le hρ hLρ
        linarith
      · simp only [h3, if_false]
        exact le_refl _
    linarith
  · unfold hctTerm
    simp only [h, if_false]
    exact le_refl _

/-- The inner sum of `computeBornRadii` is non-negative for a positive offset radius of the
atom, positive scaled radii of the others and distinct positions. -/
theorem hctSum_nonneg (M : Libm ℝ) (hS : M.SQRT = Real.sqrt) (hLN : M.LN = Real.log)
    (self : ReferenceObc ℝ) (p : ObcParameters ℝ) (x : Nat → vector3 ℝ) (i : Nat)
    (hi : i < p.numberOfAtoms) (hadm : Admissible p x) : 0 ≤ hctSum M self p x i := by
  obtain ⟨h0, h1, h2, h3⟩ := hadm
  unfold hctSum
  refine foldl_keeps (fun s => 0 ≤ s) _ _ (fun s j hj hs => ?_) 0 (le_refl _)
  have hj1 := List.mem_range.1 hj
  by_cases hji : j ≠ i
  · simp only [hji, ne_eq, not_false_eq_true, if_true]
    split_ifs
    · exact hs
    · have hr : 0 < (getDeltaR M (x i) (x j)).RIndex := by
        rw [rIndex_eq, hS]
        exact Real.sqrt_pos.2 (r2_pos M _ _ (h3 i j hi hj1 (fun h => hji h.symm)))
      have hρ : 0 < p.atomicRadii i - p.dielectricOffset := by linarith [h1 i hi]
      have hsj : 0 < (p.atomicRadii j - p.dielectricOffset) * p.scaledRadiusFactors j :=
        mul_pos (by linarith [h1 j hj1]) (h2 j hj1)
      have := hctTerm_nonneg M hLN _ _ _ hr hρ hsj
      linarith
  · simp only [hji, if_false]
    exact hs

/-- C25. Every HCT pair term is non-negative: for all `r > 0`, `offsetRadiusI > 0` and
`scaledRadiusJ > 0` with `offsetRadiusI < r + scaledRadiusJ`, the value added to the sum of
atom i (closed form plus the full-burial correction when it applies) is `>= 0`; so under the
data-model invariants (non-negative dielectric offset below every radius, positive scale
factors, distinct positions) the inner sum and, without a correction grid, `Psi_i` are
non-negative for every atom. -/
theorem hctTerm_and_psi_nonneg (M : Libm ℝ) (hS : M.SQRT = Real.sqrt)
    (hLN : M.LN = Real.log) (self : ReferenceObc ℝ) (p : ObcParameters ℝ)
    (x : Nat → vector3 ℝ) :
    (∀ ρ r s : ℝ, 0 < r → 0 < ρ → 0 < s → ρ < r + s →
      hctTerm M ρ r s
          = hctClosed M s r (1 / (if ρ > |r - s| then ρ else |r - s|))
            + (if ρ < s - r then 2 * (1 / ρ - 1 / (if ρ > |r - s| then ρ else |r - s|))
                else 0)
        ∧ 0 ≤ hctTerm M ρ r s)
    ∧ (Admissible p x → ∀ i, i < p.numberOfAtoms →
        0 ≤ hctSum M self p x i ∧ 0 ≤ specPsi M self p x none i) := by
  refine ⟨fun ρ r s hr hρ hs h =>
    ⟨hctTerm_eq_closed_add M ρ r s h, hctTerm_nonneg M hLN ρ r s hr hρ hs⟩, ?_⟩
  intro hadm i hi
  have hsum := hctSum_nonneg M hS hLN self p x i hi hadm
  refine ⟨hsum, ?_⟩
  have hρ : 0 < p.atomicRadii i - p.dielectricOffset := by linarith [hadm.2.1 i hi]
  have hpsi : specPsi M self p x none i
      = (p.atomicRadii i - p.dielectricOffset) * (1 / 2 * hctSum M self p x i + 0) := by
    rw [hctSum_eq_spec]
    rfl
  rw [hpsi]
  positivity

/-- C25 at the probe configuration, on a freshly constructed object and over the reals. -/
theorem hctTerm_and_psi_nonneg_witness :
    (Admissible (probeParameters : ObcParameters ℝ) probeCoordinates
      ∧ 0 < (probeParameters : ObcParameters ℝ).numberOfAtoms
      ∧ (0 : ℝ) < 1 ∧ (1 : ℝ) < 1 + 1)
    ∧ 0 ≤ hctTerm ⟨Real.sqrt, Real.exp, Real.log, Real.tanh, fun a b => a ^ b⟩ (1 : ℝ) 1 1
    ∧ 0 ≤ hctSum ⟨Real.sqrt, Real.exp, Real.log, Real.tanh, fun a b => a ^ b⟩
        (ReferenceObc.new probeParameters) probeParameters probeCoordinates 0
    ∧ 0 ≤ specPsi ⟨Real.sqrt, Real.exp, Real.log, Real.tanh, fun a b => a ^ b⟩
        (ReferenceObc.new probeParameters) probeParameters probeCoordinates none 0 := by
  have hN : 0 < (probeParameters : ObcParameters ℝ).numberOfAtoms := by
    simp [probeParameters]
  have key := hctTerm_and_psi_nonneg
    ⟨Real.sqrt, Real.exp, Real.log, Real.tanh, fun a b => a ^ b⟩ rfl rfl
    (ReferenceObc.new probeParameters) probeParameters probeCoordinates
  exact ⟨⟨probe_admissible, hN, one_pos, by norm_num⟩,
    (key.1 1 1 1 one_pos one_pos one_pos (by norm_num)).2,
    (key.2 probe_admissible 0 hN).1, (key.2 probe_admissible 0 hN).2⟩

/-- The inner loop over `atomJ >= atomI`, as a sum over all atoms. -/
theorem listSum_range' {β : Type} [AddCommMonoid β] (f : Nat → β) (a n : Nat) :
    ((List.range' a (n - a)).map f).sum
      = ∑ c in Finset.range n, if a ≤ c then f c else 0 := by
  rw [List.range'_eq_map_range, List.map_map, listSum_range, ← Finset.sum_filter]
  have hf : (Finset.range n).filter (fun c => a ≤ c) = Finset.Ico a n := by
    ext c
    simp only [Finset.mem_filter, Finset.mem_range, Finset.mem_Ico]
    exact And.comm
  rw [hf, Finset.sum_Ico_eq_sum_range]
  rfl

/-- What a pair adds to `bornForces`, read at one atom. -/
theorem pairBornForces_apply (M : Libm α) (p : ObcParameters α) (x : Nat → vector3 α)
    (q b : Nat → α) (pc : α) (a c i : Nat) :
    pairBornForces M p x q b pc a c i
      = if p.useCutoff = true ∧ (getDeltaR M (x a) (x c)).RIndex > p.cutoffDistance then 0
        else (if a ≠ c ∧ i = c then pairDGpolDalpha2 M x q b pc a c * b a else 0)
          + (if i = a then pairDGpolDalpha2 M x q b pc a c * b c else 0) := by
  unfold pairBornForces
  by_cases hskip : p.useCutoff = true ∧ (getDeltaR M (x a) (x c)).RIndex > p.cutoffDistance
  · simp only [hskip, and_self, if_true, Pi.zero_apply]
  · have hsingle : ∀ (k : Nat) (v : α), (Pi.single k v : Nat → α) i
        = if i = k then v else 0 := fun k v => Pi.single_apply k v i
    simp only [hskip, if_false, Pi.add_apply, hsingle]
    by_cases hac : a ≠ c
    · simp only [hac, ne_eq, not_false_eq_true, if_true, true_and, hsingle]
    · simp only [hac, if_false, false_and, Pi.zero_apply]

/-- The value `dGpol_dalpha2_ij` does not depend on the order of the pair. -/
theorem pairDGpolDalpha2_symm (M : Libm α) (x : Nat → vector3 α) (q b : Nat → α) (pre : α)
    (a c : Nat) :
    pairDGpolDalpha2 M x q b (pre * q a) a c = pairDGpolDalpha2 M x q b (pre * q c) c a := by
  unfold pairDGpolDalpha2 pairGpol
  rw [r2Index_symm M (x a) (x c), mul_comm (b a) (b c),
    show pre * q a * q c = pre * q c * q a by ring]

/-- A sum over the pairs `a ≤ c` of amounts that go to atom `c = i` from the atoms `a < i`
and to atom `a = i` from the atoms `c ≥ i` collects one amount from every atom. -/
theorem sum_triangle_split {β : Type} [AddCommMonoid β] (n i : Nat) (hi : i < n)
    (W : Nat → β) :
    ∑ a in Finset.range n, ∑ c in Finset.range n,
        ((if c = i then (if a < i then W a else 0) else 0)
          + (if a = i then (if i ≤ c then W c else 0) else 0))
      = ∑ j in Finset.range n, W j := by
  have hmem : i ∈ Finset.range n := Finset.mem_range.2 hi
  simp only [Finset.sum_add_distrib]
  have h1 : ∑ a in Finset.range n, ∑ c in Finset.range n,
      (if c = i then (if a < i then W a else 0) else 0)
      = ∑ a in Finset.range n, if a < i then W a else 0 := by
    refine Finset.sum_congr rfl (fun a _ => ?_)
    rw [Finset.sum_ite_eq' (Finset.range n) i (fun _ => if a < i then W a else 0), if_pos hmem]
  have h2 : ∑ a in Finset.range n, ∑ c in Finset.range n,
      (if a = i then (if i ≤ c then W c else 0) else 0)
      = ∑ c in Finset.range n, if i ≤ c then W c else 0 := by
    rw [Finset.sum_comm]
    refine Finset.sum_congr rfl (fun c _ => ?_)
    rw [Finset.sum_ite_eq' (Finset.range n) i (fun _ => if i ≤ c then W c else 0), if_pos hmem]
  rw [h1, h2, ← Finset.sum_add_distrib]
  refine Finset.sum_congr rfl (fun j _ => ?_)
  by_cases hj : j < i
  · simp only [hj, if_true, not_le.2 hj, if_false, add_zero]
  · simp only [hj, if_false, not_lt.1 hj, if_true, zero_add]

/-- After the first main loop, what it has added to `bornForces[i]` is the sum over every
atom j not skipped by the cutoff of `dGpol_dalpha2_ij * bornRadii[j]`. -/
theorem firstPassBornForces_apply (M : Libm α) (p : ObcParameters α) (x : Nat → vector3 α)
    (q b : Nat → α) (pre : α) (i : Nat) (hi : i < p.numberOfAtoms) :
    firstPassBornForces M p x q b pre i = bornForceSum M p x q b pre i := by
  unfold firstPassBornForces bornForceSum
  rw [listSum_apply, listSum_range]
  simp only [listSum_apply, listSum_range', pairBornForces_apply]
  have hpt : ∀ a c : Nat,
      (if a ≤ c then
        (if p.useCutoff = true ∧ (getDeltaR M (x a) (x c)).RIndex > p.cutoffDistance then 0
        else (if a ≠ c ∧ i = c then pairDGpolDalpha2 M x q b (pre * q a) a c * b a else 0)
          + (if i = a then pairDGpolDalpha2 M x q b (pre * q a) a c * b c else 0))
      else 0)
      = (if c = i then (if a < i then
            (if p.useCutoff = true ∧ (getDeltaR M (x i) (x a)).RIndex > p.cutoffDistance
              then 0 else pairDGpolDalpha2 M x q b (pre * q i) i a * b a) else 0) else 0)
        + (if a = i then (if i ≤ c then
            (if p.useCutoff = true ∧ (getDeltaR M (x i) (x c)).RIndex > p.cutoffDistance
              then 0 else pairDGpolDalpha2 M x q b (pre * q i) i c * b c) else 0) else 0) := by
    intro a c
    by_cases hc : c = i
    · subst hc
      by_cases ha : a = c
      · subst ha
        simp
      · rcases lt_or_gt_of_ne ha with hlt | hgt
        · have hne : a ≠ c := ha
          simp only [hlt.le, if_true, hlt, ha, if_false, add_zero, ne_eq, not_false_eq_true,
            true_and, Ne.symm ha, rIndex_symm M (x c) (x a),
            pairDGpolDalpha2_symm M x q b pre c a]
        · have h1 : ¬ a ≤ c := not_le.2 hgt
          have h2 : ¬ a < c := fun h => absurd h (not_lt.2 hgt.le)
          simp only [h1, h2, ha, if_false, if_true, add_zero]
    · by_cases ha : a = i
      · subst ha
        have hca : ¬ a = c := fun h => hc h.symm
        simp only [hc, if_false, if_true, zero_add, hca, and_false, ne_eq]
      · have hia : ¬ i = a := fun h => ha h.symm
        have hic : ¬ i = c := fun h => hc h.symm
        simp only [hc, ha, hia, hic, and_false, if_false, add_zero, ite_self]
  simp only [hpt]
  exact sum_triangle_split p.numberOfAtoms i hi (fun j =>
    if p.useCutoff = true ∧ (getDeltaR M (x i) (x j)).RIndex > p.cutoffDistance then 0
    else pairDGpolDalpha2 M x q b (pre * q i) i j * b j)

/-- One entry of the array `bornRadii` as a function of the value put into slot `i`. -/
theorem hasDerivAt_update (b : Nat → ℝ) (i a : Nat) (t : ℝ) :
    HasDerivAt (fun t => Function.update b i t a) (if a = i then 1 else 0) t := by
  by_cases h : a = i
  · subst h
    simp only [Function.update_same, if_true]
    exact hasDerivAt_id t
  · simp only [Function.update_noteq h, h, if_false]
    exact hasDerivAt_const t (b a)

/-- The energy of a pair is differentiable in `bornRadii[i]`, with derivative the amount the
pair adds to `bornForces[i]`. -/
theorem hasDerivAt_pairEnergy_radius (M : Libm ℝ) (hS : M.SQRT = Real.sqrt)
    (hE : M.EXP = Real.exp) (p : ObcParameters ℝ) (x : Nat → vector3 ℝ) (q b : Nat → ℝ)
    (pc : ℝ) (a c i : Nat) (ha : 0 < b a) (hc : 0 < b c) :
    HasDerivAt (fun t => pairEnergy M p x q (Function.update b i t) pc a c)
      (pairBornForces M p x q b pc a c i) (b i) := by
  rw [pairBornForces_apply]
  have hA := (hasDerivAt_update b i a (b i)).mul (hasDerivAt_update b i c (b i))
  have hR := hasDerivAt_const (b i) (getDeltaR M (x a) (x c)).R2Index
  have hself : Function.update b i (b i) = b := Function.update_eq_self i b
  have hG := hasDerivAt_gpol (pc * q c) (fun _ => (getDeltaR M (x a) (x c)).R2Index)
    (fun t => Function.update b i t a * Function.update b i t c) _ _ (b i) hR hA
    (r2_nonneg M _ _) (by simp only [hself]; exact mul_pos ha hc)
  simp only [hself] at hG
  have hGp : HasDerivAt (fun t => pairGpol M x q (Function.update b i t) pc a c)
      (pairDGpolDalpha2 M x q b pc a c
        * ((if a = i then 1 else 0) * b c + b a * (if c = i then 1 else 0))) (b i) := by
    unfold pairGpol pairDGpolDalpha2 pairGpol
    simp only [hS, hE]
    convert hG using 1
    ring
  unfold pairEnergy
  by_cases hskip : p.useCutoff = true
      ∧ (getDeltaR M (x a) (x c)).RIndex > p.cutoffDistance
  · simp only [hskip, and_self, if_true]
    exact hasDerivAt_const _ _
  · simp only [hskip, if_false]
    by_cases hac : a ≠ c
    · simp only [hac, ne_eq, not_false_eq_true, if_true, true_and]
      have hfin : HasDerivAt (fun t => pairGpol M x q (Function.update b i t) pc a c)
          ((if i = c then pairDGpolDalpha2 M x q b pc a c * b a else 0)
            + (if i = a then pairDGpolDalpha2 M x q b pc a c * b c else 0)) (b i) := by
        convert hGp using 1
        by_cases h1 : a = i
        · by_cases h2 : c = i
          · exact absurd (h1.trans h2.symm) hac
          · rw [if_neg (fun h : i = c => h2 h.symm), if_pos h1.symm, if_pos h1, if_neg h2]
            ring
        · by_cases h2 : c = i
          · rw [if_pos h2.symm, if_neg (fun h : i = a => h1 h.symm), if_neg h1, if_pos h2]
            ring
          · rw [if_neg (fun h : i = c => h2 h.symm), if_neg (fun h : i = a => h1 h.symm),
              if_neg h1, if_neg h2]
            ring
      by_cases hcut : p.useCutoff = true
      · simp only [hcut, if_true]
        exact hfin.sub_const _
      · simp only [hcut, if_false]
        exact hfin
    · have hac' : a = c := not_not.1 hac
      subst hac'
      simp only [ne_eq, not_true_eq_false, if_false, false_and, zero_add]
      have := hGp.mul_const (1 / 2 : ℝ)
      convert this using 1
      by_cases h1 : a = i
      · rw [if_pos h1.symm, if_pos h1]
        ring
      · rw [if_neg (fun h : i = a => h1 h.symm), if_neg h1]
        ring

/-- The polar pair sum is differentiable in `bornRadii[i]`, with derivative what the first
main loop adds to `bornForces[i]`. -/
theorem hasDerivAt_polarSum_radius (M : Libm ℝ) (hS : M.SQRT = Real.sqrt)
    (hE : M.EXP = Real.exp) (p : ObcParameters ℝ) (x : Nat → vector3 ℝ) (q b : Nat → ℝ)
    (pre : ℝ) (i : Nat) (hb : ∀ j, j < p.numberOfAtoms → 0 < b j) :
    HasDerivAt (fun t => polarSum M p x q (Function.update b i t) pre)
      (firstPassBornForces M p x q b pre i) (b i) := by
  have key := hasDerivAt_listSum (List.range p.numberOfAtoms)
    (fun a t => ((List.range' a (p.numberOfAtoms - a)).map fun c =>
      pairEnergy M p x q (Function.update b i t) (pre * q a) a c).sum)
    (fun a => ((List.range' a (p.numberOfAtoms - a)).map fun c =>
      pairBornForces M p x q b (pre * q a) a c i).sum) (b i)
    (fun a ha => hasDerivAt_listSum (List.range' a (p.numberOfAtoms - a))
      (fun c t => pairEnergy M p x q (Function.update b i t) (pre * q a) a c)
      (fun c => pairBornForces M p x q b (pre * q a) a c i) (b i)
      (fun c hc => hasDerivAt_pairEnergy_radius M hS hE p x q b (pre * q a) a c i
        (hb a (List.mem_range.1 ha))
        (hb c (by
          have h1 := List.mem_range.1 ha
          have h2 := (List.mem_range'_1.1 hc).2
          omega))))
  unfold polarSum firstPassBornForces
  rw [listSum_apply]
  simp only [listSum_apply]
  exact key

/-- The ACE energy is differentiable in `bornRadii[i]`, with derivative the ACE entry of
`bornForces[i]`. -/
theorem hasDerivAt_ace_radius (M : Libm ℝ) (hP : M.POW = fun a b => a ^ b)
    (self : ReferenceObc ℝ) (p : ObcParameters ℝ) (b : Nat → ℝ) (i : Nat)
    (hi : i < p.numberOfAtoms) (hb : ∀ j, j < p.numberOfAtoms → 0 < b j) :
    HasDerivAt (fun t => (aceStage M self p (Function.update b i t)).1)
      ((aceStage M self p b).2 i) (b i) := by
  have hself : Function.update b i (b i) = b := Function.update_eq_self i b
  have hterm : ∀ j ∈ Finset.range p.numberOfAtoms,
      HasDerivAt (fun t => if self.includeAceApproximation ≠ 0 then
          p.strength * (p.pi4Asolv * (p.atomicRadii j + p.probeRadius)
            * (p.atomicRadii j + p.probeRadius)
            * (p.atomicRadii j / Function.update b i t j) ^ 6)
        else 0)
        (if j = i then (aceStage M self p b).2 i else 0) (b i) := by
    intro j hj
    have hj1 := Finset.mem_range.1 hj
    by_cases hf : self.includeAceApproximation ≠ 0
    · simp only [hf, ne_eq, not_false_eq_true, if_true]
      have hu := hasDerivAt_update b i j (b i)
      have hne : Function.update b i (b i) j ≠ 0 := by
        rw [hself]
        exact (hb j hj1).ne'
      have hd := ((hasDerivAt_const (b i) (p.atomicRadii j)).div hu hne).pow 6
      have hfull := hd.const_mul (p.strength * (p.pi4Asolv * (p.atomicRadii j + p.probeRadius)
        * (p.atomicRadii j + p.probeRadius)))
      rw [hself] at hfull
      have hfun : (fun t => p.strength * (p.pi4Asolv * (p.atomicRadii j + p.probeRadius)
            * (p.atomicRadii j + p.probeRadius)
            * (p.atomicRadii j / Function.update b i t j) ^ 6))
          = fun t => p.strength * (p.pi4Asolv * (p.atomicRadii j + p.probeRadius)
              * (p.atomicRadii j + p.probeRadius))
            * (p.atomicRadii j / Function.update b i t j) ^ 6 := by
        funext t
        ring
      rw [hfun]
      convert hfull using 1
      by_cases hji : j = i
      · subst hji
        rw [aceStage_snd M hP self p b j hj1 (hb j hj1)]
        simp only [hf, ne_eq, not_false_eq_true, if_true]
        have hbj := (hb j hj1).ne'
        field_simp
        ring
      · simp only [hji, if_false]
        ring
    · simp only [hf, if_false]
      have h0 : (aceStage M self p b).2 i = 0 := by
        unfold aceStage
        simp only [hf, if_false]
      rw [h0, ite_self]
      exact hasDerivAt_const _ _
  have hsum := HasDerivAt.sum hterm
  have hval : (∑ j in Finset.range p.numberOfAtoms,
      if j = i then (aceStage M self p b).2 i else 0) = (aceStage M self p b).2 i := by
    rw [Finset.sum_ite_eq' (Finset.range p.numberOfAtoms) i
      (fun _ => (aceStage M self p b).2 i), if_pos (Finset.mem_range.2 hi)]
  rw [hval] at hsum
  refine hsum.congr_of_eventuallyEq ?_
  filter_upwards [eventually_gt_nhds (hb i hi)] with t ht
  rw [aceStage_fst M hP self p (Function.update b i t) (fun j hj => by
    by_cases hji : j = i
    · subst hji
      rw [Function.update_same]
      exact ht
    · rw [Function.update_noteq hji]
      exact hb j hj)]

/-- C22. After the ACE stage and the first main loop of `computeBornEnergyForces`, before
the rescaling, `bornForces[i]` is the ACE derivative of atom i (when the ACE flag is on and
the atom is not skipped) plus the sum over every atom j not skipped by the cutoff, `j = i`
and both `j < i` and `j > i` included, of `dGpol_dalpha2(i, j) * bornRadii[j]`; for the
diagonal pair `dGpol_dalpha2` comes from the un-halved `Gpol`; and for positive Born radii
`bornForces[i]` is the partial derivative of the accumulated energy with respect to
`bornRadii[i]`. -/
theorem bornForces_after_first_pass (M : Libm ℝ) (hM : M.IsExact) (self : ReferenceObc ℝ)
    (p : ObcParameters ℝ) (x : Nat → vector3 ℝ) (q b : Nat → ℝ) (pre : ℝ)
    (F : Nat → vector3 ℝ) (i : Nat) (hi : i < p.numberOfAtoms) :
    (firstMainLoop M p x q b pre
        { obcEnergy := (aceStage M self p b).1, bornForces := (aceStage M self p b).2,
          inputForces := F }).bornForces i
      = (if self.includeAceApproximation ≠ 0 ∧ b i > 0 then
          p.strength * (-6) * aceSaTerm M p b i / b i else 0)
        + bornForceSum M p x q b pre i
    ∧ pairDGpolDalpha2 M x q b (pre * q i) i i
        = -(1 / 2) * (pre * q i * q i / |b i|) / (b i * b i)
    ∧ ((∀ j, j < p.numberOfAtoms → 0 < b j) →
        HasDerivAt (fun t => accumulatedEnergy M self p x q pre F (Function.update b i t))
          ((firstMainLoop M p x q b pre
            { obcEnergy := (aceStage M self p b).1, bornForces := (aceStage M self p b).2,
              inputForces := F }).bornForces i) (b i)) := by
  obtain ⟨hS, hE, hLN, hT, hP⟩ := hM
  refine ⟨?_, ?_, ?_⟩
  · rw [firstMainLoop_bornForces, Pi.add_apply, firstPassBornForces_apply M p x q b pre i hi]
    congr 1
    show (aceStage M self p b).2 i = _
    unfold aceStage
    by_cases hf : self.includeAceApproximation ≠ 0
    · simp only [hf, ne_eq, not_false_eq_true, if_true, computeAceNonPolarForce_eq, hi,
        true_and, zero_add]
    · simp only [hf, if_false, false_and]
  · unfold pairDGpolDalpha2
    rw [pairGpol_self M hS hE, r2Index_self, hE]
    simp only [zero_div, neg_zero, Real.exp_zero, mul_one, add_zero, zero_add]
  · intro hb
    have h1 := hasDerivAt_ace_radius M hP self p b i hi hb
    have h2 := hasDerivAt_polarSum_radius M hS hE p x q b pre i hb
    have h3 := h1.add h2
    rw [firstMainLoop_bornForces, Pi.add_apply]
    unfold accumulatedEnergy
    simp only [firstMainLoop_obcEnergy]
    exact h3

/-- C22 at atom 0 of the two-atom scenario with unit Born radii and `preFactor = 1`, on a
freshly constructed object and over the reals. -/
theorem bornForces_after_first_pass_witness :
    (0 < (scenarioParameters : ObcParameters ℝ).numberOfAtoms
      ∧ ∀ j, j < (scenarioParameters : ObcParameters ℝ).numberOfAtoms →
          (0 : ℝ) < (fun _ => 1 : Nat → ℝ) j)
    ∧ (firstMainLoop ⟨Real.sqrt, Real.exp, Real.log, Real.tanh, fun a b => a ^ b⟩
        scenarioParameters scenarioCoordinates scenarioCharges (fun _ => 1) 1
        { obcEnergy := (aceStage ⟨Real.sqrt, Real.exp, Real.log, Real.tanh, fun a b => a ^ b⟩
            (ReferenceObc.new scenarioParameters) scenarioParameters (fun _ => 1)).1,
          bornForces := (aceStage ⟨Real.sqrt, Real.exp, Real.log, Real.tanh, fun a b => a ^ b⟩
            (ReferenceObc.new scenarioParameters) scenarioParameters (fun _ => 1)).2,
          inputForces := fun _ => 0 }).bornForces 0
      = (if (ReferenceObc.new (scenarioParameters : ObcParameters ℝ)).includeAceApproximation
              ≠ 0 ∧ (fun _ => 1 : Nat → ℝ) 0 > 0 then
          (scenarioParameters : ObcParameters ℝ).strength * (-6)
            * aceSaTerm ⟨Real.sqrt, Real.exp, Real.log, Real.tanh, fun a b => a ^ b⟩
                scenarioParameters (fun _ => 1) 0 / (fun _ => 1 : Nat → ℝ) 0 else 0)
        + bornForceSum ⟨Real.sqrt, Real.exp, Real.log, Real.tanh, fun a b => a ^ b⟩
            scenarioParameters scenarioCoordinates scenarioCharges (fun _ => 1) 1 0
    ∧ HasDerivAt
        (fun t => accumulatedEnergy ⟨Real.sqrt, Real.exp, Real.log, Real.tanh, fun a b => a ^ b⟩
          (ReferenceObc.new scenarioParameters) scenarioParameters scenarioCoordinates
          scenarioCharges 1 (fun _ => 0) (Function.update (fun _ => 1) 0 t))
        ((firstMainLoop ⟨Real.sqrt, Real.exp, Real.log, Real.tanh, fun a b => a ^ b⟩
          scenarioParameters scenarioCoordinates scenarioCharges (fun _ => 1) 1
          { obcEnergy := (aceStage ⟨Real.sqrt, Real.exp, Real.log, Real.tanh, fun a b => a ^ b⟩
              (ReferenceObc.new scenarioParameters) scenarioParameters (fun _ => 1)).1,
            bornForces := (aceStage ⟨Real.sqrt, Real.exp, Real.log, Real.tanh, fun a b => a ^ b⟩
              (ReferenceObc.new scenarioParameters) scenarioParameters (fun _ => 1)).2,
            inputForces := fun _ => 0 }).bornForces 0)
        ((fun _ => 1 : Nat → ℝ) 0) := by
  have hN : 0 < (scenarioParameters : ObcParameters ℝ).numberOfAtoms := by
    simp [scenarioParameters]
  have hb : ∀ j, j < (scenarioParameters : ObcParameters ℝ).numberOfAtoms →
      (0 : ℝ) < (fun _ => 1 : Nat → ℝ) j := fun _ _ => one_pos
  have key := bornForces_after_first_pass
    ⟨Real.sqrt, Real.exp, Real.log, Real.tanh, fun a b => a ^ b⟩ ⟨rfl, rfl, rfl, rfl, rfl⟩
    (ReferenceObc.new scenarioParameters) scenarioParameters scenarioCoordinates
    scenarioCharges (fun _ => 1) 1 (fun _ => 0) 0 hN
  exact ⟨⟨hN, hb⟩, key.1, key.2.2 hb⟩

end Theorems

end AlGDock
